import Mathlib

/-!
# Buffer cache (`kernel/bio.c`)

A shallow embedding of the hashed buffer cache: `binit`, `bget`, `bread`,
`brelse`, `bpin`, `bunpin`.

* `bcache.buf[i]` is addressed by its index `i`; a `struct buf *` is a `Nat`.
* The chain hanging off `bcache.bufmap[k].next` through the `next` fields is the
  list `bufmap k` of buffer indices, head first.
* Spin locks (`bufmap_locks`, `eviction_lock`) guard against other cores only;
  a call taken alone acquires and releases them without any effect on the data,
  so they carry no state here.
* The sleep lock of a buffer is the pid of its holder, if any.
-/

namespace Bio

/-! ## Definitions -/

/-- The constant `BUCKETSIZE`: bucket number for bufmap. -/
def BUCKETSIZE : Nat := 13

/-- The hash `BUFMAP_HASH(dev, blockno) = ((dev << 27) | blockno) % BUCKETSIZE`,
computed on 32-bit unsigned operands. -/
def BUFMAP_HASH (dev blockno : Nat) : Nat :=
  (((dev <<< 27) % 4294967296) ||| blockno) % BUCKETSIZE

/-- Modelled from the spec: `struct buf` is declared in `buf.h`, which is not
among the sources. The fields are the ones `bio.c` touches: the validity flag
(`false` for 0, `true` for 1, the only values `bio.c` stores in it),
the device and block number (`uint`, as the parameters of `bget`), the content
("sleep") lock, which per the spec tracks its holder, the reference count (an
integer count, no width is given) and the last-released timestamp. -/
structure Buf where
  valid : Bool
  dev : Nat
  blockno : Nat
  lock : Option Nat
  refcnt : Int
  lastuse : Nat
deriving DecidableEq, Repr

/-- The state touched by `bio.c`: the buffers `bcache.buf`, the bucket chains
`bcache.bufmap`, and the trace of `virtio_disk_rw(b, write)` calls issued so far
(newest first). -/
structure Bcache where
  buf : Nat → Buf
  bufmap : Nat → List Nat
  disklog : List (Nat × Nat)

/-- Pointwise update of a table. -/
def upd {α : Type} (f : Nat → α) (i : Nat) (v : α) : Nat → α :=
  fun j => if j = i then v else f j

/-- How a call ends: it returns, or the caller is suspended in `acquiresleep`
waiting for buffer `b`, or the kernel panics. -/
inductive Outcome (α : Type) where
  | ret (s : Bcache) (a : α)
  | sleep (s : Bcache) (b : Nat)
  | panic (s : Bcache) (msg : String)

/-- Zero-filled static storage: `bcache` before `binit` runs. -/
def zeroed : Bcache :=
  { buf := fun _ => { valid := false, dev := 0, blockno := 0, lock := none, refcnt := 0, lastuse := 0 }
    bufmap := fun _ => []
    disklog := [] }

/-- One round of the second loop of `binit`, for buffer `i`. -/
def binit_buf (s : Bcache) (i : Nat) : Bcache :=
  { s with
    buf := upd s.buf i { s.buf i with lock := none, lastuse := 0, refcnt := 0 }
    bufmap := upd s.bufmap 0 (i :: s.bufmap 0) }

/-- The function `binit`; `NBUF` comes from `param.h`, which is not among the sources,
and is a parameter. -/
def binit (NBUF : Nat) : Bcache :=
  (List.range NBUF).foldl binit_buf
    ((List.range BUCKETSIZE).foldl (fun s i => { s with bufmap := upd s.bufmap i [] }) zeroed)

/-- Modelled from the spec: `holdingsleep` of `sleeplock.c` (not among the sources);
the lock "tracks holder for contract checks". -/
def holdingsleep (lk : Option Nat) (pid : Nat) : Bool :=
  lk == some pid

/-- Modelled from the spec: `acquiresleep(&b->lock)` of `sleeplock.c` (not among the
sources) followed by `return b`: "acquire suspends caller" when the lock is taken. -/
def acquiresleep (pid b : Nat) (s : Bcache) : Outcome Nat :=
  if (s.buf b).lock = none then
    .ret { s with buf := upd s.buf b { s.buf b with lock := some pid } } b
  else .sleep s b

/-- The loop `for(b = bcache.bufmap[key].next; b; b = b->next)` of `bget` with its
test `b->dev == dev && b->blockno == blockno`: the first match of the chain. -/
def lookup (s : Bcache) (dev blockno : Nat) (chain : List Nat) : Option Nat :=
  chain.find? (fun b => decide ((s.buf b).dev = dev ∧ (s.buf b).blockno = blockno))

/-- The statement `b->refcnt++`. -/
def incref (s : Bcache) (b : Nat) : Bcache :=
  { s with buf := upd s.buf b { s.buf b with refcnt := (s.buf b).refcnt + 1 } }

/-- The statement `b->refcnt--`. -/
def decref (s : Bcache) (b : Nat) : Bcache :=
  { s with buf := upd s.buf b { s.buf b with refcnt := (s.buf b).refcnt - 1 } }

/-- The buffer `p->next` for a node pointer `p` given as (bucket, position): position `j`
of bucket `i` is the node that precedes the `j`-th buffer of the chain (position 0 is
`&bcache.bufmap[i]`). -/
def nextOf (s : Bcache) (p : Nat × Nat) : Nat :=
  (s.bufmap p.1).getD p.2 0

/-- The test `!before_least || b->next->lastuse < before_least->next->lastuse` of the
eviction scan, for `x = b->next`. -/
def older (s : Bcache) (x : Nat) : Option (Nat × Nat) → Bool
  | none => true
  | some p => decide ((s.buf x).lastuse < (s.buf (nextOf s p)).lastuse)

/-- The inner loop `for(b = &bcache.bufmap[i]; b->next; b = b->next)` of the eviction
scan, from position `j` on, where `rest` is the chain from `b->next` on. The accumulator
is `(before_least, foundnew)`. -/
def scanBucket (s : Bcache) (i : Nat) :
    List Nat → Nat → Option (Nat × Nat) × Bool → Option (Nat × Nat) × Bool
  | [], _, acc => acc
  | x :: rest, j, (before_least, foundnew) =>
    if (s.buf x).refcnt = 0 ∧ older s x before_least = true then
      scanBucket s i rest (j + 1) (some (i, j), true)
    else
      scanBucket s i rest (j + 1) (before_least, foundnew)

/-- One round of the outer loop `for(int i = 0; i < BUCKETSIZE; i++)` of the eviction
scan; the accumulator is `(before_least, holding_bucket)`. -/
def scanStep (s : Bcache) (acc : Option (Nat × Nat) × Nat) (i : Nat) :
    Option (Nat × Nat) × Nat :=
  let r := scanBucket s i (s.bufmap i) 0 (acc.1, false)
  if r.2 then (r.1, i) else (r.1, acc.2)

/-- The eviction scan of `bget`, started with `before_least = 0` and
`holding_bucket = -1` (as `uint`). -/
def scan (s : Bcache) : Option (Nat × Nat) × Nat :=
  (List.range BUCKETSIZE).foldl (scanStep s) (none, 4294967295)

/-- Lines 144-160 of `bget`: recycle `b = before_least->next`. -/
def recycle (s : Bcache) (before_least : Nat × Nat) (holding_bucket : Nat)
    (dev blockno : Nat) : Bcache × Nat :=
  let key := BUFMAP_HASH dev blockno
  let b := nextOf s before_least
  let s1 : Bcache :=
    if holding_bucket ≠ key then
      let m1 := upd s.bufmap before_least.1 ((s.bufmap before_least.1).eraseIdx before_least.2)
      { s with bufmap := upd m1 key (b :: m1 key) }
    else s
  ({ s1 with
     buf := upd s1.buf b { s1.buf b with dev := dev, blockno := blockno, refcnt := 1, valid := false } },
   b)

/-- The function `bget`, called by process `pid`. -/
def bget (pid dev blockno : Nat) (s : Bcache) : Outcome Nat :=
  let key := BUFMAP_HASH dev blockno
  match lookup s dev blockno (s.bufmap key) with
  | some b => acquiresleep pid b (incref s b)
  | none =>
    match lookup s dev blockno (s.bufmap key) with
    | some b => acquiresleep pid b (incref s b)
    | none =>
      match scan s with
      | (none, _) => .panic s "bget: no buffers"
      | (some before_least, holding_bucket) =>
        let r := recycle s before_least holding_bucket dev blockno
        acquiresleep pid r.2 r.1

/-- The statement `if(!b->valid) { virtio_disk_rw(b, 0); b->valid = 1; }` of `bread`. -/
def fill (b : Nat) (s : Bcache) : Bcache :=
  if !(s.buf b).valid then
    { s with
      disklog := (b, 0) :: s.disklog
      buf := upd s.buf b { s.buf b with valid := true } }
  else s

/-- The function `bread`, called by process `pid`. -/
def bread (pid dev blockno : Nat) (s : Bcache) : Outcome Nat :=
  match bget pid dev blockno s with
  | .ret s1 b => .ret (fill b s1) b
  | .sleep s1 b => .sleep s1 b
  | .panic s1 msg => .panic s1 msg

/-- The function `brelse`, called by process `pid` when the tick counter reads `ticks`. -/
def brelse (ticks pid b : Nat) (s : Bcache) : Outcome Unit :=
  if !holdingsleep (s.buf b).lock pid then .panic s "brelse"
  else
    let s1 : Bcache := { s with buf := upd s.buf b { s.buf b with lock := none } }
    let s2 := decref s1 b
    if (s2.buf b).refcnt = 0 then
      .ret { s2 with buf := upd s2.buf b { s2.buf b with lastuse := ticks } } ()
    else .ret s2 ()

/-- The function `bpin`. -/
def bpin (b : Nat) (s : Bcache) : Bcache := incref s b

/-- The function `bunpin`. -/
def bunpin (b : Nat) (s : Bcache) : Bcache := decref s b

/-- The buffer a call of `bget` or `bread` hands to its caller, with the state it leaves:
at once when the call returns, or as soon as the content lock is released when the caller
is suspended in `acquiresleep`. A panic hands out nothing. -/
def granted : Outcome Nat → Option (Bcache × Nat)
  | .ret s b => some (s, b)
  | .sleep s b => some (s, b)
  | .panic _ _ => none

/-- The state a call leaves behind, whichever way it ends. -/
def after {α : Type} : Outcome α → Bcache
  | .ret s _ => s
  | .sleep s _ => s
  | .panic s _ => s

/-- The state `s'` is `s` with at most the content lock of buffer `b` changed. -/
def LockOnly (s s' : Bcache) (b : Nat) : Prop :=
  s'.bufmap = s.bufmap ∧ s'.disklog = s.disklog ∧ (∀ y, y ≠ b → s'.buf y = s.buf y) ∧
  (s'.buf b).dev = (s.buf b).dev ∧ (s'.buf b).blockno = (s.buf b).blockno ∧
  (s'.buf b).valid = (s.buf b).valid ∧ (s'.buf b).refcnt = (s.buf b).refcnt ∧
  (s'.buf b).lastuse = (s.buf b).lastuse

/-- The call ended in a panic. -/
def panicked {α : Type} : Outcome α → Bool
  | .panic _ _ => true
  | _ => false

/-- The identity test `b->dev == dev && b->blockno == blockno`. -/
def HasId (s : Bcache) (dev blockno b : Nat) : Prop :=
  (s.buf b).dev = dev ∧ (s.buf b).blockno = blockno

instance (s : Bcache) (dev blockno b : Nat) : Decidable (HasId s dev blockno b) := by
  unfold HasId; infer_instance

/-- Two chains share no buffer. -/
def Apart (l l' : List Nat) : Prop := ∀ x ∈ l, x ∉ l'

instance (l l' : List Nat) : Decidable (Apart l l') := by
  unfold Apart; infer_instance

/-- The chains are linked lists through the single `next` field of each buffer: no buffer
occurs twice in a chain, and no buffer lies in two chains. -/
def Chained (s : Bcache) : Prop :=
  (∀ k < BUCKETSIZE, (s.bufmap k).Nodup) ∧
  ∀ k < BUCKETSIZE, ∀ k' < BUCKETSIZE, k ≠ k' → Apart (s.bufmap k) (s.bufmap k')

instance (s : Bcache) : Decidable (Chained s) := by
  unfold Chained; infer_instance

/-- Position `(i', j')` comes before `(i, j)` in scan order (buckets in increasing order,
each bucket from head to tail). -/
def Before (i' j' i j : Nat) : Prop := i' < i ∨ (i' = i ∧ j' < j)

instance (i' j' i j : Nat) : Decidable (Before i' j' i j) := by
  unfold Before; infer_instance

/-- What the scan has established once every position before `(I, J)` has been visited:
no unreferenced buffer was met, or `before_least` designates the first one among those with
the least `lastuse`. -/
def Best (s : Bcache) (I J : Nat) : Option (Nat × Nat) → Prop
  | none => ∀ i' j', Before i' j' I J → j' < (s.bufmap i').length →
      (s.buf (nextOf s (i', j'))).refcnt ≠ 0
  | some p => Before p.1 p.2 I J ∧ p.2 < (s.bufmap p.1).length ∧
      (s.buf (nextOf s p)).refcnt = 0 ∧
      ∀ i' j', Before i' j' I J → j' < (s.bufmap i').length →
        (s.buf (nextOf s (i', j'))).refcnt = 0 →
        (s.buf (nextOf s p)).lastuse ≤ (s.buf (nextOf s (i', j'))).lastuse ∧
        (Before i' j' p.1 p.2 →
          (s.buf (nextOf s p)).lastuse < (s.buf (nextOf s (i', j'))).lastuse)

/-- The loop invariant of the outer scan loop. -/
def ScanInv (s : Bcache) (i : Nat) (acc : Option (Nat × Nat) × Nat) : Prop :=
  Best s i 0 acc.1 ∧ ∀ p, acc.1 = some p → acc.2 = p.1

/-- The states reachable from `binit` by calls of `bget`, `bread`, `brelse`, `bpin` and
`bunpin`, together with the list of the buffers handed out so far: a caller passes to
`brelse`, `bpin` and `bunpin` a pointer it got from `bget` or `bread`. A caller suspended in
`acquiresleep` resumes once the content lock is free (`wake`, and `resume_read` inside
`bread`). A call that panics halts the kernel and has no successor. -/
inductive Reachable (NBUF : Nat) : Bcache → List Nat → Prop
  | init : Reachable NBUF (binit NBUF) []
  | get {s : Bcache} {H : List Nat} (pid dev blockno : Nat) (s' : Bcache) (b : Nat) :
      Reachable NBUF s H → granted (bget pid dev blockno s) = some (s', b) →
      Reachable NBUF s' (b :: H)
  | read {s : Bcache} {H : List Nat} (pid dev blockno : Nat) (s' : Bcache) (b : Nat) :
      Reachable NBUF s H → granted (bread pid dev blockno s) = some (s', b) →
      Reachable NBUF s' (b :: H)
  | wake {s : Bcache} {H : List Nat} (pid b : Nat) (s' : Bcache) :
      Reachable NBUF s H → b ∈ H → acquiresleep pid b s = .ret s' b → Reachable NBUF s' H
  | resume_read {s : Bcache} {H : List Nat} (pid b : Nat) (s' : Bcache) :
      Reachable NBUF s H → b ∈ H → acquiresleep pid b s = .ret s' b →
      Reachable NBUF (fill b s') H
  | release {s : Bcache} {H : List Nat} (ticks pid b : Nat) (s' : Bcache) :
      Reachable NBUF s H → b ∈ H → brelse ticks pid b s = .ret s' () → Reachable NBUF s' H
  | pin {s : Bcache} {H : List Nat} (b : Nat) :
      Reachable NBUF s H → b ∈ H → Reachable NBUF (bpin b s) H
  | unpin {s : Bcache} {H : List Nat} (b : Nat) :
      Reachable NBUF s H → b ∈ H → Reachable NBUF (bunpin b s) H

/-- The invariant of the reachable states: the chains are proper lists, every buffer lies in
the bucket of its identity, a buffer handed out is the first of its chain with its identity,
a buffer with a non-zero reference count has been handed out, every buffer of the pool is
chained, and two buffers share an identity only if it is the initial `(0, 0)`. -/
structure Inv (NBUF : Nat) (s : Bcache) (H : List Nat) : Prop where
  chained : Chained s
  hashed : ∀ k < BUCKETSIZE, ∀ x ∈ s.bufmap k,
    BUFMAP_HASH (s.buf x).dev (s.buf x).blockno = k
  first : ∀ x ∈ H, lookup s (s.buf x).dev (s.buf x).blockno
    (s.bufmap (BUFMAP_HASH (s.buf x).dev (s.buf x).blockno)) = some x
  live : ∀ x, (s.buf x).refcnt ≠ 0 → x ∈ H
  member : ∀ x < NBUF, ∃ k < BUCKETSIZE, x ∈ s.bufmap k
  zero : ∀ k < BUCKETSIZE, ∀ k' < BUCKETSIZE, ∀ x ∈ s.bufmap k, ∀ y ∈ s.bufmap k', x ≠ y →
    (s.buf x).dev = (s.buf y).dev → (s.buf x).blockno = (s.buf y).blockno →
    (s.buf x).dev = 0 ∧ (s.buf x).blockno = 0

/-- The states reachable from `binit` by `bget`, `brelse`, `bpin` and `bunpin` when `brelse` is
applied only to a buffer with an outstanding `bget` and `bunpin` only to a buffer with an
outstanding `bpin`; `gets b` and `pins b` count the outstanding gets and pins of buffer `b`.
A caller suspended in `acquiresleep` resumes once the content lock is free (`wake`). -/
inductive Tracked (NBUF : Nat) : Bcache → (Nat → Nat) → (Nat → Nat) → Prop
  | init : Tracked NBUF (binit NBUF) (fun _ => 0) (fun _ => 0)
  | get {s : Bcache} {gets pins : Nat → Nat} (pid dev blockno : Nat) (s' : Bcache) (b : Nat) :
      Tracked NBUF s gets pins → granted (bget pid dev blockno s) = some (s', b) →
      Tracked NBUF s' (upd gets b (gets b + 1)) pins
  | wake {s : Bcache} {gets pins : Nat → Nat} (pid b : Nat) (s' : Bcache) :
      Tracked NBUF s gets pins → acquiresleep pid b s = .ret s' b → Tracked NBUF s' gets pins
  | release {s : Bcache} {gets pins : Nat → Nat} (ticks pid b : Nat) (s' : Bcache) :
      Tracked NBUF s gets pins → 0 < gets b → brelse ticks pid b s = .ret s' () →
      Tracked NBUF s' (upd gets b (gets b - 1)) pins
  | pin {s : Bcache} {gets pins : Nat → Nat} (b : Nat) :
      Tracked NBUF s gets pins → Tracked NBUF (bpin b s) gets (upd pins b (pins b + 1))
  | unpin {s : Bcache} {gets pins : Nat → Nat} (b : Nat) :
      Tracked NBUF s gets pins → 0 < pins b →
      Tracked NBUF (bunpin b s) gets (upd pins b (pins b - 1))

/-- A state reached by one `bget(0, 1)` of process 1 after `binit` with two buffers. -/
def demo : Bcache := after (bget 1 0 1 (binit 2))

/-- A full cache: both buffers of a pool of two are referenced. -/
def full : Bcache := after (bget 1 0 0 (after (bget 1 0 13 (binit 2))))

/-- The spin locks of the cache: `bcache.eviction_lock` and `bcache.bufmap_locks[i]`. -/
inductive Lock where
  | eviction
  | bucket (i : Nat)
deriving DecidableEq, Repr

/-- A call of `acquire` or `release` on a spin lock of the cache. -/
inductive LockEv where
  | acquire (l : Lock)
  | release (l : Lock)
deriving DecidableEq, Repr

/-- The lock calls of one round of the outer loop of the eviction scan, carried along with
the accumulator of `scanStep`: `acquire(&bcache.bufmap_locks[i])`, then a release of that
lock when the bucket holds no better candidate, and of the lock of `holding_bucket`, when
there is one, otherwise. -/
def scanStepLocks (s : Bcache) (acc : (Option (Nat × Nat) × Nat) × List LockEv) (i : Nat) :
    (Option (Nat × Nat) × Nat) × List LockEv :=
  let r := scanBucket s i (s.bufmap i) 0 (acc.1.1, false)
  if r.2 then
    ((r.1, i),
      acc.2 ++ [LockEv.acquire (.bucket i)] ++
        (if acc.1.2 ≠ 4294967295 then [LockEv.release (.bucket acc.1.2)] else []))
  else
    ((r.1, acc.1.2), acc.2 ++ [LockEv.acquire (.bucket i), LockEv.release (.bucket i)])

/-- The eviction scan of `bget` with its lock calls. -/
def scanLocks (s : Bcache) : (Option (Nat × Nat) × Nat) × List LockEv :=
  (List.range BUCKETSIZE).foldl (scanStepLocks s) ((none, 4294967295), [])

/-- The calls of `acquire` and `release` that `bget(dev, blockno)` makes, in order, up to its
return or panic. -/
def bgetLocks (dev blockno : Nat) (s : Bcache) : List LockEv :=
  let key := BUFMAP_HASH dev blockno
  [LockEv.acquire (.bucket key)] ++
  match lookup s dev blockno (s.bufmap key) with
  | some _ => [LockEv.release (.bucket key)]
  | none =>
    [LockEv.release (.bucket key), LockEv.acquire .eviction] ++
    match lookup s dev blockno (s.bufmap key) with
    | some _ =>
      [LockEv.acquire (.bucket key), LockEv.release (.bucket key), LockEv.release .eviction]
    | none =>
      (scanLocks s).2 ++
      match (scanLocks s).1 with
      | (none, _) => []
      | (some _, holding_bucket) =>
        (if holding_bucket ≠ key then
          [LockEv.release (.bucket holding_bucket), LockEv.acquire (.bucket key)]
         else []) ++
        [LockEv.release (.bucket key), LockEv.release .eviction]

/-- The locks held after the lock calls `t`, newest first, when `h` were held before. -/
def heldAfter : List Lock → List LockEv → List Lock
  | h, [] => h
  | h, .acquire l :: rest => heldAfter (l :: h) rest
  | h, .release l :: rest => heldAfter (h.erase l) rest

/-- No `acquire` in the lock calls `t` is made while a bucket lock is held, when the locks
`h` are held at the start. -/
def Unnested : List Lock → List LockEv → Prop
  | _, [] => True
  | h, .acquire l :: rest => (∀ l' ∈ h, l' = Lock.eviction) ∧ Unnested (l :: h) rest
  | h, .release l :: rest => Unnested (h.erase l) rest

instance : (h : List Lock) → (t : List LockEv) → Decidable (Unnested h t)
  | _, [] => isTrue trivial
  | h, .acquire l :: rest =>
    @instDecidableAnd _ _ inferInstance (instDecidableUnnested (l :: h) rest)
  | h, .release l :: rest => instDecidableUnnested (h.erase l) rest

/-- The lock order `bget` keeps, when the locks `h` are held at the start: the eviction lock
is acquired with no lock held; a bucket lock is acquired with no lock held, or with the
eviction lock alone, or with the eviction lock and the lock of one lower-indexed bucket;
only held locks are released. -/
def Ordered : List Lock → List LockEv → Prop
  | _, [] => True
  | h, .acquire .eviction :: rest => h = [] ∧ Ordered [.eviction] rest
  | h, .acquire (.bucket i) :: rest =>
    (h = [] ∨ h = [.eviction] ∨ ∃ j, j < i ∧ h = [.bucket j, .eviction]) ∧
      Ordered (.bucket i :: h) rest
  | h, .release l :: rest => l ∈ h ∧ Ordered (h.erase l) rest

/-- The lock calls `t` use the locks safely, when the locks `h` are held at the start: a
lock is acquired only while the caller does not hold it and released only while the caller
holds it. -/
def LockSafe : List Lock → List LockEv → Prop
  | _, [] => True
  | h, .acquire l :: rest => l ∉ h ∧ LockSafe (l :: h) rest
  | h, .release l :: rest => l ∈ h ∧ LockSafe (h.erase l) rest

instance : (h : List Lock) → (t : List LockEv) → Decidable (LockSafe h t)
  | _, [] => isTrue trivial
  | h, .acquire l :: rest =>
    @instDecidableAnd _ _ inferInstance (instDecidableLockSafe (l :: h) rest)
  | h, .release l :: rest =>
    @instDecidableAnd _ _ inferInstance (instDecidableLockSafe (h.erase l) rest)

/-- The sets of held locks at every instant of the lock calls `t`: before the first call,
between two calls and after the last one, when the locks `h` are held at the start. -/
def heldDuring : List Lock → List LockEv → List (List Lock)
  | h, [] => [h]
  | h, .acquire l :: rest => h :: heldDuring (l :: h) rest
  | h, .release l :: rest => h :: heldDuring (h.erase l) rest

/-- The bucket locks among the held locks `h`. -/
def bucketLocks (h : List Lock) : List Lock :=
  h.filter (fun l => decide (l ≠ Lock.eviction))

/-- The first `n` rounds of the outer loop of the eviction scan with their lock calls, when
round `i` finds the cache in the state `sc i`: the scan holds only the eviction lock and the
locks of the buckets it keeps, so other processes may change the other buckets between two
rounds. -/
def scanRounds (sc : Nat → Bcache) (n : Nat) : (Option (Nat × Nat) × Nat) × List LockEv :=
  (List.range n).foldl (fun acc i => scanStepLocks (sc i) acc i) ((none, 4294967295), [])

/-- The lock calls of round `n` of the eviction scan alone. -/
def roundLocks (sc : Nat → Bcache) (n : Nat) : List LockEv :=
  (scanStepLocks (sc n) ((scanRounds sc n).1, []) n).2

/-- A path through `bget(dev, blockno)`: its calls of `acquire` and `release` in order, and
whether it ends in a `return` (`false`: in the panic). The path is chosen by what the call
reads: `s1` is the cache at the first search of the bucket, `s2` the cache at the second
search, under the eviction lock, and `sc i` the cache in round `i` of the scan. -/
def bgetPath (dev blockno : Nat) (s1 s2 : Bcache) (sc : Nat → Bcache) : List LockEv × Bool :=
  let key := BUFMAP_HASH dev blockno
  match lookup s1 dev blockno (s1.bufmap key) with
  | some _ => ([LockEv.acquire (.bucket key), LockEv.release (.bucket key)], true)
  | none =>
    match lookup s2 dev blockno (s2.bufmap key) with
    | some _ =>
      ([LockEv.acquire (.bucket key), LockEv.release (.bucket key), LockEv.acquire .eviction,
        LockEv.acquire (.bucket key), LockEv.release (.bucket key), LockEv.release .eviction],
       true)
    | none =>
      match (scanRounds sc BUCKETSIZE).1 with
      | (none, _) =>
        ([LockEv.acquire (.bucket key), LockEv.release (.bucket key),
          LockEv.acquire .eviction] ++ (scanRounds sc BUCKETSIZE).2, false)
      | (some _, holding_bucket) =>
        ([LockEv.acquire (.bucket key), LockEv.release (.bucket key),
          LockEv.acquire .eviction] ++ (scanRounds sc BUCKETSIZE).2 ++
          (if holding_bucket ≠ key then
            [LockEv.release (.bucket holding_bucket), LockEv.acquire (.bucket key)]
           else []) ++
          [LockEv.release (.bucket key), LockEv.release .eviction], true)

/-- The cache of two buffers after process 2 has taken a buffer for block 14 of device 0,
which hashes to bucket 1: the state that a `bget(0, 14)` call of another process, begun right
after `binit`, finds at its second search when process 2 got in between. -/
def raced : Bcache := after (bget 2 0 14 (binit 2))

end Bio

/-!
# Physical page allocator (`kernel/kalloc.c`)

* A page is its physical address; `kmem[i].freelist`, chained through the `next` field
  that lies at the start of each free page, is the list `freelist i` of page addresses,
  head first; the null pointer is the empty list.
* `mem` is the byte content of physical memory as `memset` leaves it (the link stored in a
  free page is carried by the list, not by `mem`).
* Addresses are natural numbers: the constants of the memory layout lie far below `2^64`.
* Spin locks and `push_off`/`pop_off` carry no state; `cpuid()` is the parameter `id`.
-/

namespace Kalloc

/-- The constants the allocator takes from headers and the linker script that are not among
the sources: `NCPU` (`param.h`), `end` (`kernel.ld`, here `kend`) and `PHYSTOP`
(`memlayout.h`). -/
structure Layout where
  NCPU : Nat
  kend : Nat
  PHYSTOP : Nat

/-- Modelled from the spec: the constant `PGSIZE` of `riscv.h` (not among the sources); a page
is a "fixed-size (4096-byte) unit of physical memory". -/
def PGSIZE : Nat := 4096

/-- Modelled from the spec: the macro `PGROUNDUP` of `riscv.h` (not among the sources), which
rounds an address up to the next page boundary. -/
def PGROUNDUP (a : Nat) : Nat := (a + PGSIZE - 1) / PGSIZE * PGSIZE

/-- The allocator state: the per-core free lists `kmem[i].freelist` and the memory bytes. -/
structure Kmem where
  freelist : Nat → List Nat
  mem : Nat → Nat

/-- The call `memset(pa, c, PGSIZE)`. -/
def memset (mem : Nat → Nat) (pa c : Nat) : Nat → Nat :=
  fun a => if pa ≤ a ∧ a < pa + PGSIZE then c else mem a

/-- How `kfree`, `freerange` and `kinit` end: they return, or the kernel panics; `more` is a
loop cut short by the bound on its rounds. -/
inductive KRes where
  | done (s : Kmem)
  | panic (s : Kmem) (msg : String)
  | more (s : Kmem)

/-- The function `kfree`, run on core `id`, with the free lists as lists of pages. The code
keeps the link of a free page in the page itself, so this reading is the code's when `pa`
is on no free list; `kfreeLinked` keeps the links in memory. -/
def kfree (L : Layout) (id pa : Nat) (s : Kmem) : KRes :=
  if pa % PGSIZE ≠ 0 ∨ pa < L.kend ∨ pa ≥ L.PHYSTOP then .panic s "kfree"
  else
    .done { freelist := Bio.upd s.freelist id (pa :: s.freelist id)
            mem := memset s.mem pa 1 }

/-- The loop `for(; p + PGSIZE <= (char*)pa_end; p += PGSIZE) kfree(p);` of `freerange`, for at
most `fuel` rounds. -/
def freeloop (L : Layout) (id pa_end : Nat) : Nat → Nat → Kmem → KRes
  | 0, _, s => .more s
  | fuel + 1, p, s =>
    if p + PGSIZE ≤ pa_end then
      match kfree L id p s with
      | .done s' => freeloop L id pa_end fuel (p + PGSIZE) s'
      | r => r
    else .done s

/-- The function `freerange`; its loop runs fewer than `pa_end / PGSIZE + 1` rounds. -/
def freerange (L : Layout) (id pa_start pa_end : Nat) (s : Kmem) : KRes :=
  freeloop L id pa_end (pa_end / PGSIZE + 1) (PGROUNDUP pa_start) s

/-- Zero-filled static storage: `kmem` before `kinit` runs, with the memory content `mem`. -/
def kboot (mem : Nat → Nat) : Kmem :=
  { freelist := fun _ => [], mem := mem }

/-- The function `kinit`, run on core `id`. -/
def kinit (L : Layout) (id : Nat) (mem : Nat → Nat) : KRes :=
  freerange L id L.kend L.PHYSTOP (kboot mem)

/-- The stealing loop `for (int i = 0; i < NCPU; i++)` of `kalloc`, over the cores still to
visit. -/
def steal (id : Nat) (s : Kmem) : List Nat → Option Nat × Kmem
  | [] => (none, s)
  | i :: rest =>
    if i = id then steal id s rest
    else
      match s.freelist i with
      | r :: next => (some r, { s with freelist := Bio.upd s.freelist i next })
      | [] => steal id s rest

/-- The function `kalloc`, run on core `id`; the null pointer is `none`. -/
def kalloc (L : Layout) (id : Nat) (s : Kmem) : Option Nat × Kmem :=
  let r : Option Nat × Kmem :=
    match s.freelist id with
    | r :: next => (some r, { s with freelist := Bio.upd s.freelist id next })
    | [] => steal id s (List.range L.NCPU)
  match r with
  | (some pa, s') => (some pa, { s' with mem := memset s'.mem pa 5 })
  | (none, s') => (none, s')

/-- The number of pages in the free lists of the cores below `n`. -/
def total (s : Kmem) : Nat → Nat
  | 0 => 0
  | n + 1 => total s n + (s.freelist n).length

/-- The states reachable from the state `s0` left by `kinit`, with the list of the pages
that are currently allocated: `kalloc` on any core, and `kfree` on any core of a page that
is currently allocated. -/
inductive KReach (L : Layout) (s0 : Kmem) : Kmem → List Nat → Prop
  | init : KReach L s0 s0 []
  | alloc {s : Kmem} {A : List Nat} (id pa : Nat) (s' : Kmem) :
      KReach L s0 s A → id < L.NCPU → kalloc L id s = (some pa, s') →
      KReach L s0 s' (pa :: A)
  | alloc_none {s : Kmem} {A : List Nat} (id : Nat) (s' : Kmem) :
      KReach L s0 s A → id < L.NCPU → kalloc L id s = (none, s') → KReach L s0 s' A
  | free {s : Kmem} {A : List Nat} (id pa : Nat) (s' : Kmem) :
      KReach L s0 s A → id < L.NCPU → pa ∈ A → kfree L id pa s = .done s' →
      KReach L s0 s' (A.erase pa)

/-- The free lists and the allocated pages share no page: no page twice in a list, in two
lists, or both free and allocated. -/
structure Separate (L : Layout) (s : Kmem) (A : List Nat) : Prop where
  nodup : ∀ i < L.NCPU, (s.freelist i).Nodup
  apart : ∀ i < L.NCPU, ∀ j < L.NCPU, i ≠ j → Bio.Apart (s.freelist i) (s.freelist j)
  anodup : A.Nodup
  afree : ∀ i < L.NCPU, Bio.Apart A (s.freelist i)

/-- The call ended in a panic. -/
def isPanic : KRes → Bool
  | .panic _ _ => true
  | _ => false

/-- The address `pa` passes the test of `kfree`: page-aligned, not below `end`, and below
`PHYSTOP`. -/
def Valid (L : Layout) (pa : Nat) : Prop :=
  pa % 4096 = 0 ∧ L.kend ≤ pa ∧ pa < L.PHYSTOP

instance (L : Layout) (pa : Nat) : Decidable (Valid L pa) := by
  unfold Valid; infer_instance

/-- The state a call leaves behind, whichever way it ends. -/
def kmemOf : KRes → Kmem
  | .done s => s
  | .panic s _ => s
  | .more s => s

/-- A small machine: two cores, kernel end at 5000, memory up to 20000. -/
def L0 : Layout := { NCPU := 2, kend := 5000, PHYSTOP := 20000 }

/-- The state `kinit` leaves on that machine when run on core 0: the pages 8192 and 12288
are in the free list of core 0. -/
def kdemo : Kmem := kmemOf (kinit L0 0 (fun _ => 0))

/-- The allocator with its links where `kalloc.c` keeps them: `head i` is
`kmem[i].freelist`, and `word a` is the 64-bit word stored at the 8-byte aligned address
`a`; for a page `a` on a free list that word is the field `next` of the `struct run` at the
start of the page. The null pointer is 0. -/
structure Linked where
  head : Nat → Nat
  word : Nat → Nat

/-- The call `memset(pa, c, PGSIZE)` on the words of memory: every word of the page gets the
byte `c` in each of its eight bytes (72340172838076673 is 0x0101010101010101). -/
def fillWords (word : Nat → Nat) (pa c : Nat) : Nat → Nat :=
  fun a => if pa ≤ a ∧ a < pa + PGSIZE then c * 72340172838076673 else word a

/-- The function `kfree` on the linked state, run on core `id`: the test, the call
`memset(pa, 1, PGSIZE)`, then `r->next = kmem[id].freelist` and `kmem[id].freelist = r`.
The result `none` is the panic. -/
def kfreeLinked (L : Layout) (id pa : Nat) (t : Linked) : Option Linked :=
  if pa % PGSIZE ≠ 0 ∨ pa < L.kend ∨ pa ≥ L.PHYSTOP then none
  else
    let w1 := fillWords t.word pa 1
    let w2 := Bio.upd w1 pa (t.head id)
    some { head := Bio.upd t.head id pa, word := w2 }

/-- The stealing loop of `kalloc` on the linked state, over the cores still to visit; the
result is `r` and the state. -/
def stealLinked (id : Nat) (t : Linked) : List Nat → Nat × Linked
  | [] => (0, t)
  | i :: rest =>
    if i = id then stealLinked id t rest
    else if t.head i ≠ 0 then
      (t.head i, { t with head := Bio.upd t.head i (t.word (t.head i)) })
    else stealLinked id t rest

/-- The function `kalloc` on the linked state, run on core `id`: `r = kmem[id].freelist`
and, if it is not null, `kmem[id].freelist = r->next`; otherwise the stealing loop; then
`memset(r, 5, PGSIZE)` if `r` is not null. The result is `r` and the state. -/
def kallocLinked (L : Layout) (id : Nat) (t : Linked) : Nat × Linked :=
  let q : Nat × Linked :=
    if t.head id ≠ 0 then
      (t.head id, { t with head := Bio.upd t.head id (t.word (t.head id)) })
    else stealLinked id t (List.range L.NCPU)
  if q.1 ≠ 0 then (q.1, { q.2 with word := fillWords q.2.word q.1 5 }) else (0, q.2)

/-- The pointer `p` is the start of the free list `l`: following `next` from `p` visits the
pages of `l` in order, none of them null, and then reaches the null pointer. -/
def IsChain (t : Linked) : Nat → List Nat → Prop
  | p, [] => p = 0
  | p, x :: l => p = x ∧ x ≠ 0 ∧ IsChain t (t.word x) l

instance decIsChain (t : Linked) : (p : Nat) → (l : List Nat) → Decidable (IsChain t p l)
  | p, [] => inferInstanceAs (Decidable (p = 0))
  | _, x :: l =>
    @instDecidableAnd _ _ inferInstance
      (@instDecidableAnd _ _ inferInstance (decIsChain t (t.word x) l))

/-- The linked state `t` holds the free lists of `s`: the list of every core starts at its
`kmem[i].freelist`. -/
def Rep (L : Layout) (t : Linked) (s : Kmem) : Prop :=
  ∀ i < L.NCPU, IsChain t (t.head i) (s.freelist i)

instance (L : Layout) (t : Linked) (s : Kmem) : Decidable (Rep L t s) := by
  unfold Rep; infer_instance

/-- Zero-filled static storage and memory: every `kmem[i].freelist` is null. -/
def lboot : Linked := { head := fun _ => 0, word := fun _ => 0 }

/-- The linked state of the small machine after the two `kfree` calls of `kinit` on core 0,
of the pages 8192 and 12288: it holds the lists of `kdemo`. -/
def ldemo : Linked :=
  ((kfreeLinked L0 0 8192 lboot).bind (kfreeLinked L0 0 12288)).getD lboot

end Kalloc

/-!
# Network interface driver (`kernel/e1000.c`)

* A `struct mbuf *` is a natural number, 0 for the null pointer; `mlen` and `mhead` give the
  `len` and `head` fields of the packet buffer at an address.
* `regs[E1000_TDT]` and `regs[E1000_RDT]` are the fields `tdt` and `rdt`; the other
  registers are written by `e1000_init` only and carry no state here.
* The external calls are traces: `freed` lists the arguments of `mbuffree`, `delivered` the
  arguments of `net_rx` with their `len`, newest first; `mbufalloc` hands out the buffers
  of `pool` in order and returns 0 once the pool is empty.
* The hardware writes nothing during a call.
-/

namespace E1000

/-- The bit masks the driver takes from `e1000_dev.h`, which is not among the sources. -/
structure Consts where
  TXD_STAT_DD : Nat
  TXD_CMD_EOP : Nat
  TXD_CMD_RS : Nat
  RXD_STAT_DD : Nat

/-- The constant `TX_RING_SIZE`. -/
def TX_RING_SIZE : Nat := 16

/-- The constant `RX_RING_SIZE`. -/
def RX_RING_SIZE : Nat := 16

/-- Modelled from the spec: `struct tx_desc` of `e1000_dev.h` (not among the sources), "a
fixed hardware-defined record in a ring slot holding a buffer address, length,
command/status bits"; the fields are the ones `e1000.c` touches. -/
structure TxDesc where
  addr : Nat
  length : Nat
  cmd : Nat
  status : Nat
deriving DecidableEq, Repr

/-- Modelled from the spec: `struct rx_desc` of `e1000_dev.h` (not among the sources); the
fields are the ones `e1000.c` touches. -/
structure RxDesc where
  addr : Nat
  length : Nat
  status : Nat
deriving DecidableEq, Repr

/-- The driver state, the packet-buffer heap and the traces of the external calls. -/
structure Dev where
  tx_ring : Nat → TxDesc
  tx_mbufs : Nat → Nat
  rx_ring : Nat → RxDesc
  rx_mbufs : Nat → Nat
  tdt : Nat
  rdt : Nat
  mlen : Nat → Nat
  mhead : Nat → Nat
  pool : List Nat
  freed : List Nat
  delivered : List (Nat × Nat)

/-- How `e1000_init` and `e1000_recv` end: they return, the kernel panics, the kernel faults
on a null packet buffer, or (`more`) the loop is cut short by the bound on its rounds. -/
inductive ERes where
  | ok (s : Dev)
  | panic (s : Dev) (msg : String)
  | fault (s : Dev)
  | more (s : Dev)

/-- Zero-filled static storage before `e1000_init` runs, with the packet-buffer heap and the
buffers the allocator will hand out. -/
def eboot (mlen mhead : Nat → Nat) (pool : List Nat) : Dev :=
  { tx_ring := fun _ => { addr := 0, length := 0, cmd := 0, status := 0 }
    tx_mbufs := fun _ => 0
    rx_ring := fun _ => { addr := 0, length := 0, status := 0 }
    rx_mbufs := fun _ => 0
    tdt := 0
    rdt := 0
    mlen := mlen
    mhead := mhead
    pool := pool
    freed := []
    delivered := [] }

/-- The call `mbufalloc(0)`: the next buffer of the pool, or 0. -/
def mbufalloc (s : Dev) : Nat × Dev :=
  (s.pool.headD 0, { s with pool := s.pool.tail })

/-- One round of the transmit loop of `e1000_init`, after `memset(tx_ring, 0, ...)`. -/
def init_tx (k : Consts) (s : Dev) (i : Nat) : Dev :=
  { s with
    tx_ring := Bio.upd s.tx_ring i { s.tx_ring i with status := k.TXD_STAT_DD }
    tx_mbufs := Bio.upd s.tx_mbufs i 0 }

/-- Transmit initialization in `e1000_init`: `memset(tx_ring, 0, ...)`, the loop over the
slots, and `regs[E1000_TDH] = regs[E1000_TDT] = 0`. -/
def tx_setup (k : Consts) (s : Dev) : Dev :=
  { (List.range TX_RING_SIZE).foldl (init_tx k)
      { s with tx_ring := fun _ => { addr := 0, length := 0, cmd := 0, status := 0 } } with
    tdt := 0 }

/-- The call `memset(rx_ring, 0, sizeof(rx_ring))` of `e1000_init`. -/
def rx_clear (s : Dev) : Dev :=
  { s with rx_ring := fun _ => { addr := 0, length := 0, status := 0 } }

/-- The receive loop of `e1000_init`, over the slots still to fill. -/
def init_rx (s : Dev) : List Nat → ERes
  | [] => .ok s
  | i :: rest =>
    let a := mbufalloc s
    let s1 : Dev := { a.2 with rx_mbufs := Bio.upd a.2.rx_mbufs i a.1 }
    if a.1 = 0 then .panic s1 "e1000"
    else
      init_rx
        { s1 with rx_ring := Bio.upd s1.rx_ring i { s1.rx_ring i with addr := s1.mhead a.1 } }
        rest

/-- The function `e1000_init`, as far as the rings, the stashes and the tail registers go:
transmit initialization, then `memset(rx_ring, 0, ...)`, the receive loop and
`regs[E1000_RDT] = RX_RING_SIZE - 1`. The two `sizeof` tests do not fire: a ring of 16
descriptors of 16 bytes is 256 bytes. -/
def e1000_init (k : Consts) (s : Dev) : ERes :=
  match init_rx (rx_clear (tx_setup k s)) (List.range RX_RING_SIZE) with
  | .ok s4 => .ok { s4 with rdt := RX_RING_SIZE - 1 }
  | r => r

/-- The function `e1000_transmit`; the result is the return value and the state. -/
def e1000_transmit (k : Consts) (m : Nat) (s : Dev) : Int × Dev :=
  let next_idx := s.tdt
  if (s.tx_ring next_idx).status &&& k.TXD_STAT_DD = 0 then (-1, s)
  else
    let s1 : Dev :=
      if s.tx_mbufs next_idx ≠ 0 then
        { s with
          freed := s.tx_mbufs next_idx :: s.freed
          tx_mbufs := Bio.upd s.tx_mbufs next_idx 0 }
      else s
    let s2 : Dev :=
      { s1 with
        tx_ring := Bio.upd s1.tx_ring next_idx
          { s1.tx_ring next_idx with
            length := s1.mlen m
            addr := s1.mhead m
            cmd := k.TXD_CMD_EOP ||| k.TXD_CMD_RS } }
    let s3 : Dev := { s2 with tx_mbufs := Bio.upd s2.tx_mbufs next_idx m }
    let s4 : Dev := { s3 with tdt := ((next_idx + 1) % 4294967296) % TX_RING_SIZE }
    if s4.tx_mbufs next_idx = 0 then (-1, s4) else (0, s4)

/-- The slot `(regs[E1000_RDT] + 1) % RX_RING_SIZE` that `e1000_recv` inspects next. -/
def next_rx (s : Dev) : Nat := ((s.rdt + 1) % 4294967296) % RX_RING_SIZE

/-- Lines 184-185 of `e1000_recv`: set the length of the buffer held in the slot and pass
it to `net_rx`. -/
def deliver (s : Dev) : Dev :=
  let rx_idx := next_rx s
  let m := s.rx_mbufs rx_idx
  let s1 : Dev := { s with mlen := Bio.upd s.mlen m (s.rx_ring rx_idx).length }
  { s1 with delivered := (m, s1.mlen m) :: s1.delivered }

/-- Line 188 of `e1000_recv`: store the result of `mbufalloc(0)` in the slot. -/
def replace (s : Dev) : Dev :=
  let rx_idx := next_rx s
  let a := mbufalloc s
  { a.2 with rx_mbufs := Bio.upd a.2.rx_mbufs rx_idx a.1 }

/-- Lines 189-193 of `e1000_recv`: program the new buffer into the descriptor, clear the
status and move the register. -/
def program (s : Dev) : Dev :=
  let rx_idx := next_rx s
  { s with
    rx_ring := Bio.upd s.rx_ring rx_idx
      { s.rx_ring rx_idx with addr := s.mhead (s.rx_mbufs rx_idx), status := 0 }
    rdt := rx_idx }

/-- One full round of the loop of `e1000_recv`. -/
def handle (s : Dev) : Dev := program (replace (deliver s))

/-- The loop `while (1)` of `e1000_recv`, for at most `fuel` rounds. Reading `head` of a
null buffer, when `mbufalloc` has returned 0, is a fault. -/
def recvLoop (k : Consts) : Nat → Dev → ERes
  | 0, s => .more s
  | fuel + 1, s =>
    if (s.rx_ring (next_rx s)).status &&& k.RXD_STAT_DD = 0 then .ok s
    else if (replace (deliver s)).rx_mbufs (next_rx s) = 0 then .fault (replace (deliver s))
    else recvLoop k fuel (handle s)

/-- The function `e1000_recv`, with a bound on the rounds of its loop. -/
def e1000_recv (k : Consts) (fuel : Nat) (s : Dev) : ERes := recvLoop k fuel s

/-- Ring slot number `j` after `start`, wrapping from slot 15 to slot 0. -/
def slot (start j : Nat) : Nat := (start + j) % 16

/-- The number of consecutive receive descriptors with the done bit set, from slot
`start % 16` on, counting at most `cap`. -/
def runLen (k : Consts) (s : Dev) : Nat → Nat → Nat
  | _, 0 => 0
  | start, cap + 1 =>
    if (s.rx_ring (start % 16)).status &&& k.RXD_STAT_DD = 0 then 0
    else runLen k s (start + 1) cap + 1

/-- The states reached from `s0` by `e1000_transmit` calls, with the list of the packet
buffers handed to the driver so far: the caller passes a non-null buffer that it has not
handed over before (a buffer whose transmit failed stays with the caller). Between calls the
hardware may rewrite the status of a transmit descriptor. -/
inductive TReach (k : Consts) (s0 : Dev) : Dev → List Nat → Prop
  | init : TReach k s0 s0 []
  | sent {s : Dev} {G : List Nat} (m : Nat) (s' : Dev) :
      TReach k s0 s G → m ≠ 0 → m ∉ G → e1000_transmit k m s = (0, s') →
      TReach k s0 s' (m :: G)
  | full {s : Dev} {G : List Nat} (m : Nat) (s' : Dev) :
      TReach k s0 s G → m ≠ 0 → m ∉ G → e1000_transmit k m s = (-1, s') →
      TReach k s0 s' G
  | hw {s : Dev} {G : List Nat} (i v : Nat) :
      TReach k s0 s G →
      TReach k s0
        { s with tx_ring := Bio.upd s.tx_ring i { s.tx_ring i with status := v } } G

/-- The invariant of the transmit side: the tail index is a ring slot, no buffer was freed
twice, every stashed or freed buffer was handed over, no stashed buffer has been freed, and
no buffer is stashed in two slots. -/
structure TInv (s : Dev) (G : List Nat) : Prop where
  tail : s.tdt < 16
  once : s.freed.Nodup
  given : ∀ x ∈ s.freed, x ∈ G
  stash : ∀ i < 16, s.tx_mbufs i ≠ 0 → s.tx_mbufs i ∈ G ∧ s.tx_mbufs i ∉ s.freed
  apart : ∀ i < 16, ∀ j < 16, i ≠ j → s.tx_mbufs i ≠ 0 → s.tx_mbufs i ≠ s.tx_mbufs j

/-- The state a call leaves behind, whichever way it ends. -/
def devOf : ERes → Dev
  | .ok s => s
  | .panic s _ => s
  | .fault s => s
  | .more s => s

/-- The bit masks of the device manual: done is bit 0 of a status, end-of-packet bit 0 and
report-status bit 3 of a command. -/
def k0 : Consts := { TXD_STAT_DD := 1, TXD_CMD_EOP := 1, TXD_CMD_RS := 8, RXD_STAT_DD := 1 }

/-- A boot state whose allocator has eighteen buffers, at the addresses 101 to 118. -/
def b0 : Dev := eboot (fun _ => 0) (fun m => m + 16) ((List.range 18).map (fun i => i + 101))

/-- The state `e1000_init` leaves from `b0`. -/
def e0 : Dev := devOf (e1000_init k0 b0)

/-- The state `e0` after the hardware has received two packets, of 60 and 70 bytes, into
the slots 0 and 1. -/
def e1 : Dev :=
  { e0 with
    rx_ring := Bio.upd (Bio.upd e0.rx_ring 0 { e0.rx_ring 0 with length := 60, status := 1 }) 1
      { e0.rx_ring 1 with length := 70, status := 1 } }

/-- Consecutive calls `e1000_transmit(m)` for the packets `ms`, in order, with nothing
happening between the calls (the hardware writes no descriptor); the result is the list of
the return values and the last state. -/
def transmits (k : Consts) : List Nat → Dev → List Int × Dev
  | [], s => ([], s)
  | m :: ms, s =>
    let r := e1000_transmit k m s
    let q := transmits k ms r.2
    (r.1 :: q.1, q.2)

/-- A full receive ring: the state `e0` after the hardware has received a packet of 60 bytes
into every slot, with sixteen more buffers, at the addresses 201 to 216, in the allocator. -/
def e16 : Dev :=
  { e0 with
    rx_ring := fun i => { e0.rx_ring i with length := 60, status := 1 }
    pool := (List.range 16).map (fun i => i + 201) }

/-- The seventeen packet buffers, at the addresses 301 to 317, of a run that wraps the
transmit ring. -/
def pk17 : List Nat := (List.range 17).map (fun i => i + 301)

/-- The state `e0` after the seventeen packets of `pk17` have been transmitted, with no
write of the hardware in between: the tail index has wrapped to slot 1, slot 0 holds the
seventeenth packet and the first one has been freed. -/
def e17 : Dev := (transmits k0 pk17 e0).2

end E1000

namespace Bio

/-! ## The eviction scan -/

theorem nextOf_split (s : Bcache) (i : Nat) (pre rest : List Nat) (x : Nat)
    (h : s.bufmap i = pre ++ x :: rest) : nextOf s (i, pre.length) = x := by
  have : (pre ++ x :: rest)[pre.length]? = some x := by
    rw [List.getElem?_append_right (le_refl _)]; simp
  simp [nextOf, h, List.getD_eq_getElem?_getD, this]

theorem best_visit (s : Bcache) (i : Nat) (pre rest : List Nat) (x : Nat)
    (bl : Option (Nat × Nat)) (h : s.bufmap i = pre ++ x :: rest)
    (hb : Best s i pre.length bl) :
    Best s i (pre.length + 1)
      (if (s.buf x).refcnt = 0 ∧ older s x bl = true then some (i, pre.length) else bl) := by
  have hx := nextOf_split s i pre rest x h
  have hlen : pre.length < (s.bufmap i).length := by simp [h]
  have hcase : ∀ i' j', Before i' j' i (pre.length + 1) →
      Before i' j' i pre.length ∨ (i' = i ∧ j' = pre.length) := by
    intro i' j' hbf; unfold Before at *; omega
  split
  · next hc =>
    obtain ⟨hr, ho⟩ := hc
    refine ⟨?_, hlen, by simpa [hx] using hr, ?_⟩
    · unfold Before; simp
    · intro i' j' hbf hj' hr'
      rcases hcase i' j' hbf with hold | ⟨rfl, rfl⟩
      · cases bl with
        | none => exact absurd hr' (hb i' j' hold hj')
        | some p =>
          obtain ⟨_, _, _, hall⟩ := hb
          have h1 := (hall i' j' hold hj' hr').1
          simp only [older, decide_eq_true_eq] at ho
          simp only [hx]
          constructor
          · omega
          · intro _; omega
      · simp only [hx]
        refine ⟨le_refl _, ?_⟩
        intro hbf'; unfold Before at hbf'; simp at hbf'
  · next hc =>
    cases bl with
    | none =>
      intro i' j' hbf hj'
      rcases hcase i' j' hbf with hold | ⟨rfl, rfl⟩
      · exact hb i' j' hold hj'
      · rw [hx]; intro hr; exact hc ⟨hr, rfl⟩
    | some p =>
      obtain ⟨hp, hpl, hpr, hall⟩ := hb
      refine ⟨?_, hpl, hpr, ?_⟩
      · unfold Before at *; omega
      · intro i' j' hbf hj' hr'
        rcases hcase i' j' hbf with hold | ⟨rfl, rfl⟩
        · exact hall i' j' hold hj' hr'
        · rw [hx] at hr' ⊢
          have : ¬ ((s.buf x).lastuse < (s.buf (nextOf s p)).lastuse) := by
            intro hlt; exact hc ⟨hr', by simp [older, hlt]⟩
          constructor
          · omega
          · intro hbf'; unfold Before at hbf' hp; omega

theorem scanBucket_best (s : Bcache) (i : Nat) :
    ∀ (rest pre : List Nat) (bl : Option (Nat × Nat)) (f : Bool),
      s.bufmap i = pre ++ rest → Best s i pre.length bl →
      Best s i (s.bufmap i).length (scanBucket s i rest pre.length (bl, f)).1 := by
  intro rest
  induction rest with
  | nil => intro pre bl f h hb; simpa [scanBucket, h] using hb
  | cons x rest ih =>
    intro pre bl f h hb
    have hstep := best_visit s i pre rest x bl h hb
    have h2 : s.bufmap i = (pre ++ [x]) ++ rest := by simp [h]
    have hl : (pre ++ [x]).length = pre.length + 1 := by simp
    unfold scanBucket
    split
    · next hc =>
      rw [if_pos hc] at hstep
      rw [← hl] at hstep ⊢
      exact ih (pre ++ [x]) _ _ h2 hstep
    · next hc =>
      rw [if_neg hc] at hstep
      rw [← hl] at hstep ⊢
      exact ih (pre ++ [x]) _ _ h2 hstep

theorem scanBucket_flag (s : Bcache) (i : Nat) :
    ∀ (rest : List Nat) (j : Nat) (bl : Option (Nat × Nat)) (f : Bool),
      ((scanBucket s i rest j (bl, f)).2 = true ∧
        ∃ j', (scanBucket s i rest j (bl, f)).1 = some (i, j')) ∨
      scanBucket s i rest j (bl, f) = (bl, f) := by
  intro rest
  induction rest with
  | nil => intro j bl f; right; simp [scanBucket]
  | cons x rest ih =>
    intro j bl f
    unfold scanBucket
    split
    · rcases ih (j + 1) (some (i, j)) true with h | h
      · exact Or.inl h
      · left; rw [h]; exact ⟨rfl, j, rfl⟩
    · exact ih (j + 1) bl f

theorem best_next_bucket (s : Bcache) (i : Nat) (bl : Option (Nat × Nat))
    (h : Best s i (s.bufmap i).length bl) : Best s (i + 1) 0 bl := by
  have hcase : ∀ i' j', Before i' j' (i + 1) 0 → j' < (s.bufmap i').length →
      Before i' j' i (s.bufmap i).length := by
    intro i' j' hbf hj
    unfold Before at *
    rcases Nat.lt_or_ge i' i with hlt | hge
    · exact Or.inl hlt
    · have : i' = i := by omega
      subst this; exact Or.inr ⟨rfl, hj⟩
  cases bl with
  | none => intro i' j' hbf hj; exact h i' j' (hcase i' j' hbf hj) hj
  | some p =>
    obtain ⟨hp, hpl, hpr, hall⟩ := h
    refine ⟨?_, hpl, hpr, ?_⟩
    · unfold Before at *; omega
    · intro i' j' hbf hj; exact hall i' j' (hcase i' j' hbf hj) hj

theorem scanStep_inv (s : Bcache) (i : Nat) (acc : Option (Nat × Nat) × Nat)
    (h : ScanInv s i acc) : ScanInv s (i + 1) (scanStep s acc i) := by
  obtain ⟨hb, hh⟩ := h
  have h1 := scanBucket_best s i (s.bufmap i) [] acc.1 false (by simp) (by simpa using hb)
  have h2 := best_next_bucket s i _ h1
  have h3 := scanBucket_flag s i (s.bufmap i) 0 acc.1 false
  simp only [List.length_nil] at h2
  unfold scanStep
  constructor
  · dsimp only; split <;> exact h2
  · intro p hp
    dsimp only at hp ⊢
    rcases h3 with ⟨hf, j', hj'⟩ | h3
    · rw [if_pos hf] at hp ⊢
      dsimp only at hp ⊢
      rw [hj'] at hp
      cases hp; rfl
    · rw [h3] at hp ⊢
      simp only [Bool.false_eq_true, if_false] at hp ⊢
      exact hh p hp

theorem scan_fold_inv (s : Bcache) (n : Nat) :
    ScanInv s n ((List.range n).foldl (scanStep s) (none, 4294967295)) := by
  induction n with
  | zero =>
    refine ⟨?_, by simp⟩
    intro i' j' hbf; unfold Before at hbf; omega
  | succ n ih =>
    rw [List.range_succ, List.foldl_append]
    exact scanStep_inv s n _ ih

theorem scan_best (s : Bcache) : Best s BUCKETSIZE 0 (scan s).1 :=
  (scan_fold_inv s BUCKETSIZE).1

theorem scan_holding (s : Bcache) (p : Nat × Nat) (h : (scan s).1 = some p) :
    (scan s).2 = p.1 :=
  (scan_fold_inv s BUCKETSIZE).2 p h

/-! ## Basic facts -/

@[simp] theorem upd_same {α : Type} (f : Nat → α) (i : Nat) (v : α) : upd f i v i = v := by
  simp [upd]

@[simp] theorem upd_ne {α : Type} (f : Nat → α) (i j : Nat) (v : α) (h : j ≠ i) :
    upd f i v j = f j := by
  simp [upd, h]

theorem mem_bufmap_iff (s : Bcache) (k x : Nat) :
    x ∈ s.bufmap k ↔ ∃ j, j < (s.bufmap k).length ∧ nextOf s (k, j) = x := by
  rw [List.mem_iff_getElem]
  constructor
  · rintro ⟨j, hj, rfl⟩
    exact ⟨j, hj, by simp [nextOf, List.getD_eq_getElem?_getD, List.getElem?_eq_getElem hj]⟩
  · rintro ⟨j, hj, rfl⟩
    exact ⟨j, hj, by simp [nextOf, List.getD_eq_getElem?_getD, List.getElem?_eq_getElem hj]⟩

theorem lookup_none_iff (s : Bcache) (dev blockno : Nat) (chain : List Nat) :
    lookup s dev blockno chain = none ↔ ∀ x ∈ chain, ¬ HasId s dev blockno x := by
  simp [lookup, HasId]

theorem lookup_some (s : Bcache) (dev blockno : Nat) (chain : List Nat) (b : Nat)
    (h : lookup s dev blockno chain = some b) :
    HasId s dev blockno b ∧
      ∃ l1 l2, chain = l1 ++ b :: l2 ∧ ∀ a ∈ l1, ¬ HasId s dev blockno a := by
  unfold lookup at h
  rw [List.find?_eq_some] at h
  obtain ⟨hb, l1, l2, hl, hall⟩ := h
  refine ⟨by simpa [HasId] using hb, l1, l2, hl, ?_⟩
  intro a ha hid
  have := hall a ha
  unfold HasId at hid
  simp [hid.1, hid.2] at this

theorem lookup_isSome (s : Bcache) (dev blockno : Nat) (chain : List Nat)
    (h : ∃ x ∈ chain, HasId s dev blockno x) :
    ∃ b, lookup s dev blockno chain = some b := by
  cases hl : lookup s dev blockno chain with
  | some b => exact ⟨b, rfl⟩
  | none =>
    obtain ⟨x, hx, hid⟩ := h
    exact absurd hid ((lookup_none_iff s dev blockno chain).1 hl x hx)

/-- The scan ends without a candidate exactly when no chained buffer is unreferenced;
otherwise it ends on the first unreferenced buffer of least `lastuse`, holding its bucket. -/
theorem scan_cases (s : Bcache) :
    (((scan s).1 = none) ∧
      ∀ k < BUCKETSIZE, ∀ x ∈ s.bufmap k, (s.buf x).refcnt ≠ 0) ∨
    (∃ p, scan s = (some p, p.1) ∧ p.1 < BUCKETSIZE ∧ p.2 < (s.bufmap p.1).length ∧
      (s.buf (nextOf s p)).refcnt = 0 ∧
      ∀ i' j', i' < BUCKETSIZE → j' < (s.bufmap i').length →
        (s.buf (nextOf s (i', j'))).refcnt = 0 →
        (s.buf (nextOf s p)).lastuse ≤ (s.buf (nextOf s (i', j'))).lastuse ∧
        (Before i' j' p.1 p.2 →
          (s.buf (nextOf s p)).lastuse < (s.buf (nextOf s (i', j'))).lastuse)) := by
  have hb := scan_best s
  have hh := scan_holding s
  cases hs : (scan s).1 with
  | none =>
    left
    refine ⟨rfl, ?_⟩
    rw [hs] at hb
    intro k hk x hx
    obtain ⟨j, hj, rfl⟩ := (mem_bufmap_iff s k x).1 hx
    exact hb k j (Or.inl hk) hj
  | some p =>
    right
    rw [hs] at hb
    obtain ⟨hp, hpl, hpr, hall⟩ := hb
    refine ⟨p, ?_, ?_, hpl, hpr, ?_⟩
    · exact Prod.ext hs (hh p hs)
    · unfold Before at hp; omega
    · intro i' j' hi' hj' hr
      exact hall i' j' (Or.inl hi') hj' hr

theorem bget_hit (pid dev blockno : Nat) (s : Bcache) (b : Nat)
    (h : lookup s dev blockno (s.bufmap (BUFMAP_HASH dev blockno)) = some b) :
    bget pid dev blockno s = acquiresleep pid b (incref s b) := by
  simp [bget, h]

theorem bget_panic (pid dev blockno : Nat) (s : Bcache)
    (h : lookup s dev blockno (s.bufmap (BUFMAP_HASH dev blockno)) = none)
    (hs : (scan s).1 = none) :
    bget pid dev blockno s = .panic s "bget: no buffers" := by
  unfold bget
  simp only [h]
  split
  · rfl
  · next heq => rw [heq] at hs; cases hs

theorem bget_recycle (pid dev blockno : Nat) (s : Bcache) (p : Nat × Nat)
    (h : lookup s dev blockno (s.bufmap (BUFMAP_HASH dev blockno)) = none)
    (hs : scan s = (some p, p.1)) :
    bget pid dev blockno s =
      acquiresleep pid (nextOf s p) (recycle s p p.1 dev blockno).1 := by
  unfold bget
  simp only [h, hs]
  rfl

theorem acquiresleep_spec (pid b : Nat) (s : Bcache) :
    ∃ s', LockOnly s s' b ∧ after (acquiresleep pid b s) = s' ∧
      granted (acquiresleep pid b s) = some (s', b) ∧
      ((s.buf b).lock = none →
        acquiresleep pid b s = .ret s' b ∧ (s'.buf b).lock = some pid) ∧
      ((s.buf b).lock ≠ none → acquiresleep pid b s = .sleep s' b ∧ s' = s) := by
  unfold acquiresleep
  by_cases h : (s.buf b).lock = none
  · rw [if_pos h]
    refine ⟨_, ?_, rfl, rfl, fun _ => ⟨rfl, by simp [after]⟩, fun h' => absurd h h'⟩
    refine ⟨rfl, rfl, ?_, ?_, ?_, ?_, ?_, ?_⟩ <;> simp [after]
    intro y hy; simp [hy]
  · rw [if_neg h]
    refine ⟨s, ?_, rfl, rfl, fun h' => absurd h' h, fun _ => ⟨rfl, rfl⟩⟩
    exact ⟨rfl, rfl, fun _ _ => rfl, rfl, rfl, rfl, rfl, rfl⟩

theorem recycle_snd (s : Bcache) (p : Nat × Nat) (h dev blockno : Nat) :
    (recycle s p h dev blockno).2 = nextOf s p := rfl

theorem recycle_disklog (s : Bcache) (p : Nat × Nat) (h dev blockno : Nat) :
    (recycle s p h dev blockno).1.disklog = s.disklog := by
  unfold recycle; dsimp only; split <;> rfl

theorem recycle_buf_victim (s : Bcache) (p : Nat × Nat) (h dev blockno : Nat) :
    (recycle s p h dev blockno).1.buf (nextOf s p) =
      { s.buf (nextOf s p) with dev := dev, blockno := blockno, refcnt := 1, valid := false } := by
  unfold recycle; dsimp only; split <;> simp

theorem recycle_buf_other (s : Bcache) (p : Nat × Nat) (h dev blockno y : Nat)
    (hy : y ≠ nextOf s p) : (recycle s p h dev blockno).1.buf y = s.buf y := by
  unfold recycle; dsimp only; split <;> simp [hy]

theorem recycle_bufmap_same (s : Bcache) (p : Nat × Nat) (dev blockno : Nat)
    (h : p.1 = BUFMAP_HASH dev blockno) :
    (recycle s p p.1 dev blockno).1.bufmap = s.bufmap := by
  unfold recycle; dsimp only; rw [if_neg (by simpa using h)]

theorem recycle_bufmap_moved (s : Bcache) (p : Nat × Nat) (dev blockno : Nat)
    (h : p.1 ≠ BUFMAP_HASH dev blockno) (k : Nat) :
    (recycle s p p.1 dev blockno).1.bufmap k =
      if k = BUFMAP_HASH dev blockno then nextOf s p :: s.bufmap k
      else if k = p.1 then (s.bufmap k).eraseIdx p.2 else s.bufmap k := by
  unfold recycle; dsimp only; rw [if_pos h]
  dsimp only
  by_cases hk : k = BUFMAP_HASH dev blockno
  · subst hk
    have : BUFMAP_HASH dev blockno ≠ p.1 := fun e => h e.symm
    simp [this]
  · by_cases hk2 : k = p.1
    · subst hk2; simp [hk]
    · simp [hk, hk2]

theorem mem_eraseIdx_of_ne (l : List Nat) (j x : Nat) (hx : x ≠ l.getD j 0) :
    x ∈ l.eraseIdx j ↔ x ∈ l := by
  constructor
  · exact fun h => (List.eraseIdx_sublist l j).subset h
  · intro h
    rw [List.mem_eraseIdx_iff_getElem?]
    obtain ⟨i, hi⟩ := List.mem_iff_getElem?.1 h
    refine ⟨i, ?_, hi⟩
    rintro rfl
    apply hx
    simp [List.getD_eq_getElem?_getD, hi]

theorem not_mem_eraseIdx_self (l : List Nat) (j : Nat) (hl : l.Nodup) (hj : j < l.length) :
    l.getD j 0 ∉ l.eraseIdx j := by
  intro h
  rw [List.mem_eraseIdx_iff_getElem?] at h
  obtain ⟨i, hne, hi⟩ := h
  have hlt : i < l.length := by
    rcases Nat.lt_or_ge i l.length with h | h
    · exact h
    · rw [List.getElem?_eq_none h] at hi; cases hi
  rw [List.getElem?_eq_getElem hlt] at hi
  have hv : l.getD j 0 = l[j] := by
    simp [List.getD_eq_getElem?_getD, List.getElem?_eq_getElem hj]
  rw [hv] at hi
  exact hne ((hl.getElem_inj_iff).1 (Option.some.inj hi))

/-- Chain membership of every buffer but the victim is untouched by `recycle`. -/
theorem recycle_mem_other (s : Bcache) (p : Nat × Nat) (dev blockno y k : Nat)
    (hy : y ≠ nextOf s p) :
    y ∈ (recycle s p p.1 dev blockno).1.bufmap k ↔ y ∈ s.bufmap k := by
  by_cases h : p.1 = BUFMAP_HASH dev blockno
  · rw [recycle_bufmap_same s p dev blockno h]
  · rw [recycle_bufmap_moved s p dev blockno h k]
    split
    · simp [hy]
    · split
      · next hk => subst hk; exact mem_eraseIdx_of_ne _ _ _ hy
      · rfl

theorem exists_free_scan (s : Bcache)
    (hfree : ∃ k < BUCKETSIZE, ∃ x ∈ s.bufmap k, (s.buf x).refcnt = 0) :
    ∃ p, scan s = (some p, p.1) ∧ p.1 < BUCKETSIZE ∧ p.2 < (s.bufmap p.1).length ∧
      (s.buf (nextOf s p)).refcnt = 0 ∧
      ∀ i' j', i' < BUCKETSIZE → j' < (s.bufmap i').length →
        (s.buf (nextOf s (i', j'))).refcnt = 0 →
        (s.buf (nextOf s p)).lastuse ≤ (s.buf (nextOf s (i', j'))).lastuse ∧
        (Before i' j' p.1 p.2 →
          (s.buf (nextOf s p)).lastuse < (s.buf (nextOf s (i', j'))).lastuse) := by
  rcases scan_cases s with ⟨_, hall⟩ | h
  · obtain ⟨k, hk, x, hx, hr⟩ := hfree
    exact absurd hr (hall k hk x hx)
  · exact h

/-! ## Claims about `bget` -/

/-- C1: when `bget` misses and some chained buffer is unreferenced, the buffer it recycles
(the one it hands out, the only one whose record changes) is unreferenced, its `lastuse` is
least among the unreferenced buffers of the 13 buckets, and every unreferenced buffer that
comes before it in scan order has a strictly larger `lastuse`. -/
theorem bget_recycles_first_least (pid dev blockno : Nat) (s : Bcache)
    (hmiss : ∀ x ∈ s.bufmap (BUFMAP_HASH dev blockno), ¬ HasId s dev blockno x)
    (hfree : ∃ k < BUCKETSIZE, ∃ x ∈ s.bufmap k, (s.buf x).refcnt = 0) :
    ∃ i j s', i < BUCKETSIZE ∧ j < (s.bufmap i).length ∧
      granted (bget pid dev blockno s) = some (s', nextOf s (i, j)) ∧
      HasId s' dev blockno (nextOf s (i, j)) ∧
      (∀ y, y ≠ nextOf s (i, j) → s'.buf y = s.buf y) ∧
      (s.buf (nextOf s (i, j))).refcnt = 0 ∧
      ∀ i' < BUCKETSIZE, ∀ j' < (s.bufmap i').length,
        (s.buf (nextOf s (i', j'))).refcnt = 0 →
        (s.buf (nextOf s (i, j))).lastuse ≤ (s.buf (nextOf s (i', j'))).lastuse ∧
        (Before i' j' i j →
          (s.buf (nextOf s (i, j))).lastuse < (s.buf (nextOf s (i', j'))).lastuse) := by
  obtain ⟨p, hs, hp1, hp2, hr, hall⟩ := exists_free_scan s hfree
  have hl := (lookup_none_iff s dev blockno _).2 hmiss
  have hb := bget_recycle pid dev blockno s p hl hs
  obtain ⟨s', hlo, _, hg, _, _⟩ :=
    acquiresleep_spec pid (nextOf s p) (recycle s p p.1 dev blockno).1
  obtain ⟨_, _, hoth, hdev, hblk, _, _, _⟩ := hlo
  refine ⟨p.1, p.2, s', hp1, hp2, ?_, ?_, ?_, hr, ?_⟩
  · rw [hb]; exact hg
  · constructor
    · rw [hdev, recycle_buf_victim]
    · rw [hblk, recycle_buf_victim]
  · intro y hy
    rw [hoth y hy, recycle_buf_other s p p.1 dev blockno y hy]
  · intro i' hi' j' hj' hr'
    exact hall i' j' hi' hj' hr'

/-- C5: with reference counts that are not negative, `bget(dev, blockno)` panics exactly
when no buffer of the target bucket has the identity `(dev, blockno)` and every buffer of
every bucket has a reference count greater than 0; the panic is "bget: no buffers" and
leaves the whole state as it was. -/
theorem bget_panics_iff_exhausted (pid dev blockno : Nat) (s : Bcache)
    (hnn : ∀ k < BUCKETSIZE, ∀ x ∈ s.bufmap k, 0 ≤ (s.buf x).refcnt) :
    (panicked (bget pid dev blockno s) = true ↔
      ((∀ x ∈ s.bufmap (BUFMAP_HASH dev blockno), ¬ HasId s dev blockno x) ∧
        ∀ k < BUCKETSIZE, ∀ x ∈ s.bufmap k, 0 < (s.buf x).refcnt)) ∧
    (panicked (bget pid dev blockno s) = true →
      bget pid dev blockno s = .panic s "bget: no buffers") := by
  have hnp : ∀ b t, panicked (acquiresleep pid b t) = false := by
    intro b t; unfold acquiresleep; split <;> rfl
  cases hl : lookup s dev blockno (s.bufmap (BUFMAP_HASH dev blockno)) with
  | some b =>
    have hb := bget_hit pid dev blockno s b hl
    obtain ⟨hid, l1, l2, hchain, _⟩ := lookup_some s dev blockno _ b hl
    rw [hb, hnp]
    refine ⟨⟨fun h => (by cases h), ?_⟩, fun h => (by cases h)⟩
    rintro ⟨hmiss, _⟩
    exact absurd hid (hmiss b (by rw [hchain]; simp))
  | none =>
    have hmiss := (lookup_none_iff s dev blockno _).1 hl
    rcases scan_cases s with ⟨hs, hall⟩ | ⟨p, hs, hp1, hp2, hr, _⟩
    · have hb := bget_panic pid dev blockno s hl hs
      rw [hb]
      refine ⟨⟨fun _ => ⟨hmiss, ?_⟩, fun _ => rfl⟩, fun _ => rfl⟩
      intro k hk x hx
      exact lt_of_le_of_ne (hnn k hk x hx) (Ne.symm (hall k hk x hx))
    · have hb := bget_recycle pid dev blockno s p hl hs
      rw [hb, hnp]
      refine ⟨⟨fun h => (by cases h), ?_⟩, fun h => (by cases h)⟩
      rintro ⟨_, hall⟩
      have hmem : nextOf s p ∈ s.bufmap p.1 :=
        (mem_bufmap_iff s p.1 _).2 ⟨p.2, hp2, rfl⟩
      have := hall p.1 hp1 _ hmem
      omega

/-- C7: when the target bucket holds a buffer with the identity `(dev, blockno)`, `bget`
hands out the first such buffer of the chain (at once if its content lock is free), with
its reference count one higher and `dev`, `blockno`, `valid`, `lastuse` as before; no other
buffer and no chain changes. -/
theorem bget_hit_first_match (pid dev blockno : Nat) (s : Bcache)
    (h : ∃ x ∈ s.bufmap (BUFMAP_HASH dev blockno), HasId s dev blockno x) :
    ∃ l1 b l2 s', s.bufmap (BUFMAP_HASH dev blockno) = l1 ++ b :: l2 ∧
      HasId s dev blockno b ∧ (∀ a ∈ l1, ¬ HasId s dev blockno a) ∧
      granted (bget pid dev blockno s) = some (s', b) ∧
      ((s.buf b).lock = none → bget pid dev blockno s = .ret s' b) ∧
      (s'.buf b).refcnt = (s.buf b).refcnt + 1 ∧
      (s'.buf b).dev = (s.buf b).dev ∧ (s'.buf b).blockno = (s.buf b).blockno ∧
      (s'.buf b).valid = (s.buf b).valid ∧ (s'.buf b).lastuse = (s.buf b).lastuse ∧
      (∀ y, y ≠ b → s'.buf y = s.buf y) ∧ s'.bufmap = s.bufmap := by
  obtain ⟨b, hl⟩ := lookup_isSome s dev blockno _ h
  obtain ⟨hid, l1, l2, hchain, hfirst⟩ := lookup_some s dev blockno _ b hl
  have hb := bget_hit pid dev blockno s b hl
  obtain ⟨s', hlo, _, hg, hfreelk, _⟩ := acquiresleep_spec pid b (incref s b)
  obtain ⟨hmap, _, hoth, hdev, hblk, hval, href, hlast⟩ := hlo
  refine ⟨l1, b, l2, s', hchain, hid, hfirst, by rw [hb]; exact hg, ?_, ?_, ?_, ?_, ?_, ?_,
    ?_, ?_⟩
  · intro hfr
    rw [hb]
    exact (hfreelk (by simpa [incref] using hfr)).1
  · rw [href]; simp [incref]
  · rw [hdev]; simp [incref]
  · rw [hblk]; simp [incref]
  · rw [hval]; simp [incref]
  · rw [hlast]; simp [incref]
  · intro y hy; rw [hoth y hy]; simp [incref, hy]
  · rw [hmap]; rfl

/-- C6: when `bget(dev, blockno)` misses and does not panic, the buffer it hands out (at once
if its content lock is free) carries `dev`, `blockno`, `valid` 0 and `refcnt = 1`; it lies
in bucket `BUFMAP_HASH(dev, blockno)` and in no other; when its old bucket differs it was
unlinked there and put at the head of the target chain, and otherwise no chain changed. -/
theorem bget_miss_installs (pid dev blockno : Nat) (s : Bcache) (hch : Chained s)
    (hmiss : ∀ x ∈ s.bufmap (BUFMAP_HASH dev blockno), ¬ HasId s dev blockno x)
    (hnp : panicked (bget pid dev blockno s) = false) :
    ∃ i j s', i < BUCKETSIZE ∧ j < (s.bufmap i).length ∧
      granted (bget pid dev blockno s) = some (s', nextOf s (i, j)) ∧
      ((s.buf (nextOf s (i, j))).lock = none →
        bget pid dev blockno s = .ret s' (nextOf s (i, j))) ∧
      (s'.buf (nextOf s (i, j))).dev = dev ∧ (s'.buf (nextOf s (i, j))).blockno = blockno ∧
      (s'.buf (nextOf s (i, j))).valid = false ∧ (s'.buf (nextOf s (i, j))).refcnt = 1 ∧
      (∀ k < BUCKETSIZE, nextOf s (i, j) ∈ s'.bufmap k ↔ k = BUFMAP_HASH dev blockno) ∧
      (i ≠ BUFMAP_HASH dev blockno →
        s'.bufmap (BUFMAP_HASH dev blockno) =
          nextOf s (i, j) :: s.bufmap (BUFMAP_HASH dev blockno) ∧
        s'.bufmap i = (s.bufmap i).eraseIdx j ∧
        ∀ k, k ≠ BUFMAP_HASH dev blockno → k ≠ i → s'.bufmap k = s.bufmap k) ∧
      (i = BUFMAP_HASH dev blockno → s'.bufmap = s.bufmap) := by
  have hl := (lookup_none_iff s dev blockno _).2 hmiss
  have hkey : BUFMAP_HASH dev blockno < BUCKETSIZE := Nat.mod_lt _ (by decide)
  rcases scan_cases s with ⟨hs, _⟩ | ⟨p, hs, hp1, hp2, hr, _⟩
  · rw [bget_panic pid dev blockno s hl hs] at hnp; cases hnp
  have hb := bget_recycle pid dev blockno s p hl hs
  obtain ⟨s', hlo, _, hg, hfreelk, _⟩ :=
    acquiresleep_spec pid (nextOf s p) (recycle s p p.1 dev blockno).1
  obtain ⟨hmap, _, _, hdev, hblk, hval, href, _⟩ := hlo
  have hv := recycle_buf_victim s p p.1 dev blockno
  have hmemv : nextOf s p ∈ s.bufmap p.1 := (mem_bufmap_iff s p.1 _).2 ⟨p.2, hp2, rfl⟩
  have honly : ∀ k < BUCKETSIZE, nextOf s p ∈ s.bufmap k → k = p.1 := by
    intro k hk hmem
    by_contra hne
    exact hch.2 k hk p.1 hp1 hne _ hmem hmemv
  refine ⟨p.1, p.2, s', hp1, hp2, by rw [hb]; exact hg, ?_, by rw [hdev, hv],
    by rw [hblk, hv], by rw [hval, hv], by rw [href, hv], ?_, ?_, ?_⟩
  · intro hfr
    rw [hb]
    refine (hfreelk ?_).1
    rw [hv]; exact hfr
  · intro k hk
    rw [hmap]
    by_cases hsame : p.1 = BUFMAP_HASH dev blockno
    · rw [recycle_bufmap_same s p dev blockno hsame]
      constructor
      · intro hmem; rw [← hsame]; exact honly k hk hmem
      · intro hk'; rw [hk', ← hsame]; exact hmemv
    · rw [recycle_bufmap_moved s p dev blockno hsame k]
      by_cases hkk : k = BUFMAP_HASH dev blockno
      · simp [hkk]
      · rw [if_neg hkk]
        refine ⟨fun hmem => absurd ?_ hkk, fun hk' => absurd hk' hkk⟩
        exfalso
        by_cases hkp : k = p.1
        · rw [if_pos hkp, hkp] at hmem
          exact not_mem_eraseIdx_self _ _ (hch.1 p.1 hp1) hp2 hmem
        · rw [if_neg hkp] at hmem
          exact hkp (honly k hk hmem)
  · intro hne
    rw [hmap]
    have hm := recycle_bufmap_moved s p dev blockno hne
    refine ⟨by rw [hm]; simp, ?_, ?_⟩
    · rw [hm, if_neg hne, if_pos rfl]
    · intro k hk1 hk2; rw [hm, if_neg hk1, if_neg hk2]
  · intro he
    rw [hmap]; exact recycle_bufmap_same s p dev blockno he

/-- C4: whichever way a `bget` call ends, a buffer that was referenced before it keeps its
`dev`, `blockno`, `valid` and its chain, and its reference count stays or goes up by one;
a buffer whose `dev` or `blockno` changes had reference count 0. -/
theorem bget_keeps_referenced (pid dev blockno : Nat) (s : Bcache) :
    (∀ x, 0 < (s.buf x).refcnt →
      ((after (bget pid dev blockno s)).buf x).dev = (s.buf x).dev ∧
      ((after (bget pid dev blockno s)).buf x).blockno = (s.buf x).blockno ∧
      ((after (bget pid dev blockno s)).buf x).valid = (s.buf x).valid ∧
      (∀ k, x ∈ (after (bget pid dev blockno s)).bufmap k ↔ x ∈ s.bufmap k) ∧
      (((after (bget pid dev blockno s)).buf x).refcnt = (s.buf x).refcnt ∨
        ((after (bget pid dev blockno s)).buf x).refcnt = (s.buf x).refcnt + 1)) ∧
    (∀ x, (((after (bget pid dev blockno s)).buf x).dev ≠ (s.buf x).dev ∨
        ((after (bget pid dev blockno s)).buf x).blockno ≠ (s.buf x).blockno) →
      (s.buf x).refcnt = 0) := by
  cases hl : lookup s dev blockno (s.bufmap (BUFMAP_HASH dev blockno)) with
  | some b =>
    rw [bget_hit pid dev blockno s b hl]
    obtain ⟨s', hlo, haft, _, _, _⟩ := acquiresleep_spec pid b (incref s b)
    obtain ⟨hmap, _, hoth, hdev, hblk, hval, href, _⟩ := hlo
    rw [haft]
    have hsame : ∀ x, (s'.buf x).dev = (s.buf x).dev ∧ (s'.buf x).blockno = (s.buf x).blockno ∧
        (s'.buf x).valid = (s.buf x).valid ∧
        ((s'.buf x).refcnt = (s.buf x).refcnt ∨ (s'.buf x).refcnt = (s.buf x).refcnt + 1) := by
      intro x
      by_cases hx : x = b
      · subst hx
        rw [hdev, hblk, hval, href]
        simp [incref]
      · rw [hoth x hx]; simp [incref, hx]
    constructor
    · intro x _
      obtain ⟨h1, h2, h3, h4⟩ := hsame x
      exact ⟨h1, h2, h3, fun k => by rw [hmap]; rfl, h4⟩
    · intro x hx
      obtain ⟨h1, h2, _, _⟩ := hsame x
      rcases hx with hx | hx
      · exact absurd h1 hx
      · exact absurd h2 hx
  | none =>
    rcases scan_cases s with ⟨hs, _⟩ | ⟨p, hs, hp1, hp2, hr, _⟩
    · rw [bget_panic pid dev blockno s hl hs]
      simp [after]
    · rw [bget_recycle pid dev blockno s p hl hs]
      obtain ⟨s', hlo, haft, _, _, _⟩ :=
        acquiresleep_spec pid (nextOf s p) (recycle s p p.1 dev blockno).1
      obtain ⟨hmap, _, hoth, _, _, _, _, _⟩ := hlo
      rw [haft]
      have hkeep : ∀ x, x ≠ nextOf s p → s'.buf x = s.buf x := by
        intro x hx
        rw [hoth x hx, recycle_buf_other s p p.1 dev blockno x hx]
      constructor
      · intro x hpos
        have hx : x ≠ nextOf s p := by
          rintro rfl; rw [hr] at hpos; exact absurd hpos (lt_irrefl _)
        rw [hkeep x hx]
        refine ⟨rfl, rfl, rfl, ?_, Or.inl rfl⟩
        intro k
        rw [hmap]
        exact recycle_mem_other s p dev blockno x k hx
      · intro x hx
        by_cases hxv : x = nextOf s p
        · rw [hxv]; exact hr
        · rw [hkeep x hxv] at hx
          rcases hx with hx | hx <;> exact absurd rfl hx

/-! ## Claims about `brelse` and `bread` -/

theorem brelse_spec (ticks pid b : Nat) (s : Bcache) :
    (holdingsleep (s.buf b).lock pid = true →
      ∃ s', brelse ticks pid b s = .ret s' () ∧ (s'.buf b).lock = none ∧
        (s'.buf b).refcnt = (s.buf b).refcnt - 1 ∧
        (s'.buf b).lastuse = (if (s.buf b).refcnt - 1 = 0 then ticks else (s.buf b).lastuse) ∧
        (s'.buf b).dev = (s.buf b).dev ∧ (s'.buf b).blockno = (s.buf b).blockno ∧
        (s'.buf b).valid = (s.buf b).valid ∧ s'.bufmap = s.bufmap ∧
        s'.disklog = s.disklog ∧ ∀ y, y ≠ b → s'.buf y = s.buf y) ∧
    (holdingsleep (s.buf b).lock pid = false → brelse ticks pid b s = .panic s "brelse") := by
  constructor
  · intro h
    unfold brelse
    simp only [h, Bool.not_true, Bool.false_eq_true, if_false]
    by_cases h0 : (s.buf b).refcnt - 1 = 0
    · refine ⟨_, by rw [if_pos (by simpa [decref] using h0)], ?_⟩
      simp [decref, h0]
      intro y hy; simp [hy]
    · refine ⟨_, by rw [if_neg (by simpa [decref] using h0)], ?_⟩
      simp [decref, h0]
      intro y hy; simp [hy]
  · intro h
    unfold brelse
    simp [h]

theorem lookup_eq_some_of_unique (s : Bcache) (dev blockno b : Nat) (l : List Nat)
    (hoth : ∀ a ∈ l, a ≠ b → ¬ HasId s dev blockno a) (hb : HasId s dev blockno b)
    (hmem : b ∈ l) : lookup s dev blockno l = some b := by
  induction l with
  | nil => cases hmem
  | cons a l ih =>
    unfold lookup
    by_cases hab : a = b
    · subst hab
      rw [List.find?_cons_of_pos]
      · simpa [HasId] using hb
    · have hna := hoth a (by simp) hab
      rw [List.find?_cons_of_neg]
      · have hmem' : b ∈ l := by
          rcases List.mem_cons.1 hmem with h | h
          · exact absurd h.symm hab
          · exact h
        exact ih (fun x hx => hoth x (List.mem_cons_of_mem _ hx)) hmem'
      · simpa [HasId] using hna

/-- What a `bget` that hands out buffer `b` has done: a hit on `b`, or a recycling of `b`. -/
theorem bget_granted (pid dev blockno : Nat) (s s' : Bcache) (b : Nat)
    (h : granted (bget pid dev blockno s) = some (s', b)) :
    HasId s' dev blockno b ∧ s'.disklog = s.disklog ∧ (∀ y, y ≠ b → s'.buf y = s.buf y) ∧
    (s'.buf b).refcnt = (s.buf b).refcnt + 1 ∧
    ((lookup s dev blockno (s.bufmap (BUFMAP_HASH dev blockno)) = some b ∧
        s'.bufmap = s.bufmap ∧ (s'.buf b).dev = (s.buf b).dev ∧
        (s'.buf b).blockno = (s.buf b).blockno ∧ (s'.buf b).valid = (s.buf b).valid) ∨
      (lookup s dev blockno (s.bufmap (BUFMAP_HASH dev blockno)) = none ∧
        ∃ p, scan s = (some p, p.1) ∧ p.1 < BUCKETSIZE ∧ p.2 < (s.bufmap p.1).length ∧
          b = nextOf s p ∧ (s.buf b).refcnt = 0 ∧
          s'.bufmap = (recycle s p p.1 dev blockno).1.bufmap ∧ (s'.buf b).valid = false)) := by
  cases hl : lookup s dev blockno (s.bufmap (BUFMAP_HASH dev blockno)) with
  | some c =>
    rw [bget_hit pid dev blockno s c hl] at h
    obtain ⟨t, hlo, _, hg, _, _⟩ := acquiresleep_spec pid c (incref s c)
    rw [hg] at h
    cases h
    obtain ⟨hmap, hlog, hoth, hdev, hblk, hval, href, _⟩ := hlo
    obtain ⟨hid, _⟩ := lookup_some s dev blockno _ b hl
    have e1 : (s'.buf b).dev = (s.buf b).dev := by rw [hdev]; simp [incref]
    have e2 : (s'.buf b).blockno = (s.buf b).blockno := by rw [hblk]; simp [incref]
    refine ⟨?_, by rw [hlog]; rfl, ?_, by rw [href]; simp [incref], Or.inl ⟨rfl, ?_, e1, e2, ?_⟩⟩
    · exact ⟨e1.trans hid.1, e2.trans hid.2⟩
    · intro y hy; rw [hoth y hy]; simp [incref, hy]
    · rw [hmap]; rfl
    · rw [hval]; simp [incref]
  | none =>
    rcases scan_cases s with ⟨hs, _⟩ | ⟨p, hs, hp1, hp2, hr, _⟩
    · rw [bget_panic pid dev blockno s hl hs] at h; cases h
    · rw [bget_recycle pid dev blockno s p hl hs] at h
      obtain ⟨t, hlo, _, hg, _, _⟩ :=
        acquiresleep_spec pid (nextOf s p) (recycle s p p.1 dev blockno).1
      rw [hg] at h
      cases h
      obtain ⟨hmap, hlog, hoth, hdev, hblk, hval, href, _⟩ := hlo
      have hv := recycle_buf_victim s p p.1 dev blockno
      refine ⟨⟨by rw [hdev, hv], by rw [hblk, hv]⟩, by rw [hlog, recycle_disklog], ?_,
        by rw [href, hv, hr]; rfl,
        Or.inr ⟨rfl, p, hs, hp1, hp2, rfl, hr, hmap, by rw [hval, hv]⟩⟩
      intro y hy
      rw [hoth y hy, recycle_buf_other s p p.1 dev blockno y hy]

theorem granted_of_ret (o : Outcome Nat) (s : Bcache) (b : Nat) (h : o = .ret s b) :
    granted o = some (s, b) := by
  rw [h]; rfl

theorem fill_spec (b : Nat) (s : Bcache) :
    ((fill b s).buf b).valid = true ∧ (fill b s).bufmap = s.bufmap ∧
    (fill b s).disklog = (if (s.buf b).valid = false then (b, 0) :: s.disklog else s.disklog) ∧
    (∀ y, (((fill b s).buf y).dev = (s.buf y).dev ∧ ((fill b s).buf y).blockno = (s.buf y).blockno ∧
      ((fill b s).buf y).refcnt = (s.buf y).refcnt ∧ ((fill b s).buf y).lock = (s.buf y).lock ∧
      ((fill b s).buf y).lastuse = (s.buf y).lastuse)) ∧
    ∀ y, y ≠ b → (fill b s).buf y = s.buf y := by
  unfold fill
  cases h : (s.buf b).valid
  · simp
    refine ⟨?_, ?_⟩
    · intro y
      by_cases hy : y = b
      · subst hy; simp
      · simp [hy]
    · intro y hy; simp [hy]
  · simp [h]

/-- C9: called by the holder of the content lock, `brelse` returns with that lock released
and the reference count one lower; `lastuse` becomes the tick count when the count reaches 0
and is unchanged otherwise; `dev`, `blockno`, `valid`, the chains, the disk trace and every
other buffer are unchanged. Called by anyone else it panics ("brelse") in the same state. -/
theorem brelse_releases (ticks pid b : Nat) (s : Bcache) :
    (holdingsleep (s.buf b).lock pid = true →
      ∃ s', brelse ticks pid b s = .ret s' () ∧ (s'.buf b).lock = none ∧
        (s'.buf b).refcnt = (s.buf b).refcnt - 1 ∧
        (s'.buf b).lastuse = (if (s.buf b).refcnt - 1 = 0 then ticks else (s.buf b).lastuse) ∧
        (s'.buf b).dev = (s.buf b).dev ∧ (s'.buf b).blockno = (s.buf b).blockno ∧
        (s'.buf b).valid = (s.buf b).valid ∧ s'.bufmap = s.bufmap ∧
        s'.disklog = s.disklog ∧ ∀ y, y ≠ b → s'.buf y = s.buf y) ∧
    (holdingsleep (s.buf b).lock pid = false → brelse ticks pid b s = .panic s "brelse") :=
  brelse_spec ticks pid b s

theorem bread_of_ret (pid dev blockno : Nat) (s s1 : Bcache) (b : Nat)
    (h : bget pid dev blockno s = .ret s1 b) :
    bread pid dev blockno s = .ret (fill b s1) b := by
  unfold bread; rw [h]

/-- A miss on `(dev, blockno)` when the scan ends on an unlocked buffer: `bread` returns that
buffer after one device read. -/
theorem bread_miss (pid dev blockno : Nat) (s : Bcache) (p : Nat × Nat)
    (hmiss : ∀ x ∈ s.bufmap (BUFMAP_HASH dev blockno), ¬ HasId s dev blockno x)
    (hs : scan s = (some p, p.1)) (hp2 : p.2 < (s.bufmap p.1).length)
    (hlk : (s.buf (nextOf s p)).lock = none) :
    ∃ s1, bread pid dev blockno s = .ret s1 (nextOf s p) ∧
      HasId s1 dev blockno (nextOf s p) ∧
      (s1.buf (nextOf s p)).valid = true ∧ (s1.buf (nextOf s p)).refcnt = 1 ∧
      (s1.buf (nextOf s p)).lock = some pid ∧
      s1.disklog = (nextOf s p, 0) :: s.disklog ∧
      nextOf s p ∈ s1.bufmap (BUFMAP_HASH dev blockno) ∧
      ∀ a ∈ s1.bufmap (BUFMAP_HASH dev blockno), a ≠ nextOf s p → ¬ HasId s1 dev blockno a := by
  have hl := (lookup_none_iff s dev blockno _).2 hmiss
  have hb := bget_recycle pid dev blockno s p hl hs
  obtain ⟨t, hlo, _, _, hfreelk, _⟩ :=
    acquiresleep_spec pid (nextOf s p) (recycle s p p.1 dev blockno).1
  obtain ⟨hmap, hlog, hoth, hdev, hblk, hval, href, _⟩ := hlo
  have hv := recycle_buf_victim s p p.1 dev blockno
  have hmemv : nextOf s p ∈ s.bufmap p.1 := (mem_bufmap_iff s p.1 _).2 ⟨p.2, hp2, rfl⟩
  have hfr : ((recycle s p p.1 dev blockno).1.buf (nextOf s p)).lock = none := by
    rw [hv]; exact hlk
  obtain ⟨hret, hlock⟩ := hfreelk hfr
  rw [← hb] at hret
  obtain ⟨fv, fmap, flog, fall, foth⟩ := fill_spec (nextOf s p) t
  have hvalt : (t.buf (nextOf s p)).valid = false := by rw [hval, hv]
  refine ⟨fill (nextOf s p) t, bread_of_ret pid dev blockno s t _ hret, ?_, fv, ?_,
    ?_, ?_, ?_, ?_⟩
  · exact ⟨by rw [(fall _).1, hdev, hv], by rw [(fall _).2.1, hblk, hv]⟩
  · rw [(fall _).2.2.1, href, hv]
  · rw [(fall _).2.2.2.1, hlock]
  · rw [flog, if_pos hvalt, hlog, recycle_disklog]
  · rw [fmap, hmap]
    by_cases hsame : p.1 = BUFMAP_HASH dev blockno
    · rw [recycle_bufmap_same s p dev blockno hsame, ← hsame]; exact hmemv
    · rw [recycle_bufmap_moved s p dev blockno hsame, if_pos rfl]; simp
  · intro a ha hne hid
    rw [fmap, hmap, recycle_mem_other s p dev blockno a _ hne] at ha
    apply hmiss a ha
    unfold HasId at hid ⊢
    rw [foth a hne, hoth a hne, recycle_buf_other s p p.1 dev blockno a hne] at hid
    exact hid

/-- A `bread` that returns on a miss has recycled an unlocked buffer. -/
theorem bread_miss_ret (pid dev blockno : Nat) (s s1 : Bcache) (b : Nat)
    (hmiss : ∀ x ∈ s.bufmap (BUFMAP_HASH dev blockno), ¬ HasId s dev blockno x)
    (hret : bread pid dev blockno s = .ret s1 b) :
    ∃ p, scan s = (some p, p.1) ∧ p.2 < (s.bufmap p.1).length ∧
      (s.buf (nextOf s p)).lock = none := by
  have hl := (lookup_none_iff s dev blockno _).2 hmiss
  rcases scan_cases s with ⟨hs, _⟩ | ⟨p, hs, _, hp2, _, _⟩
  · unfold bread at hret
    rw [bget_panic pid dev blockno s hl hs] at hret
    cases hret
  · refine ⟨p, hs, hp2, ?_⟩
    by_contra hlk
    obtain ⟨t, _, _, _, _, hsl⟩ :=
      acquiresleep_spec pid (nextOf s p) (recycle s p p.1 dev blockno).1
    have hlk' : ((recycle s p p.1 dev blockno).1.buf (nextOf s p)).lock ≠ none := by
      rw [recycle_buf_victim]; exact hlk
    unfold bread at hret
    rw [bget_recycle pid dev blockno s p hl hs, (hsl hlk').1] at hret
    cases hret

/-- A hit on an unlocked, valid buffer that is the only one of its chain with the identity:
`bread` returns it without a device read. -/
theorem bread_hit (pid dev blockno : Nat) (s : Bcache) (b : Nat)
    (hmem : b ∈ s.bufmap (BUFMAP_HASH dev blockno)) (hid : HasId s dev blockno b)
    (hoth : ∀ a ∈ s.bufmap (BUFMAP_HASH dev blockno), a ≠ b → ¬ HasId s dev blockno a)
    (hval : (s.buf b).valid = true) (hlock : (s.buf b).lock = none) :
    ∃ s1, bread pid dev blockno s = .ret s1 b ∧ (s1.buf b).refcnt = (s.buf b).refcnt + 1 ∧
      (s1.buf b).lock = some pid ∧ s1.disklog = s.disklog := by
  have hl := lookup_eq_some_of_unique s dev blockno b _ hoth hid hmem
  have hb := bget_hit pid dev blockno s b hl
  obtain ⟨t, hlo, _, _, hfreelk, _⟩ := acquiresleep_spec pid b (incref s b)
  obtain ⟨_, hlog, _, _, _, hv, href, _⟩ := hlo
  obtain ⟨hret, hlk⟩ := hfreelk (by simpa [incref] using hlock)
  rw [← hb] at hret
  obtain ⟨_, _, flog, fall, _⟩ := fill_spec b t
  have hvt : (t.buf b).valid = true := by rw [hv]; simpa [incref] using hval
  refine ⟨fill b t, bread_of_ret pid dev blockno s t b hret, ?_, ?_, ?_⟩
  · rw [(fall b).2.2.1, href]; simp [incref]
  · rw [(fall b).2.2.2.1, hlk]
  · rw [flog, hvt, hlog]; simp [incref]

/-- C8: when `bget` returns, `bread` returns the same buffer, with the requested identity and
`valid` set, and the disk trace grows by a read of that buffer exactly when `bget` returned
it invalid. When the target bucket misses the block and the first `bread` returns, the
following `brelse`, `bread` and `brelse` return as well, the second `bread` returns the same
buffer, the four calls issue exactly one device read, and the reference count of the buffer
ends at 0. The first `bread` does return when some chained buffer is unreferenced and the
unreferenced buffers are unlocked. -/
theorem bread_reads_once (pid pid' dev blockno t1 t2 : Nat) (s : Bcache) :
    (∀ s1 b, bget pid dev blockno s = .ret s1 b →
      ∃ s', bread pid dev blockno s = .ret s' b ∧ HasId s' dev blockno b ∧
        (s'.buf b).valid = true ∧
        s'.disklog = (if (s1.buf b).valid = false then (b, 0) :: s.disklog else s.disklog)) ∧
    ((∀ x ∈ s.bufmap (BUFMAP_HASH dev blockno), ¬ HasId s dev blockno x) →
      ∀ s1 b, bread pid dev blockno s = .ret s1 b →
        ∃ s2 s3 s4, brelse t1 pid b s1 = .ret s2 () ∧ bread pid' dev blockno s2 = .ret s3 b ∧
          brelse t2 pid' b s3 = .ret s4 () ∧ s4.disklog = (b, 0) :: s.disklog ∧
          (s4.buf b).refcnt = 0) ∧
    ((∀ x ∈ s.bufmap (BUFMAP_HASH dev blockno), ¬ HasId s dev blockno x) →
      (∃ k < BUCKETSIZE, ∃ x ∈ s.bufmap k, (s.buf x).refcnt = 0) →
      (∀ k < BUCKETSIZE, ∀ x ∈ s.bufmap k, (s.buf x).refcnt = 0 → (s.buf x).lock = none) →
      ∃ s1 b, bread pid dev blockno s = .ret s1 b) := by
  refine ⟨?_, ?_, ?_⟩
  · intro s1 b h
    obtain ⟨hid, hlog, _, _, _⟩ :=
      bget_granted pid dev blockno s s1 b (granted_of_ret _ _ _ h)
    obtain ⟨fv, _, flog, fall, _⟩ := fill_spec b s1
    refine ⟨fill b s1, bread_of_ret pid dev blockno s s1 b h, ?_, fv, by rw [flog, hlog]⟩
    exact ⟨by rw [(fall b).1]; exact hid.1, by rw [(fall b).2.1]; exact hid.2⟩
  · intro hmiss s1 b hret
    obtain ⟨p, hs, hp2, hlk⟩ := bread_miss_ret pid dev blockno s s1 b hmiss hret
    obtain ⟨s1', hr1, hid1, hv1, hrc1, hlk1, hlog1, hmem1, hoth1⟩ :=
      bread_miss pid dev blockno s p hmiss hs hp2 hlk
    rw [hret] at hr1
    cases hr1
    obtain ⟨s2, hr2, hlk2, hrc2, _, hdev2, hblk2, hv2, hmap2, hlog2, hoth2⟩ :=
      (brelse_spec t1 pid (nextOf s p) s1).1 (by simp [holdingsleep, hlk1])
    have hid2 : HasId s2 dev blockno (nextOf s p) := ⟨hdev2.trans hid1.1, hblk2.trans hid1.2⟩
    have hmem2 : nextOf s p ∈ s2.bufmap (BUFMAP_HASH dev blockno) := by rw [hmap2]; exact hmem1
    have hun2 : ∀ a ∈ s2.bufmap (BUFMAP_HASH dev blockno), a ≠ nextOf s p →
        ¬ HasId s2 dev blockno a := by
      intro a ha hne hid
      rw [hmap2] at ha
      apply hoth1 a ha hne
      unfold HasId at hid ⊢
      rw [hoth2 a hne] at hid
      exact hid
    obtain ⟨s3, hr3, hrc3, hlk3, hlog3⟩ :=
      bread_hit pid' dev blockno s2 _ hmem2 hid2 hun2 (hv2.trans hv1) hlk2
    obtain ⟨s4, hr4, _, hrc4, _, _, _, _, _, hlog4, _⟩ :=
      (brelse_spec t2 pid' (nextOf s p) s3).1 (by simp [holdingsleep, hlk3])
    refine ⟨s2, s3, s4, hr2, hr3, hr4, ?_, ?_⟩
    · rw [hlog4, hlog3, hlog2, hlog1]
    · rw [hrc4, hrc3, hrc2, hrc1]; rfl
  · intro hmiss hfree hlk
    obtain ⟨p, hs, hp1, hp2, hr, _⟩ := exists_free_scan s hfree
    have hmemv : nextOf s p ∈ s.bufmap p.1 := (mem_bufmap_iff s p.1 _).2 ⟨p.2, hp2, rfl⟩
    obtain ⟨s1, hr1, _⟩ :=
      bread_miss pid dev blockno s p hmiss hs hp2 (hlk p.1 hp1 _ hmemv hr)
    exact ⟨s1, _, hr1⟩

/-! ## Reachable states -/

theorem lookup_congr (s s' : Bcache) (dev blockno : Nat) (l : List Nat)
    (h : ∀ a ∈ l, (s'.buf a).dev = (s.buf a).dev ∧ (s'.buf a).blockno = (s.buf a).blockno) :
    lookup s' dev blockno l = lookup s dev blockno l := by
  induction l with
  | nil => rfl
  | cons a l ih =>
    have ha := h a (by simp)
    have ih' := ih (fun x hx => h x (List.mem_cons_of_mem _ hx))
    unfold lookup at ih' ⊢
    simp only [List.find?_cons, ha.1, ha.2, ih']

/-- A lookup that finds `x` still finds it when another buffer `v`, which does not carry the
looked-up identity afterwards, is the only buffer that changed. -/
theorem lookup_other (s s' : Bcache) (dev blockno v x : Nat) (l : List Nat)
    (hoth : ∀ a, a ≠ v → s'.buf a = s.buf a) (hv : ¬ HasId s' dev blockno v) (hx : x ≠ v)
    (h : lookup s dev blockno l = some x) : lookup s' dev blockno l = some x := by
  induction l with
  | nil => cases h
  | cons a l ih =>
    unfold lookup at h ih ⊢
    rw [List.find?_cons] at h ⊢
    by_cases hav : a = v
    · subst hav
      have hpa : decide ((s'.buf a).dev = dev ∧ (s'.buf a).blockno = blockno) = false := by
        simpa [HasId] using hv
      rw [hpa]
      cases hq : decide ((s.buf a).dev = dev ∧ (s.buf a).blockno = blockno) with
      | true => rw [hq] at h; cases h; exact absurd rfl hx
      | false => rw [hq] at h; exact ih h
    · rw [hoth a hav]
      cases hq : decide ((s.buf a).dev = dev ∧ (s.buf a).blockno = blockno) with
      | true => rw [hq] at h; exact h
      | false => rw [hq] at h; exact ih h

theorem lookup_eraseIdx (s : Bcache) (dev blockno x : Nat) :
    ∀ (l : List Nat) (j : Nat), x ≠ l.getD j 0 → lookup s dev blockno l = some x →
      lookup s dev blockno (l.eraseIdx j) = some x := by
  intro l
  induction l with
  | nil => intro j _ h; cases h
  | cons a l ih =>
    intro j hj h
    unfold lookup at h ih ⊢
    cases j with
    | zero =>
      have hxa : x ≠ a := by simpa using hj
      rw [List.find?_cons] at h
      cases hq : decide ((s.buf a).dev = dev ∧ (s.buf a).blockno = blockno) with
      | true => rw [hq] at h; cases h; exact absurd rfl hxa
      | false => rw [hq] at h; simpa using h
    | succ j =>
      have hj' : x ≠ l.getD j 0 := by simpa using hj
      rw [List.eraseIdx_cons_succ, List.find?_cons]
      rw [List.find?_cons] at h
      cases hq : decide ((s.buf a).dev = dev ∧ (s.buf a).blockno = blockno) with
      | true => rw [hq] at h; exact h
      | false => rw [hq] at h; exact ih j hj' h

/-- Under `Chained`, the recycled buffer ends up in the target bucket only. -/
theorem recycle_mem_victim (s : Bcache) (p : Nat × Nat) (dev blockno : Nat) (hch : Chained s)
    (hp1 : p.1 < BUCKETSIZE) (hp2 : p.2 < (s.bufmap p.1).length) (k : Nat)
    (hk : k < BUCKETSIZE) :
    nextOf s p ∈ (recycle s p p.1 dev blockno).1.bufmap k ↔ k = BUFMAP_HASH dev blockno := by
  have hmemv : nextOf s p ∈ s.bufmap p.1 := (mem_bufmap_iff s p.1 _).2 ⟨p.2, hp2, rfl⟩
  have honly : ∀ k < BUCKETSIZE, nextOf s p ∈ s.bufmap k → k = p.1 := by
    intro k hk hmem
    by_contra hne
    exact hch.2 k hk p.1 hp1 hne _ hmem hmemv
  by_cases hsame : p.1 = BUFMAP_HASH dev blockno
  · rw [recycle_bufmap_same s p dev blockno hsame]
    constructor
    · intro hmem; rw [← hsame]; exact honly k hk hmem
    · intro hk'; rw [hk', ← hsame]; exact hmemv
  · rw [recycle_bufmap_moved s p dev blockno hsame k]
    by_cases hkk : k = BUFMAP_HASH dev blockno
    · simp [hkk]
    · rw [if_neg hkk]
      refine ⟨fun hmem => absurd ?_ hkk, fun hk' => absurd hk' hkk⟩
      exfalso
      by_cases hkp : k = p.1
      · rw [if_pos hkp, hkp] at hmem
        exact not_mem_eraseIdx_self _ _ (hch.1 p.1 hp1) hp2 hmem
      · rw [if_neg hkp] at hmem
        exact hkp (honly k hk hmem)

/-- A step that keeps the chains and every identity, and changes reference counts of
handed-out buffers only, keeps the invariant. -/
theorem inv_quiet (NBUF : Nat) (s s' : Bcache) (H : List Nat) (h : Inv NBUF s H)
    (hmap : s'.bufmap = s.bufmap)
    (hid : ∀ x, (s'.buf x).dev = (s.buf x).dev ∧ (s'.buf x).blockno = (s.buf x).blockno)
    (href : ∀ x, x ∉ H → (s'.buf x).refcnt = (s.buf x).refcnt) : Inv NBUF s' H := by
  refine ⟨?_, ?_, ?_, ?_, ?_, ?_⟩
  · unfold Chained; rw [hmap]; exact h.chained
  · intro k hk x hx
    rw [hmap] at hx
    rw [(hid x).1, (hid x).2]; exact h.hashed k hk x hx
  · intro x hx
    rw [(hid x).1, (hid x).2, hmap, lookup_congr s s' _ _ _ (fun a _ => hid a)]
    exact h.first x hx
  · intro x hx
    by_contra hn
    rw [href x hn] at hx
    exact hn (h.live x hx)
  · intro x hx; rw [hmap]; exact h.member x hx
  · intro k hk k' hk' x hx y hy hne
    rw [hmap] at hx hy
    rw [(hid x).1, (hid x).2, (hid y).1, (hid y).2]
    exact h.zero k hk k' hk' x hx y hy hne

/-- Handing out the buffer a lookup finds keeps the invariant. -/
theorem inv_add (NBUF : Nat) (s : Bcache) (H : List Nat) (b dev blockno : Nat)
    (h : Inv NBUF s H)
    (hl : lookup s dev blockno (s.bufmap (BUFMAP_HASH dev blockno)) = some b) :
    Inv NBUF s (b :: H) := by
  obtain ⟨hid, _⟩ := lookup_some s dev blockno _ b hl
  refine ⟨h.chained, h.hashed, ?_, ?_, h.member, h.zero⟩
  · intro x hx
    rcases List.mem_cons.1 hx with rfl | hx
    · rw [hid.1, hid.2]; exact hl
    · exact h.first x hx
  · intro x hx; exact List.mem_cons_of_mem _ (h.live x hx)

/-- Recycling an unreferenced buffer for an identity the target bucket misses keeps the
invariant. -/
theorem inv_recycle (NBUF : Nat) (s s' : Bcache) (H : List Nat) (dev blockno : Nat)
    (p : Nat × Nat) (h : Inv NBUF s H)
    (hl : lookup s dev blockno (s.bufmap (BUFMAP_HASH dev blockno)) = none)
    (hp1 : p.1 < BUCKETSIZE) (hp2 : p.2 < (s.bufmap p.1).length)
    (hmap : s'.bufmap = (recycle s p p.1 dev blockno).1.bufmap)
    (hoth : ∀ y, y ≠ nextOf s p → s'.buf y = s.buf y)
    (hid : HasId s' dev blockno (nextOf s p)) : Inv NBUF s' (nextOf s p :: H) := by
  have hkey : BUFMAP_HASH dev blockno < BUCKETSIZE := Nat.mod_lt _ (by decide)
  have hmiss := (lookup_none_iff s dev blockno _).1 hl
  have hmemo : ∀ y k, y ≠ nextOf s p → (y ∈ s'.bufmap k ↔ y ∈ s.bufmap k) := by
    intro y k hy; rw [hmap]; exact recycle_mem_other s p dev blockno y k hy
  have hmemv : ∀ k < BUCKETSIZE, (nextOf s p ∈ s'.bufmap k ↔ k = BUFMAP_HASH dev blockno) := by
    intro k hk; rw [hmap]
    exact recycle_mem_victim s p dev blockno h.chained hp1 hp2 k hk
  have hvin : nextOf s p ∈ s.bufmap p.1 := (mem_bufmap_iff s p.1 _).2 ⟨p.2, hp2, rfl⟩
  -- no chained buffer carries the requested identity before the call
  have hnone : ∀ k < BUCKETSIZE, ∀ y ∈ s.bufmap k, ¬ HasId s dev blockno y := by
    intro k hk y hy hidy
    have := h.hashed k hk y hy
    rw [hidy.1, hidy.2] at this
    rw [← this] at hy
    exact hmiss y hy hidy
  refine ⟨⟨?_, ?_⟩, ?_, ?_, ?_, ?_, ?_⟩
  · intro k hk
    rw [hmap]
    by_cases hsame : p.1 = BUFMAP_HASH dev blockno
    · rw [recycle_bufmap_same s p dev blockno hsame]; exact h.chained.1 k hk
    · rw [recycle_bufmap_moved s p dev blockno hsame k]
      split
      · next hkk =>
        refine List.nodup_cons.2 ⟨?_, h.chained.1 k hk⟩
        intro hin
        exact h.chained.2 p.1 hp1 k hk (by rw [hkk]; exact hsame) _ hvin hin
      · split
        · exact (h.chained.1 k hk).sublist (List.eraseIdx_sublist _ _)
        · exact h.chained.1 k hk
  · intro k hk k' hk' hne x hx hx'
    by_cases hxv : x = nextOf s p
    · subst hxv
      exact hne (((hmemv k hk).1 hx).trans ((hmemv k' hk').1 hx').symm)
    · exact h.chained.2 k hk k' hk' hne x ((hmemo x k hxv).1 hx) ((hmemo x k' hxv).1 hx')
  · intro k hk x hx
    by_cases hxv : x = nextOf s p
    · subst hxv
      rw [hid.1, hid.2]; exact ((hmemv k hk).1 hx).symm
    · rw [hoth x hxv]; exact h.hashed k hk x ((hmemo x k hxv).1 hx)
  · intro x hx
    by_cases hxv : x = nextOf s p
    · subst hxv
      rw [hid.1, hid.2]
      refine lookup_eq_some_of_unique s' dev blockno _ _ ?_ hid ((hmemv _ hkey).2 rfl)
      intro a ha hav hida
      apply hmiss a ((hmemo a _ hav).1 ha)
      unfold HasId at hida ⊢
      rw [hoth a hav] at hida; exact hida
    · have hxH : x ∈ H := by
        rcases List.mem_cons.1 hx with e | e
        · exact absurd e hxv
        · exact e
      have hf := h.first x hxH
      rw [hoth x hxv]
      have hvno : ¬ HasId s' (s.buf x).dev (s.buf x).blockno (nextOf s p) := by
        intro hv
        have e1 : (s.buf x).dev = dev := hv.1.symm.trans hid.1
        have e2 : (s.buf x).blockno = blockno := hv.2.symm.trans hid.2
        rw [e1, e2, hl] at hf; cases hf
      rw [hmap]
      by_cases hsame : p.1 = BUFMAP_HASH dev blockno
      · rw [recycle_bufmap_same s p dev blockno hsame]
        exact lookup_other s s' _ _ _ x _ hoth hvno hxv hf
      · rw [recycle_bufmap_moved s p dev blockno hsame]
        split
        · have := lookup_other s s' _ _ _ x _ hoth hvno hxv hf
          unfold lookup at this ⊢
          rw [List.find?_cons_of_neg]
          · exact this
          · simpa [HasId] using hvno
        · split
          · next hkp =>
            rw [hkp] at hf ⊢
            exact lookup_other s s' _ _ _ x _ hoth hvno hxv
              (lookup_eraseIdx s _ _ x _ p.2 hxv hf)
          · exact lookup_other s s' _ _ _ x _ hoth hvno hxv hf
  · intro x hx
    by_cases hxv : x = nextOf s p
    · rw [hxv]; simp
    · rw [hoth x hxv] at hx
      exact List.mem_cons_of_mem _ (h.live x hx)
  · intro x hx
    by_cases hxv : x = nextOf s p
    · exact ⟨_, hkey, by rw [hxv]; exact (hmemv _ hkey).2 rfl⟩
    · obtain ⟨k, hk, hin⟩ := h.member x hx
      exact ⟨k, hk, (hmemo x k hxv).2 hin⟩
  · intro k hk k' hk' x hx y hy hne hd hb
    by_cases hxv : x = nextOf s p
    · exfalso
      have hyv : y ≠ nextOf s p := fun e => hne (hxv.trans e.symm)
      apply hnone k' hk' y ((hmemo y k' hyv).1 hy)
      rw [hxv, hid.1, hoth y hyv] at hd
      rw [hxv, hid.2, hoth y hyv] at hb
      exact ⟨hd.symm, hb.symm⟩
    · by_cases hyv : y = nextOf s p
      · exfalso
        apply hnone k hk x ((hmemo x k hxv).1 hx)
        rw [hyv, hid.1, hoth x hxv] at hd
        rw [hyv, hid.2, hoth x hxv] at hb
        exact ⟨hd, hb⟩
      · rw [hoth x hxv] at hd hb ⊢
        rw [hoth y hyv] at hd hb
        exact h.zero k hk k' hk' x ((hmemo x k hxv).1 hx) y ((hmemo y k' hyv).1 hy) hne hd hb

/-! ## The state after `binit` -/

theorem binit_first_loop (n : Nat) :
    ((List.range n).foldl (fun s i => { s with bufmap := upd s.bufmap i [] }) zeroed).buf =
        zeroed.buf ∧
    (∀ k, ((List.range n).foldl
        (fun s i => { s with bufmap := upd s.bufmap i [] }) zeroed).bufmap k = []) := by
  induction n with
  | zero => exact ⟨rfl, fun _ => rfl⟩
  | succ n ih =>
    rw [List.range_succ, List.foldl_append]
    refine ⟨ih.1, ?_⟩
    intro k
    simp only [List.foldl_cons, List.foldl_nil]
    by_cases hk : k = n
    · simp [hk]
    · simp [hk, ih.2 k]

theorem binit_second_loop (s0 : Bcache) (hbuf : s0.buf = zeroed.buf)
    (hmap : ∀ k, s0.bufmap k = []) (n : Nat) :
    (∀ x, ((List.range n).foldl binit_buf s0).buf x = zeroed.buf x) ∧
    ((List.range n).foldl binit_buf s0).bufmap 0 = (List.range n).reverse ∧
    (∀ k, k ≠ 0 → ((List.range n).foldl binit_buf s0).bufmap k = []) := by
  induction n with
  | zero => exact ⟨fun x => by rw [List.range_zero, List.foldl_nil, hbuf], hmap 0,
      fun k _ => hmap k⟩
  | succ n ih =>
    obtain ⟨h1, h2, h3⟩ := ih
    rw [List.range_succ, List.foldl_append]
    simp only [List.foldl_cons, List.foldl_nil]
    generalize List.foldl binit_buf s0 (List.range n) = t at h1 h2 h3 ⊢
    refine ⟨?_, ?_, ?_⟩
    · intro x
      unfold binit_buf
      by_cases hx : x = n
      · subst hx
        simp only [upd_same, h1]
        rfl
      · simp only [upd_ne _ _ _ _ hx, h1]
    · unfold binit_buf
      simp [h2]
    · intro k hk
      unfold binit_buf
      simp [hk, h3 k hk]

theorem binit_spec (NBUF : Nat) :
    (∀ x, (binit NBUF).buf x = zeroed.buf x) ∧
    (binit NBUF).bufmap 0 = (List.range NBUF).reverse ∧
    (∀ k, k ≠ 0 → (binit NBUF).bufmap k = []) := by
  obtain ⟨h1, h2⟩ := binit_first_loop BUCKETSIZE
  exact binit_second_loop _ h1 h2 NBUF

theorem inv_binit (NBUF : Nat) : Inv NBUF (binit NBUF) [] := by
  obtain ⟨hbuf, h0, hk⟩ := binit_spec NBUF
  have hmap : ∀ k x, x ∈ (binit NBUF).bufmap k → k = 0 := by
    intro k x hx
    by_contra hne
    rw [hk k hne] at hx; cases hx
  refine ⟨⟨?_, ?_⟩, ?_, ?_, ?_, ?_, ?_⟩
  · intro k _
    by_cases h : k = 0
    · rw [h, h0]; exact List.nodup_reverse.2 (List.nodup_range NBUF)
    · rw [hk k h]; exact List.nodup_nil
  · intro k _ k' _ hne x hx hx'
    exact hne ((hmap k x hx).trans (hmap k' x hx').symm)
  · intro k _ x hx
    rw [hbuf x, hmap k x hx]
    show BUFMAP_HASH 0 0 = 0
    decide
  · intro x hx; cases hx
  · intro x hx
    rw [hbuf x] at hx; exact absurd rfl hx
  · intro x hx
    exact ⟨0, by decide, by rw [h0]; simpa using hx⟩
  · intro k _ k' _ x _ y _ _ _ _
    rw [hbuf x]; exact ⟨rfl, rfl⟩

theorem inv_lockOnly (NBUF : Nat) (s s' : Bcache) (H : List Nat) (b : Nat)
    (h : Inv NBUF s H) (hlo : LockOnly s s' b) : Inv NBUF s' H := by
  obtain ⟨hmap, _, hoth, hdev, hblk, _, href, _⟩ := hlo
  refine inv_quiet NBUF s s' H h hmap ?_ ?_
  · intro x
    by_cases hx : x = b
    · subst hx; exact ⟨hdev, hblk⟩
    · rw [hoth x hx]; exact ⟨rfl, rfl⟩
  · intro x _
    by_cases hx : x = b
    · subst hx; exact href
    · rw [hoth x hx]

theorem inv_fill (NBUF : Nat) (s : Bcache) (H : List Nat) (b : Nat) (h : Inv NBUF s H) :
    Inv NBUF (fill b s) H := by
  obtain ⟨_, fmap, _, fall, _⟩ := fill_spec b s
  exact inv_quiet NBUF s _ H h fmap (fun x => ⟨(fall x).1, (fall x).2.1⟩)
    (fun x _ => (fall x).2.2.1)

theorem inv_bget (NBUF : Nat) (s s' : Bcache) (H : List Nat) (pid dev blockno b : Nat)
    (h : Inv NBUF s H) (hg : granted (bget pid dev blockno s) = some (s', b)) :
    Inv NBUF s' (b :: H) := by
  obtain ⟨hid, _, hoth, _, hcase⟩ := bget_granted pid dev blockno s s' b hg
  rcases hcase with ⟨hl, hmap, hdev, hblk, _⟩ | ⟨hl, p, _, hp1, hp2, hb, _, hmap, _⟩
  · refine inv_quiet NBUF s s' (b :: H) (inv_add NBUF s H b dev blockno h hl) hmap ?_ ?_
    · intro x
      by_cases hx : x = b
      · subst hx; exact ⟨hdev, hblk⟩
      · rw [hoth x hx]; exact ⟨rfl, rfl⟩
    · intro x hx
      have : x ≠ b := fun e => hx (by rw [e]; simp)
      rw [hoth x this]
  · subst hb
    exact inv_recycle NBUF s s' H dev blockno p h hl hp1 hp2 hmap hoth hid

theorem acquiresleep_ret_lockOnly (pid b : Nat) (s s' : Bcache)
    (h : acquiresleep pid b s = .ret s' b) : LockOnly s s' b := by
  obtain ⟨t, hlo, haft, _, _, _⟩ := acquiresleep_spec pid b s
  rw [h] at haft
  have : s' = t := haft
  rw [this]; exact hlo

theorem bread_granted (pid dev blockno : Nat) (s s' : Bcache) (b : Nat)
    (h : granted (bread pid dev blockno s) = some (s', b)) :
    ∃ s1, granted (bget pid dev blockno s) = some (s1, b) ∧ (s' = s1 ∨ s' = fill b s1) := by
  unfold bread at h
  cases hb : bget pid dev blockno s with
  | ret s1 c =>
    rw [hb] at h
    simp only [granted, Option.some.injEq, Prod.mk.injEq] at h
    obtain ⟨h1, h2⟩ := h
    subst h2
    exact ⟨s1, rfl, Or.inr h1.symm⟩
  | sleep s1 c =>
    rw [hb] at h
    simp only [granted, Option.some.injEq, Prod.mk.injEq] at h
    obtain ⟨h1, h2⟩ := h
    subst h2
    exact ⟨s1, rfl, Or.inl h1.symm⟩
  | panic s1 m => rw [hb] at h; cases h

theorem reachable_inv (NBUF : Nat) (s : Bcache) (H : List Nat) (h : Reachable NBUF s H) :
    Inv NBUF s H := by
  induction h with
  | init => exact inv_binit NBUF
  | get pid dev blockno s' b _ hg ih => exact inv_bget NBUF _ s' _ pid dev blockno b ih hg
  | read pid dev blockno s' b _ hg ih =>
    obtain ⟨s1, hg1, hs⟩ := bread_granted pid dev blockno _ s' b hg
    have h1 := inv_bget NBUF _ s1 _ pid dev blockno b ih hg1
    rcases hs with rfl | rfl
    · exact h1
    · exact inv_fill NBUF s1 _ b h1
  | wake pid b s' _ _ hw ih =>
    exact inv_lockOnly NBUF _ s' _ b ih (acquiresleep_ret_lockOnly pid b _ s' hw)
  | resume_read pid b s' _ _ hw ih =>
    exact inv_fill NBUF s' _ b
      (inv_lockOnly NBUF _ s' _ b ih (acquiresleep_ret_lockOnly pid b _ s' hw))
  | @release s H ticks pid b s' _ hb hr ih =>
    rcases Bool.eq_false_or_eq_true (holdingsleep (s.buf b).lock pid) with hh | hh
    · obtain ⟨t, ht, _, _, _, hdev, hblk, _, hmap, _, hoth⟩ :=
        (brelse_spec ticks pid b s).1 hh
      rw [ht] at hr
      cases hr
      refine inv_quiet NBUF s _ H ih hmap ?_ ?_
      · intro x
        by_cases hx : x = b
        · subst hx; exact ⟨hdev, hblk⟩
        · rw [hoth x hx]; exact ⟨rfl, rfl⟩
      · intro x hx
        have : x ≠ b := fun e => hx (e ▸ hb)
        rw [hoth x this]
    · rw [(brelse_spec ticks pid b s).2 hh] at hr; cases hr
  | @pin s H b _ hb ih =>
    refine inv_quiet NBUF s _ H ih rfl ?_ ?_
    · intro x
      by_cases hx : x = b
      · subst hx; simp [bpin, incref]
      · simp [bpin, incref, hx]
    · intro x hx
      have : x ≠ b := fun e => hx (e ▸ hb)
      simp [bpin, incref, this]
  | @unpin s H b _ hb ih =>
    refine inv_quiet NBUF s _ H ih rfl ?_ ?_
    · intro x
      by_cases hx : x = b
      · subst hx; simp [bunpin, decref]
      · simp [bunpin, decref, hx]
    · intro x hx
      have : x ≠ b := fun e => hx (e ▸ hb)
      simp [bunpin, decref, this]

/-! ## Claims about the reachable states -/

theorem demo_reachable : Reachable 2 demo [1] :=
  Reachable.get 1 0 1 demo 1 Reachable.init rfl

/-- C2: in every reachable state, two buffers with a reference count greater than 0 never
carry the same `(dev, blockno)`. -/
theorem live_identity_unique (NBUF : Nat) (s : Bcache) (H : List Nat)
    (h : Reachable NBUF s H) (dev blockno x y : Nat)
    (hx : 0 < (s.buf x).refcnt) (hy : 0 < (s.buf y).refcnt)
    (hix : HasId s dev blockno x) (hiy : HasId s dev blockno y) : x = y := by
  have hinv := reachable_inv NBUF s H h
  have h1 := hinv.first x (hinv.live x (ne_of_gt hx))
  have h2 := hinv.first y (hinv.live y (ne_of_gt hy))
  rw [hix.1, hix.2] at h1
  rw [hiy.1, hiy.2, h1] at h2
  exact Option.some.inj h2

theorem live_identity_unique_witness :
    0 < (demo.buf 1).refcnt ∧ HasId demo 0 1 1 ∧ (1 : Nat) = 1 :=
  ⟨by decide, by decide,
    live_identity_unique 2 demo [1] demo_reachable 0 1 1 1 (by decide) (by decide)
      (by decide) (by decide)⟩

/-- C3 as stated fails: right after `binit` with two buffers, both carry `(0, 0)`. -/
theorem identity_unique_fails :
    ¬ (∀ (NBUF : Nat) (s : Bcache) (H : List Nat), Reachable NBUF s H →
        ∀ dev blockno x y, x < NBUF → y < NBUF →
          HasId s dev blockno x → HasId s dev blockno y → x = y) := by
  intro h
  have := h 2 (binit 2) [] Reachable.init 0 0 0 1 (by decide) (by decide) (by decide)
    (by decide)
  exact absurd this (by decide)

/-- C3, amended: in every reachable state, for every `(dev, blockno)` other than `(0, 0)`, at
most one buffer of the pool, referenced or not, has that `dev` and `blockno`. -/
theorem identity_unique_nonzero (NBUF : Nat) (s : Bcache) (H : List Nat)
    (h : Reachable NBUF s H) (dev blockno x y : Nat) (hx : x < NBUF) (hy : y < NBUF)
    (hne : ¬ (dev = 0 ∧ blockno = 0))
    (hix : HasId s dev blockno x) (hiy : HasId s dev blockno y) : x = y := by
  have hinv := reachable_inv NBUF s H h
  obtain ⟨k, hk, hkx⟩ := hinv.member x hx
  obtain ⟨k', hk', hky⟩ := hinv.member y hy
  by_contra hxy
  have := hinv.zero k hk k' hk' x hkx y hky hxy (hix.1.trans hiy.1.symm)
    (hix.2.trans hiy.2.symm)
  exact hne ⟨hix.1.symm.trans this.1, hix.2.symm.trans this.2⟩

theorem identity_unique_nonzero_witness :
    HasId demo 0 1 1 ∧ (1 : Nat) = 1 :=
  ⟨by decide,
    identity_unique_nonzero 2 demo [1] demo_reachable 0 1 1 1 (by decide) (by decide)
      (by decide) (by decide) (by decide)⟩

/-- C10: under the discipline of `Tracked`, the reference count of every buffer equals its
outstanding gets plus its outstanding pins, and so is never below 0. -/
theorem refcnt_counts_holders (NBUF : Nat) (s : Bcache) (gets pins : Nat → Nat)
    (h : Tracked NBUF s gets pins) (b : Nat) :
    (s.buf b).refcnt = (gets b : Int) + (pins b : Int) ∧ 0 ≤ (s.buf b).refcnt := by
  have key : ∀ b, (s.buf b).refcnt = (gets b : Int) + (pins b : Int) := by
    induction h with
    | init =>
      intro b
      rw [(binit_spec NBUF).1 b]; rfl
    | @get s gets pins pid dev blockno s' c _ hg ih =>
      intro b
      obtain ⟨_, _, hoth, href, _⟩ := bget_granted pid dev blockno s s' c hg
      by_cases hb : b = c
      · subst hb
        rw [href, ih b, upd_same]; push_cast; ring
      · rw [hoth b hb, ih b, upd_ne _ _ _ _ hb]
    | @wake s gets pins pid c s' _ hw ih =>
      intro b
      obtain ⟨_, _, hoth, _, _, _, href, _⟩ := acquiresleep_ret_lockOnly pid c s s' hw
      by_cases hb : b = c
      · subst hb; rw [href, ih b]
      · rw [hoth b hb, ih b]
    | @release s gets pins ticks pid c s' _ hpos hr ih =>
      intro b
      rcases Bool.eq_false_or_eq_true (holdingsleep (s.buf c).lock pid) with hh | hh
      · obtain ⟨t, ht, _, href, _, _, _, _, _, _, hoth⟩ := (brelse_spec ticks pid c s).1 hh
        rw [ht] at hr
        cases hr
        by_cases hb : b = c
        · subst hb
          rw [href, ih b, upd_same]
          have : ((gets b - 1 : Nat) : Int) = (gets b : Int) - 1 := by omega
          rw [this]; ring
        · rw [hoth b hb, ih b, upd_ne _ _ _ _ hb]
      · rw [(brelse_spec ticks pid c s).2 hh] at hr; cases hr
    | @pin s gets pins c _ ih =>
      intro b
      by_cases hb : b = c
      · subst hb
        simp only [bpin, incref, upd_same, ih b]; push_cast; ring
      · simp only [bpin, incref, upd_ne _ _ _ _ hb, ih b]
    | @unpin s gets pins c _ hpos ih =>
      intro b
      by_cases hb : b = c
      · subst hb
        simp only [bunpin, decref, upd_same, ih b]
        have : ((pins b - 1 : Nat) : Int) = (pins b : Int) - 1 := by omega
        rw [this]; ring
      · simp only [bunpin, decref, upd_ne _ _ _ _ hb, ih b]
  refine ⟨key b, ?_⟩
  rw [key b]
  exact Int.add_nonneg (Int.ofNat_nonneg _) (Int.ofNat_nonneg _)

theorem refcnt_counts_holders_witness :
    ((bpin 0 (binit 2)).buf 0).refcnt =
        ((0 : Nat) : Int) + ((upd (fun _ => 0) 0 (0 + 1) 0 : Nat) : Int) ∧
      0 ≤ ((bpin 0 (binit 2)).buf 0).refcnt :=
  refcnt_counts_holders 2 (bpin 0 (binit 2)) (fun _ => 0) (upd (fun _ => 0) 0 (0 + 1))
    (Tracked.pin 0 Tracked.init) 0

theorem bget_recycles_first_least_witness :
    ∃ i j s', i < BUCKETSIZE ∧ j < ((binit 3).bufmap i).length ∧
      granted (bget 1 0 1 (binit 3)) = some (s', nextOf (binit 3) (i, j)) ∧
      HasId s' 0 1 (nextOf (binit 3) (i, j)) ∧
      (∀ y, y ≠ nextOf (binit 3) (i, j) → s'.buf y = (binit 3).buf y) ∧
      ((binit 3).buf (nextOf (binit 3) (i, j))).refcnt = 0 ∧
      ∀ i' < BUCKETSIZE, ∀ j' < ((binit 3).bufmap i').length,
        ((binit 3).buf (nextOf (binit 3) (i', j'))).refcnt = 0 →
        ((binit 3).buf (nextOf (binit 3) (i, j))).lastuse ≤
            ((binit 3).buf (nextOf (binit 3) (i', j'))).lastuse ∧
        (Before i' j' i j →
          ((binit 3).buf (nextOf (binit 3) (i, j))).lastuse <
            ((binit 3).buf (nextOf (binit 3) (i', j'))).lastuse) :=
  bget_recycles_first_least 1 0 1 (binit 3) (by decide) (by decide)

theorem bget_panics_iff_exhausted_witness :
    (panicked (bget 1 0 26 full) = true ↔
      ((∀ x ∈ full.bufmap (BUFMAP_HASH 0 26), ¬ HasId full 0 26 x) ∧
        ∀ k < BUCKETSIZE, ∀ x ∈ full.bufmap k, 0 < (full.buf x).refcnt)) ∧
    (panicked (bget 1 0 26 full) = true →
      bget 1 0 26 full = .panic full "bget: no buffers") :=
  bget_panics_iff_exhausted 1 0 26 full (by decide)

theorem bget_miss_installs_witness :
    ∃ i j s', i < BUCKETSIZE ∧ j < ((binit 3).bufmap i).length ∧
      granted (bget 1 0 1 (binit 3)) = some (s', nextOf (binit 3) (i, j)) ∧
      (((binit 3).buf (nextOf (binit 3) (i, j))).lock = none →
        bget 1 0 1 (binit 3) = .ret s' (nextOf (binit 3) (i, j))) ∧
      (s'.buf (nextOf (binit 3) (i, j))).dev = 0 ∧
      (s'.buf (nextOf (binit 3) (i, j))).blockno = 1 ∧
      (s'.buf (nextOf (binit 3) (i, j))).valid = false ∧
      (s'.buf (nextOf (binit 3) (i, j))).refcnt = 1 ∧
      (∀ k < BUCKETSIZE, nextOf (binit 3) (i, j) ∈ s'.bufmap k ↔ k = BUFMAP_HASH 0 1) ∧
      (i ≠ BUFMAP_HASH 0 1 →
        s'.bufmap (BUFMAP_HASH 0 1) =
          nextOf (binit 3) (i, j) :: (binit 3).bufmap (BUFMAP_HASH 0 1) ∧
        s'.bufmap i = ((binit 3).bufmap i).eraseIdx j ∧
        ∀ k, k ≠ BUFMAP_HASH 0 1 → k ≠ i → s'.bufmap k = (binit 3).bufmap k) ∧
      (i = BUFMAP_HASH 0 1 → s'.bufmap = (binit 3).bufmap) :=
  bget_miss_installs 1 0 1 (binit 3) (by decide) (by decide) (by decide)

theorem bget_hit_first_match_witness :
    ∃ l1 b l2 s', (binit 3).bufmap (BUFMAP_HASH 0 0) = l1 ++ b :: l2 ∧
      HasId (binit 3) 0 0 b ∧ (∀ a ∈ l1, ¬ HasId (binit 3) 0 0 a) ∧
      granted (bget 1 0 0 (binit 3)) = some (s', b) ∧
      (((binit 3).buf b).lock = none → bget 1 0 0 (binit 3) = .ret s' b) ∧
      (s'.buf b).refcnt = ((binit 3).buf b).refcnt + 1 ∧
      (s'.buf b).dev = ((binit 3).buf b).dev ∧
      (s'.buf b).blockno = ((binit 3).buf b).blockno ∧
      (s'.buf b).valid = ((binit 3).buf b).valid ∧
      (s'.buf b).lastuse = ((binit 3).buf b).lastuse ∧
      (∀ y, y ≠ b → s'.buf y = (binit 3).buf y) ∧ s'.bufmap = (binit 3).bufmap :=
  bget_hit_first_match 1 0 0 (binit 3) (by decide)

theorem bget_keeps_referenced_witness :
    0 < (demo.buf 1).refcnt ∧
      ((after (bget 2 0 2 demo)).buf 1).dev = (demo.buf 1).dev ∧
      ((after (bget 2 0 2 demo)).buf 1).blockno = (demo.buf 1).blockno ∧
      ((after (bget 2 0 2 demo)).buf 1).valid = (demo.buf 1).valid ∧
      (∀ k, 1 ∈ (after (bget 2 0 2 demo)).bufmap k ↔ 1 ∈ demo.bufmap k) ∧
      (((after (bget 2 0 2 demo)).buf 1).refcnt = (demo.buf 1).refcnt ∨
        ((after (bget 2 0 2 demo)).buf 1).refcnt = (demo.buf 1).refcnt + 1) :=
  ⟨by decide, (bget_keeps_referenced 2 0 2 demo).1 1 (by decide)⟩

theorem bread_reads_once_witness :
    ∃ s2 s3 s4, brelse 5 1 1 (after (bread 1 0 1 (binit 2))) = .ret s2 () ∧
      bread 2 0 1 s2 = .ret s3 1 ∧ brelse 9 2 1 s3 = .ret s4 () ∧
      s4.disklog = (1, 0) :: (binit 2).disklog ∧ (s4.buf 1).refcnt = 0 :=
  (bread_reads_once 1 2 0 1 5 9 (binit 2)).2.1 (by decide)
    (after (bread 1 0 1 (binit 2))) 1 rfl

theorem brelse_releases_witness :
    ∃ s', brelse 7 1 1 demo = .ret s' () ∧ (s'.buf 1).lock = none ∧
      (s'.buf 1).refcnt = (demo.buf 1).refcnt - 1 ∧
      (s'.buf 1).lastuse = (if (demo.buf 1).refcnt - 1 = 0 then 7 else (demo.buf 1).lastuse) ∧
      (s'.buf 1).dev = (demo.buf 1).dev ∧ (s'.buf 1).blockno = (demo.buf 1).blockno ∧
      (s'.buf 1).valid = (demo.buf 1).valid ∧ s'.bufmap = demo.bufmap ∧
      s'.disklog = demo.disklog ∧ ∀ y, y ≠ 1 → s'.buf y = demo.buf y :=
  (brelse_releases 7 1 1 demo).1 (by decide)

end Bio

namespace Kalloc

open Bio (upd upd_same upd_ne Apart)

/-! ## `kalloc` and `kfree` -/

theorem steal_some (id : Nat) (s : Kmem) (i r : Nat) (t : List Nat) :
    ∀ (n a : Nat), a ≤ i → i < a + n → i ≠ id → s.freelist i = r :: t →
      (∀ j, a ≤ j → j < i → j ≠ id → s.freelist j = []) →
      steal id s (List.range' a n) = (some r, { s with freelist := upd s.freelist i t }) := by
  intro n
  induction n with
  | zero => intro a h1 h2; omega
  | succ n ih =>
    intro a h1 h2 hne hl hpre
    rw [List.range'_succ]
    unfold steal
    by_cases hai : a = i
    · subst hai
      rw [if_neg hne, hl]
    · have hlt : a < i := by omega
      by_cases haid : a = id
      · rw [if_pos haid]
        exact ih (a + 1) (by omega) (by omega) hne hl
          (fun j hj1 hj2 hj3 => hpre j (by omega) hj2 hj3)
      · rw [if_neg haid, hpre a (le_refl _) hlt haid]
        exact ih (a + 1) (by omega) (by omega) hne hl
          (fun j hj1 hj2 hj3 => hpre j (by omega) hj2 hj3)

theorem steal_none (id : Nat) (s : Kmem) :
    ∀ (n a : Nat), (steal id s (List.range' a n)).1 = none →
      steal id s (List.range' a n) = (none, s) ∧
      ∀ j, a ≤ j → j < a + n → j ≠ id → s.freelist j = [] := by
  intro n
  induction n with
  | zero =>
    intro a _
    exact ⟨rfl, fun j h1 h2 => by omega⟩
  | succ n ih =>
    intro a h
    rw [List.range'_succ] at h ⊢
    unfold steal at h ⊢
    by_cases haid : a = id
    · rw [if_pos haid] at h ⊢
      obtain ⟨h1, h2⟩ := ih (a + 1) h
      refine ⟨h1, fun j hj1 hj2 hj3 => ?_⟩
      have : j ≠ a := fun e => hj3 (e.trans haid)
      exact h2 j (by omega) (by omega) hj3
    · rw [if_neg haid] at h ⊢
      cases hl : s.freelist a with
      | nil =>
        rw [hl] at h
        obtain ⟨h1, h2⟩ := ih (a + 1) h
        refine ⟨h1, fun j hj1 hj2 hj3 => ?_⟩
        by_cases hja : j = a
        · rw [hja]; exact hl
        · exact h2 j (by omega) (by omega) hj3
      | cons r t => rw [hl] at h; cases h

theorem steal_all_empty (id : Nat) (s : Kmem) :
    ∀ (n a : Nat), (∀ j, a ≤ j → j < a + n → j ≠ id → s.freelist j = []) →
      steal id s (List.range' a n) = (none, s) := by
  intro n
  induction n with
  | zero => intro a _; rfl
  | succ n ih =>
    intro a h
    rw [List.range'_succ]
    unfold steal
    by_cases haid : a = id
    · rw [if_pos haid]
      exact ih (a + 1) (fun j h1 h2 h3 => h j (by omega) (by omega) h3)
    · rw [if_neg haid, h a (le_refl _) (by omega) haid]
      exact ih (a + 1) (fun j h1 h2 h3 => h j (by omega) (by omega) h3)

/-- The least core other than `id` whose free list is not empty, if there is one. -/
theorem exists_first_donor (id : Nat) (s : Kmem) (n i : Nat) (hi : i < n) (hne : i ≠ id)
    (hl : s.freelist i ≠ []) :
    ∃ d, d < n ∧ d ≠ id ∧ s.freelist d ≠ [] ∧
      ∀ j, j < d → j ≠ id → s.freelist j = [] := by
  induction i using Nat.strong_induction_on with
  | h i ih =>
    by_cases hex : ∃ j, j < i ∧ j ≠ id ∧ s.freelist j ≠ []
    · obtain ⟨j, hj, hjid, hjl⟩ := hex
      exact ih j hj (by omega) hjid hjl
    · refine ⟨i, hi, hne, hl, fun j hj hjid => ?_⟩
      by_contra hjl
      exact hex ⟨j, hj, hjid, hjl⟩

theorem kalloc_own (L : Layout) (id : Nat) (s : Kmem) (r : Nat) (t : List Nat)
    (h : s.freelist id = r :: t) :
    kalloc L id s =
      (some r, { freelist := upd s.freelist id t, mem := memset s.mem r 5 }) := by
  unfold kalloc
  simp only [h]

theorem kalloc_steal (L : Layout) (id : Nat) (s : Kmem) (i r : Nat) (t : List Nat)
    (h : s.freelist id = []) (hi : i < L.NCPU) (hne : i ≠ id) (hl : s.freelist i = r :: t)
    (hpre : ∀ j, j < i → j ≠ id → s.freelist j = []) :
    kalloc L id s =
      (some r, { freelist := upd s.freelist i t, mem := memset s.mem r 5 }) := by
  unfold kalloc
  simp only [h]
  rw [List.range_eq_range',
    steal_some id s i r t L.NCPU 0 (Nat.zero_le _) (by omega) hne hl
      (fun j _ hj hjid => hpre j hj hjid)]

theorem kalloc_none (L : Layout) (id : Nat) (s : Kmem)
    (h : ∀ i, i < L.NCPU → s.freelist i = []) (hid : id < L.NCPU) :
    kalloc L id s = (none, s) := by
  unfold kalloc
  simp only [h id hid]
  rw [List.range_eq_range',
    steal_all_empty id s L.NCPU 0 (fun j _ hj _ => h j (by omega))]

/-- The three ways `kalloc` ends. -/
theorem kalloc_cases (L : Layout) (id : Nat) (s : Kmem) (hid : id < L.NCPU) :
    (kalloc L id s = (none, s) ∧ ∀ i, i < L.NCPU → s.freelist i = []) ∨
    ∃ i r t, i < L.NCPU ∧ s.freelist i = r :: t ∧
      (i = id ∨ (s.freelist id = [] ∧ ∀ j, j < i → j ≠ id → s.freelist j = [])) ∧
      kalloc L id s =
        (some r, { freelist := upd s.freelist i t, mem := memset s.mem r 5 }) := by
  have hsplit : ∀ l : List Nat, l = [] ∨ ∃ r t, l = r :: t := by
    intro l; cases l with
    | nil => exact Or.inl rfl
    | cons r t => exact Or.inr ⟨r, t, rfl⟩
  rcases hsplit (s.freelist id) with hown | ⟨r, t, hown⟩
  · by_cases hex : ∃ i, i < L.NCPU ∧ i ≠ id ∧ s.freelist i ≠ []
    · obtain ⟨i, hi, hne, hl⟩ := hex
      obtain ⟨d, hd, hdne, hdl, hpre⟩ := exists_first_donor id s L.NCPU i hi hne hl
      right
      rcases hsplit (s.freelist d) with hdl' | ⟨r, t, hdl'⟩
      · exact absurd hdl' hdl
      · exact ⟨d, r, t, hd, hdl', Or.inr ⟨hown, hpre⟩,
          kalloc_steal L id s d r t hown hd hdne hdl' hpre⟩
    · left
      have hall : ∀ i, i < L.NCPU → s.freelist i = [] := by
        intro i hi
        by_cases hie : i = id
        · rw [hie]; exact hown
        · by_contra hl
          exact hex ⟨i, hi, hie, hl⟩
      exact ⟨kalloc_none L id s hall hid, hall⟩
  · right
    exact ⟨id, r, t, hid, hown, Or.inl rfl, kalloc_own L id s r t hown⟩

end Kalloc

namespace Kalloc

open Bio (upd upd_same upd_ne Apart)

theorem kfree_valid (L : Layout) (id pa : Nat) (s : Kmem) (h : Valid L pa) :
    kfree L id pa s =
      .done { freelist := upd s.freelist id (pa :: s.freelist id), mem := memset s.mem pa 1 } := by
  obtain ⟨h1, h2, h3⟩ := h
  unfold kfree
  rw [if_neg]
  simp only [PGSIZE]
  omega

theorem kfree_invalid (L : Layout) (id pa : Nat) (s : Kmem) (h : ¬ Valid L pa) :
    kfree L id pa s = .panic s "kfree" := by
  unfold kfree
  rw [if_pos]
  unfold Valid at h
  simp only [PGSIZE]
  omega

/-- C12: `kfree(pa)` panics exactly when `pa` is not a multiple of 4096, or lies below the
kernel end address, or is at least `PHYSTOP`; the panic is "kfree" and leaves the free lists
and the memory content as they were. -/
theorem kfree_panics_iff_invalid (L : Layout) (id pa : Nat) (s : Kmem) :
    (isPanic (kfree L id pa s) = true ↔
      (pa % 4096 ≠ 0 ∨ pa < L.kend ∨ pa ≥ L.PHYSTOP)) ∧
    (isPanic (kfree L id pa s) = true → kfree L id pa s = .panic s "kfree") := by
  by_cases h : Valid L pa
  · rw [kfree_valid L id pa s h]
    obtain ⟨h1, h2, h3⟩ := h
    refine ⟨⟨fun hp => (by cases hp), fun hc => ?_⟩, fun hp => (by cases hp)⟩
    omega
  · rw [kfree_invalid L id pa s h]
    refine ⟨⟨fun _ => ?_, fun _ => rfl⟩, fun _ => rfl⟩
    unfold Valid at h
    omega

end Kalloc

namespace Kalloc

open Bio (upd upd_same upd_ne Apart)

/-! ## Conservation of pages -/

theorem total_upd_ge (s s' : Kmem) (c : Nat) (l : List Nat)
    (h : s'.freelist = upd s.freelist c l) :
    ∀ n, n ≤ c → total s' n = total s n := by
  intro n
  induction n with
  | zero => intro _; rfl
  | succ n ih =>
    intro hn
    have hne : n ≠ c := by omega
    simp only [total, ih (by omega), h, upd_ne _ _ _ _ hne]

theorem total_upd (s s' : Kmem) (c : Nat) (l : List Nat)
    (h : s'.freelist = upd s.freelist c l) :
    ∀ n, c < n → total s' n + (s.freelist c).length = total s n + l.length := by
  intro n
  induction n with
  | zero => intro hc; omega
  | succ n ih =>
    intro hc
    by_cases hnc : n = c
    · subst hnc
      simp only [total, total_upd_ge s s' n l h n (le_refl _), h, upd_same]
      omega
    · have := ih (by omega)
      simp only [total, h, upd_ne _ _ _ _ hnc]
      omega

theorem freeloop_spec (L : Layout) (id pa_end : Nat) (hend : pa_end ≤ L.PHYSTOP) :
    ∀ (fuel p : Nat) (s : Kmem), (pa_end - p) / 4096 < fuel → p % 4096 = 0 → L.kend ≤ p →
      ∃ s', freeloop L id pa_end fuel p s = .done s' ∧
        s'.freelist id = (List.range' p ((pa_end - p) / 4096) 4096).reverse ++ s.freelist id ∧
        ∀ j, j ≠ id → s'.freelist j = s.freelist j := by
  intro fuel
  induction fuel with
  | zero => intro p s h; omega
  | succ fuel ih =>
    intro p s hf hp hk
    unfold freeloop
    by_cases hc : p + PGSIZE ≤ pa_end
    · rw [if_pos hc]
      simp only [PGSIZE] at hc
      have hv : Valid L p := ⟨hp, hk, by omega⟩
      rw [kfree_valid L id p s hv]
      have hq : (pa_end - p) / 4096 = (pa_end - (p + 4096)) / 4096 + 1 := by omega
      obtain ⟨s', h1, h2, h3⟩ := ih (p + PGSIZE) _ (by simp only [PGSIZE]; omega)
        (by simp only [PGSIZE]; omega) (by simp only [PGSIZE]; omega)
      refine ⟨s', h1, ?_, ?_⟩
      · rw [h2, hq, List.range'_succ]
        simp [PGSIZE]
      · intro j hj
        rw [h3 j hj]; simp [hj]
    · rw [if_neg hc]
      simp only [PGSIZE] at hc
      have hq : (pa_end - p) / 4096 = 0 := by omega
      exact ⟨s, rfl, by rw [hq]; rfl, fun _ _ => rfl⟩

/-- What `kinit` leaves: it returns, every carved page is in the free list of the core that
ran it, lowest address last, and the other lists are empty. -/
theorem kinit_spec (L : Layout) (id : Nat) (mem : Nat → Nat) :
    ∃ s0, kinit L id mem = .done s0 ∧
      s0.freelist id =
        (List.range' (PGROUNDUP L.kend) ((L.PHYSTOP - PGROUNDUP L.kend) / 4096) 4096).reverse ∧
      ∀ j, j ≠ id → s0.freelist j = [] := by
  have hr1 : PGROUNDUP L.kend % 4096 = 0 := by simp only [PGROUNDUP, PGSIZE]; omega
  have hr2 : L.kend ≤ PGROUNDUP L.kend := by simp only [PGROUNDUP, PGSIZE]; omega
  obtain ⟨s0, h1, h2, h3⟩ := freeloop_spec L id L.PHYSTOP (le_refl _)
    (L.PHYSTOP / PGSIZE + 1) (PGROUNDUP L.kend) (kboot mem)
    (by simp only [PGSIZE]; omega) hr1 hr2
  refine ⟨s0, h1, ?_, ?_⟩
  · rw [h2]; simp [kboot]
  · intro j hj; rw [h3 j hj]; rfl

theorem total_single (s : Kmem) (id : Nat) (h : ∀ j, j ≠ id → s.freelist j = []) :
    ∀ n, total s n = if id < n then (s.freelist id).length else 0 := by
  intro n
  induction n with
  | zero => rfl
  | succ n ih =>
    simp only [total, ih]
    by_cases hn : n = id
    · subst hn; simp
    · rw [h n hn]
      by_cases hlt : id < n
      · simp [hlt, Nat.lt_succ_of_lt hlt]
      · have : ¬ id < n + 1 := by omega
        simp [hlt, this]

theorem separate_init (L : Layout) (id : Nat) (s0 : Kmem) (k p : Nat)
    (h1 : s0.freelist id = (List.range' p k 4096).reverse)
    (h2 : ∀ j, j ≠ id → s0.freelist j = []) : Separate L s0 [] := by
  refine ⟨?_, ?_, List.nodup_nil, ?_⟩
  · intro i _
    by_cases hi : i = id
    · rw [hi, h1]
      exact List.nodup_reverse.2 (List.nodup_range' p k 4096 (by decide))
    · rw [h2 i hi]; exact List.nodup_nil
  · intro i _ j _ hij x hx hx'
    by_cases hi : i = id
    · have hj : j ≠ id := fun e => hij (hi.trans e.symm)
      rw [h2 j hj] at hx'; cases hx'
    · rw [h2 i hi] at hx; cases hx
  · intro i _ x hx; cases hx

theorem separate_alloc (L : Layout) (s : Kmem) (A : List Nat) (i r : Nat) (t : List Nat)
    (m : Nat → Nat) (h : Separate L s A) (hi : i < L.NCPU) (hl : s.freelist i = r :: t) :
    Separate L { freelist := upd s.freelist i t, mem := m } (r :: A) := by
  have hnd := h.nodup i hi
  rw [hl] at hnd
  have hrt : r ∉ t := (List.nodup_cons.1 hnd).1
  have hsub : ∀ j x, x ∈ upd s.freelist i t j → x ∈ s.freelist j := by
    intro j x hx
    by_cases hj : j = i
    · subst hj; rw [upd_same] at hx; rw [hl]; exact List.mem_cons_of_mem _ hx
    · rw [upd_ne _ _ _ _ hj] at hx; exact hx
  have hri : r ∈ s.freelist i := by rw [hl]; simp
  refine ⟨?_, ?_, ?_, ?_⟩
  · intro j hj
    show (upd s.freelist i t j).Nodup
    by_cases hji : j = i
    · subst hji; rw [upd_same]; exact (List.nodup_cons.1 hnd).2
    · rw [upd_ne _ _ _ _ hji]; exact h.nodup j hj
  · intro j hj k hk hjk x hx hx'
    exact h.apart j hj k hk hjk x (hsub j x hx) (hsub k x hx')
  · exact List.nodup_cons.2 ⟨fun hin => h.afree i hi r hin hri, h.anodup⟩
  · intro j hj x hx hx'
    rcases List.mem_cons.1 hx with rfl | hxA
    · by_cases hji : j = i
      · subst hji
        have : x ∈ t := by simpa using hx'
        exact hrt this
      · have hx'' : x ∈ s.freelist j := by
          have := hx'
          simp only [upd_ne _ _ _ _ hji] at this
          exact this
        exact h.apart i hi j hj (Ne.symm hji) x hri hx''
    · exact h.afree j hj x hxA (hsub j x hx')

theorem separate_free (L : Layout) (s : Kmem) (A : List Nat) (id pa : Nat)
    (m : Nat → Nat) (h : Separate L s A) (hid : id < L.NCPU) (hpa : pa ∈ A) :
    Separate L { freelist := upd s.freelist id (pa :: s.freelist id), mem := m }
      (A.erase pa) := by
  have hfree : ∀ j, j < L.NCPU → pa ∉ s.freelist j := fun j hj => h.afree j hj pa hpa
  have hmem : ∀ j x, x ∈ upd s.freelist id (pa :: s.freelist id) j →
      x ∈ s.freelist j ∨ (j = id ∧ x = pa) := by
    intro j x hx
    by_cases hj : j = id
    · subst hj
      rw [upd_same] at hx
      rcases List.mem_cons.1 hx with e | e
      · exact Or.inr ⟨rfl, e⟩
      · exact Or.inl e
    · rw [upd_ne _ _ _ _ hj] at hx; exact Or.inl hx
  refine ⟨?_, ?_, h.anodup.sublist (List.erase_sublist _ _), ?_⟩
  · intro j hj
    show (upd s.freelist id (pa :: s.freelist id) j).Nodup
    by_cases hji : j = id
    · subst hji; rw [upd_same]
      exact List.nodup_cons.2 ⟨hfree j hj, h.nodup j hj⟩
    · rw [upd_ne _ _ _ _ hji]; exact h.nodup j hj
  · intro j hj k hk hjk x hx hx'
    rcases hmem j x hx with h1 | ⟨h1, h1'⟩
    · rcases hmem k x hx' with h2 | ⟨_, h2'⟩
      · exact h.apart j hj k hk hjk x h1 h2
      · rw [h2'] at h1; exact hfree j hj h1
    · rcases hmem k x hx' with h2 | ⟨h2, _⟩
      · rw [h1'] at h2; exact hfree k hk h2
      · exact hjk (h1.trans h2.symm)
  · intro j hj x hx hx'
    have hxA : x ∈ A := List.mem_of_mem_erase hx
    have hxne : x ≠ pa := fun e => by
      rw [e] at hx
      exact (h.anodup.not_mem_erase) hx
    rcases hmem j x hx' with h1 | ⟨_, h1⟩
    · exact h.afree j hj x hxA h1
    · exact hxne h1

theorem kreach_inv (L : Layout) (s0 s : Kmem) (A : List Nat) (h0 : Separate L s0 [])
    (h : KReach L s0 s A) :
    Separate L s A ∧ total s L.NCPU + A.length = total s0 L.NCPU := by
  induction h with
  | init => exact ⟨h0, rfl⟩
  | @alloc s A id pa s' _ hid hk ih =>
    rcases kalloc_cases L id s hid with ⟨hn, _⟩ | ⟨i, r, t, hi, hl, _, hk'⟩
    · rw [hn] at hk; cases hk
    · rw [hk'] at hk
      simp only [Prod.mk.injEq, Option.some.injEq] at hk
      obtain ⟨hr, hs'⟩ := hk
      subst hr
      subst hs'
      refine ⟨separate_alloc L s A i r t _ ih.1 hi hl, ?_⟩
      have := total_upd s { freelist := upd s.freelist i t, mem := memset s.mem r 5 } i t rfl
        L.NCPU hi
      rw [hl] at this
      simp only [List.length_cons] at this ⊢
      omega
  | @alloc_none s A id s' _ hid hk ih =>
    rcases kalloc_cases L id s hid with ⟨hn, _⟩ | ⟨i, r, t, _, _, _, hk'⟩
    · rw [hn] at hk
      simp only [Prod.mk.injEq, true_and] at hk
      rw [← hk]; exact ih
    · rw [hk'] at hk; cases hk
  | @free s A id pa s' _ hid hpa hk ih =>
    by_cases hv : Valid L pa
    · rw [kfree_valid L id pa s hv] at hk
      cases hk
      refine ⟨separate_free L s A id pa _ ih.1 hid hpa, ?_⟩
      have := total_upd s
        { freelist := upd s.freelist id (pa :: s.freelist id), mem := memset s.mem pa 1 }
        id (pa :: s.freelist id) rfl L.NCPU hid
      have hlen := List.length_erase_of_mem hpa
      have hpos : 0 < A.length := List.length_pos_of_mem hpa
      simp only [List.length_cons] at this
      omega
    · rw [kfree_invalid L id pa s hv] at hk; cases hk

/-- C14: `kinit` returns, and in every state reachable from the state it leaves by `kalloc`
calls and by `kfree` calls on currently allocated pages, no page occurs twice in a free list
or in two free lists, no page is allocated twice, no allocated page is in a free list, and
the pages in the free lists plus the allocated pages number as many as `kinit` carved out,
that is
`(PHYSTOP - PGROUNDUP(end)) / 4096`. -/
theorem pages_conserved (L : Layout) (id : Nat) (mem : Nat → Nat) (hid : id < L.NCPU) :
    ∃ s0, kinit L id mem = .done s0 ∧
      total s0 L.NCPU = (L.PHYSTOP - PGROUNDUP L.kend) / 4096 ∧
      ∀ s A, KReach L s0 s A →
        (∀ i < L.NCPU, (s.freelist i).Nodup) ∧
        (∀ i < L.NCPU, ∀ j < L.NCPU, i ≠ j → ∀ x ∈ s.freelist i, x ∉ s.freelist j) ∧
        A.Nodup ∧ (∀ pa ∈ A, ∀ i < L.NCPU, pa ∉ s.freelist i) ∧
        total s L.NCPU + A.length = total s0 L.NCPU := by
  obtain ⟨s0, h1, h2, h3⟩ := kinit_spec L id mem
  refine ⟨s0, h1, ?_, ?_⟩
  · rw [total_single s0 id h3, if_pos hid, h2]; simp
  · intro s A hr
    obtain ⟨hsep, htot⟩ := kreach_inv L s0 s A (separate_init L id s0 _ _ h2 h3) hr
    exact ⟨hsep.nodup, hsep.apart, hsep.anodup, fun pa hpa i hi => hsep.afree i hi pa hpa,
      htot⟩

end Kalloc

namespace E1000

open Bio (upd upd_same upd_ne)

/-! ## `e1000_transmit` -/

theorem transmit_full (k : Consts) (m : Nat) (s : Dev)
    (h : (s.tx_ring s.tdt).status &&& k.TXD_STAT_DD = 0) :
    e1000_transmit k m s = (-1, s) := by
  unfold e1000_transmit
  simp only [h, if_true]

/-- What a transmit does when the done bit of the tail descriptor is set. -/
theorem transmit_programs (k : Consts) (m : Nat) (s : Dev)
    (h : (s.tx_ring s.tdt).status &&& k.TXD_STAT_DD ≠ 0) :
    ∃ s', e1000_transmit k m s = (if m = 0 then -1 else 0, s') ∧
      s'.tx_ring s.tdt =
        { s.tx_ring s.tdt with
          length := s.mlen m, addr := s.mhead m, cmd := k.TXD_CMD_EOP ||| k.TXD_CMD_RS } ∧
      (∀ j, j ≠ s.tdt → s'.tx_ring j = s.tx_ring j) ∧
      s'.tx_mbufs s.tdt = m ∧ (∀ j, j ≠ s.tdt → s'.tx_mbufs j = s.tx_mbufs j) ∧
      s'.tdt = ((s.tdt + 1) % 4294967296) % 16 ∧
      s'.freed = (if s.tx_mbufs s.tdt ≠ 0 then s.tx_mbufs s.tdt :: s.freed else s.freed) ∧
      s'.rx_ring = s.rx_ring ∧ s'.rx_mbufs = s.rx_mbufs ∧ s'.rdt = s.rdt ∧
      s'.delivered = s.delivered ∧ s'.pool = s.pool := by
  unfold e1000_transmit
  simp only [h, if_false, upd_same, TX_RING_SIZE]
  by_cases hm : m = 0
  · simp only [hm, if_true]
    refine ⟨_, rfl, ?_⟩
    by_cases hst : s.tx_mbufs s.tdt = 0
    · simp [hst]
      refine ⟨fun j hj => ?_, fun j hj => ?_⟩ <;> simp [hj]
    · simp [hst]
      refine ⟨fun j hj => ?_, fun j hj => ?_⟩ <;> simp [hj]
  · simp only [hm, if_false]
    refine ⟨_, rfl, ?_⟩
    by_cases hst : s.tx_mbufs s.tdt = 0
    · simp [hst]
      refine ⟨fun j hj => ?_, fun j hj => ?_⟩ <;> simp [hj]
    · simp [hst]
      refine ⟨fun j hj => ?_, fun j hj => ?_⟩ <;> simp [hj]

/-- C15: for a non-null packet `m` and any tail index, `e1000_transmit(m)` returns -1
exactly when the done bit of the tail descriptor is clear, and then the whole state is as
before: no descriptor, no stash slot, not the tail register and not the trace of `mbuffree`
has changed. -/
theorem transmit_fails_iff_ring_full (k : Consts) (m : Nat) (s : Dev) (hm : m ≠ 0) :
    ((e1000_transmit k m s).1 = -1 ↔ (s.tx_ring s.tdt).status &&& k.TXD_STAT_DD = 0) ∧
    ((e1000_transmit k m s).1 = -1 → (e1000_transmit k m s).2 = s) := by
  by_cases h : (s.tx_ring s.tdt).status &&& k.TXD_STAT_DD = 0
  · rw [transmit_full k m s h]
    exact ⟨⟨fun _ => h, fun _ => rfl⟩, fun _ => rfl⟩
  · obtain ⟨s', hs', _⟩ := transmit_programs k m s h
    rw [hs', if_neg hm]
    refine ⟨⟨fun hc => ?_, fun hc => absurd hc h⟩, fun hc => ?_⟩ <;> simp at hc

/-- C16: when the done bit of the tail descriptor `i = TDT` is set (and `m` is not null),
`e1000_transmit(m)` returns 0; descriptor `i` gets the address `m->head`, the
length `m->len` and the command end-of-packet | report-status, its status stays; stash slot
`i` holds `m`; the tail register is `(i + 1) mod 16`; every other descriptor and stash slot
is unchanged. -/
theorem transmit_programs_slot (k : Consts) (m : Nat) (s : Dev) (hm : m ≠ 0)
    (h : (s.tx_ring s.tdt).status &&& k.TXD_STAT_DD ≠ 0) :
    ∃ s', e1000_transmit k m s = (0, s') ∧
      (s'.tx_ring s.tdt).addr = s.mhead m ∧ (s'.tx_ring s.tdt).length = s.mlen m ∧
      (s'.tx_ring s.tdt).cmd = k.TXD_CMD_EOP ||| k.TXD_CMD_RS ∧
      (s'.tx_ring s.tdt).status = (s.tx_ring s.tdt).status ∧
      s'.tx_mbufs s.tdt = m ∧ s'.tdt = (s.tdt + 1) % 16 ∧
      (∀ j, j ≠ s.tdt → s'.tx_ring j = s.tx_ring j) ∧
      (∀ j, j ≠ s.tdt → s'.tx_mbufs j = s.tx_mbufs j) := by
  obtain ⟨s', hs', hd, hdo, hst, hsto, htl, _⟩ := transmit_programs k m s h
  rw [if_neg hm] at hs'
  refine ⟨s', hs', by rw [hd], by rw [hd], by rw [hd], by rw [hd], hst, ?_, hdo, hsto⟩
  rw [htl]; omega

end E1000

namespace E1000

open Bio (upd upd_same upd_ne)

/-! ## Reuse of the transmit slots -/

theorem init_rx_keeps_tx :
    ∀ (l : List Nat) (s r : Dev), init_rx s l = .ok r →
      r.tx_ring = s.tx_ring ∧ r.tx_mbufs = s.tx_mbufs ∧ r.tdt = s.tdt ∧ r.freed = s.freed := by
  intro l
  induction l with
  | nil =>
    intro s r h
    simp only [init_rx, ERes.ok.injEq] at h
    subst h; exact ⟨rfl, rfl, rfl, rfl⟩
  | cons i rest ih =>
    intro s r h
    unfold init_rx at h
    simp only at h
    split at h
    · cases h
    · obtain ⟨h1, h2, h3, h4⟩ := ih _ r h
      exact ⟨h1, h2, h3, h4⟩

theorem init_tx_fold (k : Consts) (z : Dev) (n : Nat) :
    (∀ i, i < n → ((List.range n).foldl (init_tx k) z).tx_mbufs i = 0) ∧
    ((List.range n).foldl (init_tx k) z).freed = z.freed := by
  induction n with
  | zero => exact ⟨fun i hi => by omega, rfl⟩
  | succ n ih =>
    rw [List.range_succ, List.foldl_append]
    simp only [List.foldl_cons, List.foldl_nil]
    generalize List.foldl (init_tx k) z (List.range n) = t at ih ⊢
    obtain ⟨h1, h2⟩ := ih
    refine ⟨?_, h2⟩
    intro i hi
    by_cases hin : i = n
    · subst hin; simp [init_tx]
    · simp only [init_tx, upd_ne _ _ _ _ hin]
      exact h1 i (by omega)

theorem tx_setup_spec (k : Consts) (s : Dev) :
    (tx_setup k s).tdt = 0 ∧ (∀ i, i < 16 → (tx_setup k s).tx_mbufs i = 0) ∧
    (tx_setup k s).freed = s.freed := by
  have hf := init_tx_fold k
    { s with tx_ring := fun _ => { addr := 0, length := 0, cmd := 0, status := 0 } } 16
  unfold tx_setup TX_RING_SIZE
  generalize List.foldl (init_tx k)
    { s with tx_ring := fun _ => { addr := 0, length := 0, cmd := 0, status := 0 } }
    (List.range 16) = t at hf ⊢
  exact ⟨rfl, hf.1, hf.2⟩

theorem init_spec (k : Consts) (s s0 : Dev) (h : e1000_init k s = .ok s0) :
    s0.tdt = 0 ∧ (∀ i, i < 16 → s0.tx_mbufs i = 0) ∧ s0.freed = s.freed := by
  obtain ⟨t1, t2, t3⟩ := tx_setup_spec k s
  unfold e1000_init at h
  generalize tx_setup k s = u at h t1 t2 t3
  split at h
  · next s4 h4 =>
    obtain ⟨_, h2, h3, h5⟩ := init_rx_keeps_tx _ _ s4 h4
    simp only [ERes.ok.injEq] at h
    subst h
    refine ⟨?_, ?_, ?_⟩
    · show s4.tdt = 0
      rw [h3]; exact t1
    · intro i hi
      show s4.tx_mbufs i = 0
      rw [h2]
      exact t2 i hi
    · show s4.freed = s.freed
      rw [h5]; exact t3
  · next hne =>
    exfalso
    exact hne s0 h

theorem tinv_sent (k : Consts) (m : Nat) (s s' : Dev) (G : List Nat) (h : TInv s G)
    (hm : m ≠ 0) (hG : m ∉ G) (he : e1000_transmit k m s = (0, s')) :
    TInv s' (m :: G) := by
  by_cases hdd : (s.tx_ring s.tdt).status &&& k.TXD_STAT_DD = 0
  · rw [transmit_full k m s hdd] at he
    simp at he
  · obtain ⟨t, ht, _, _, hst, hsto, htl, hfr, _⟩ := transmit_programs k m s hdd
    rw [ht, if_neg hm] at he
    simp only [Prod.mk.injEq, true_and] at he
    subst he
    have hmfree : m ∉ s.freed := fun hin => hG (h.given m hin)
    have hstash : ∀ i, i < 16 → t.tx_mbufs i ≠ 0 →
        t.tx_mbufs i = m ∧ i = s.tdt ∨
          (i ≠ s.tdt ∧ t.tx_mbufs i = s.tx_mbufs i ∧ s.tx_mbufs i ≠ 0) := by
      intro i _ hne
      by_cases hi : i = s.tdt
      · left; rw [hi]; exact ⟨hst, rfl⟩
      · right
        rw [hsto i hi] at hne ⊢
        exact ⟨hi, rfl, hne⟩
    by_cases hold : s.tx_mbufs s.tdt = 0
    · have hfr' : t.freed = s.freed := by rw [hfr]; simp [hold]
      refine ⟨by rw [htl]; omega, by rw [hfr']; exact h.once, ?_, ?_, ?_⟩
      · intro x hx; rw [hfr'] at hx; exact List.mem_cons_of_mem _ (h.given x hx)
      · intro i hi hne
        rw [hfr']
        rcases hstash i hi hne with ⟨e, _⟩ | ⟨_, e, hne'⟩
        · rw [e]; exact ⟨by simp, hmfree⟩
        · rw [e]
          exact ⟨List.mem_cons_of_mem _ (h.stash i hi hne').1, (h.stash i hi hne').2⟩
      · intro i hi j hj hij hne
        rcases hstash i hi hne with ⟨e, ei⟩ | ⟨ni, e, hne'⟩
        · rw [e]
          have hjt : j ≠ s.tdt := fun e' => hij (ei.trans e'.symm)
          rw [hsto j hjt]
          intro hmj
          by_cases hj0 : s.tx_mbufs j = 0
          · exact hm (hmj.trans hj0)
          · exact hG (hmj ▸ (h.stash j hj hj0).1)
        · rw [e]
          by_cases hjt : j = s.tdt
          · rw [hjt, hst]
            intro hmi
            exact hG (hmi ▸ (h.stash i hi hne').1)
          · rw [hsto j hjt]
            exact h.apart i hi j hj hij hne'
    · have hfr' : t.freed = s.tx_mbufs s.tdt :: s.freed := by rw [hfr]; simp [hold]
      have hold' := h.stash s.tdt h.tail hold
      refine ⟨by rw [htl]; omega, ?_, ?_, ?_, ?_⟩
      · rw [hfr']; exact List.nodup_cons.2 ⟨hold'.2, h.once⟩
      · intro x hx
        rw [hfr'] at hx
        rcases List.mem_cons.1 hx with e | e
        · rw [e]; exact List.mem_cons_of_mem _ hold'.1
        · exact List.mem_cons_of_mem _ (h.given x e)
      · intro i hi hne
        rw [hfr']
        rcases hstash i hi hne with ⟨e, _⟩ | ⟨ni, e, hne'⟩
        · rw [e]
          refine ⟨by simp, ?_⟩
          intro hin
          rcases List.mem_cons.1 hin with e' | e'
          · exact hG (e' ▸ hold'.1)
          · exact hmfree e'
        · rw [e]
          refine ⟨List.mem_cons_of_mem _ (h.stash i hi hne').1, ?_⟩
          intro hin
          rcases List.mem_cons.1 hin with e' | e'
          · exact h.apart i hi s.tdt h.tail ni hne' e'
          · exact (h.stash i hi hne').2 e'
      · intro i hi j hj hij hne
        rcases hstash i hi hne with ⟨e, ei⟩ | ⟨ni, e, hne'⟩
        · rw [e]
          have hjt : j ≠ s.tdt := fun e' => hij (ei.trans e'.symm)
          rw [hsto j hjt]
          intro hmj
          by_cases hj0 : s.tx_mbufs j = 0
          · exact hm (hmj.trans hj0)
          · exact hG (hmj ▸ (h.stash j hj hj0).1)
        · rw [e]
          by_cases hjt : j = s.tdt
          · rw [hjt, hst]
            intro hmi
            exact hG (hmi ▸ (h.stash i hi hne').1)
          · rw [hsto j hjt]
            exact h.apart i hi j hj hij hne'

theorem treach_inv (k : Consts) (s0 s : Dev) (G : List Nat) (h0 : TInv s0 [])
    (h : TReach k s0 s G) : TInv s G := by
  induction h with
  | init => exact h0
  | sent m s' _ hm hG he ih => exact tinv_sent k m _ s' _ ih hm hG he
  | @full s G m s' _ hm _ he ih =>
    by_cases hdd : (s.tx_ring s.tdt).status &&& k.TXD_STAT_DD = 0
    · rw [transmit_full k m s hdd] at he
      simp only [Prod.mk.injEq, true_and] at he
      rw [← he]; exact ih
    · obtain ⟨t, ht, _⟩ := transmit_programs k m s hdd
      rw [ht, if_neg hm] at he
      simp at he
  | hw i v _ ih => exact ⟨ih.tail, ih.once, ih.given, ih.stash, ih.apart⟩

/-- C17: in every state reached from the state left by `e1000_init` through `e1000_transmit`
calls with packet buffers never handed over before, no buffer has been passed to `mbuffree`
twice, only handed-over buffers have been freed, and no stash slot holds a freed buffer;
the next such call either fails and frees nothing, or succeeds, stashes its packet in the
tail slot and frees exactly the buffer that slot held, if any. -/
theorem tx_buffers_freed_once (k : Consts) (mlen mhead : Nat → Nat) (pool : List Nat)
    (s0 : Dev) (h0 : e1000_init k (eboot mlen mhead pool) = .ok s0) (s : Dev) (G : List Nat)
    (hr : TReach k s0 s G) :
    s.freed.Nodup ∧ (∀ x ∈ s.freed, x ∈ G) ∧
    (∀ i < 16, s.tx_mbufs i ≠ 0 → s.tx_mbufs i ∉ s.freed) ∧ s.tdt < 16 ∧
    (∀ m, m ≠ 0 → m ∉ G →
      ((e1000_transmit k m s).1 = -1 ∧ (e1000_transmit k m s).2 = s) ∨
      ((e1000_transmit k m s).1 = 0 ∧ (e1000_transmit k m s).2.tx_mbufs s.tdt = m ∧
        (e1000_transmit k m s).2.freed =
          (if s.tx_mbufs s.tdt ≠ 0 then s.tx_mbufs s.tdt :: s.freed else s.freed))) := by
  obtain ⟨i1, i2, i3⟩ := init_spec k _ s0 h0
  have hinit : TInv s0 [] := by
    refine ⟨by rw [i1]; decide, by rw [i3]; exact List.nodup_nil, ?_, ?_, ?_⟩
    · intro x hx; rw [i3] at hx; cases hx
    · intro i hi hne; exact absurd (i2 i hi) hne
    · intro i hi j _ _ hne; exact absurd (i2 i hi) hne
  have hinv := treach_inv k s0 s G hinit hr
  refine ⟨hinv.once, hinv.given, fun i hi hne => (hinv.stash i hi hne).2, hinv.tail, ?_⟩
  intro m hm _
  by_cases hdd : (s.tx_ring s.tdt).status &&& k.TXD_STAT_DD = 0
  · left; rw [transmit_full k m s hdd]; exact ⟨rfl, rfl⟩
  · right
    obtain ⟨t, ht, _, _, hst, _, _, hfr, _⟩ := transmit_programs k m s hdd
    rw [ht, if_neg hm]
    exact ⟨rfl, hst, hfr⟩

end E1000

namespace E1000

open Bio (upd upd_same upd_ne)

/-! ## `e1000_recv` -/

theorem next_rx_lt (s : Dev) : next_rx s < 16 := by
  unfold next_rx RX_RING_SIZE; omega

theorem next_rx_inner (s : Dev) : next_rx (replace (deliver s)) = next_rx s := rfl

/-- One round of the receive loop, field by field. -/
theorem handle_spec (s : Dev) :
    (handle s).rdt = next_rx s ∧
    next_rx (handle s) = slot (next_rx s) 1 ∧
    (handle s).rx_ring (next_rx s) =
      { s.rx_ring (next_rx s) with addr := s.mhead (s.pool.headD 0), status := 0 } ∧
    (handle s).rx_mbufs (next_rx s) = s.pool.headD 0 ∧
    (∀ i, i ≠ next_rx s →
      (handle s).rx_ring i = s.rx_ring i ∧ (handle s).rx_mbufs i = s.rx_mbufs i) ∧
    (handle s).pool = s.pool.tail ∧ (handle s).mhead = s.mhead ∧
    (handle s).delivered =
      (s.rx_mbufs (next_rx s), (s.rx_ring (next_rx s)).length) :: s.delivered ∧
    (handle s).tx_ring = s.tx_ring ∧ (handle s).tx_mbufs = s.tx_mbufs ∧
    (handle s).tdt = s.tdt ∧ (handle s).freed = s.freed := by
  have hlt := next_rx_lt s
  have hrdt : (handle s).rdt = next_rx s := rfl
  refine ⟨hrdt, ?_, ?_, ?_, ?_, rfl, rfl, ?_, rfl, rfl, rfl, rfl⟩
  · show ((((handle s).rdt + 1) % 4294967296) % RX_RING_SIZE) = (next_rx s + 1) % 16
    rw [hrdt]; unfold RX_RING_SIZE; omega
  · have r1 : (replace (deliver s)).rx_mbufs (next_rx s) = s.pool.headD 0 := by
      show upd _ (next_rx s) _ (next_rx s) = _
      rw [upd_same]; rfl
    have r2 : (handle s).rx_ring (next_rx s) =
        { (replace (deliver s)).rx_ring (next_rx s) with
          addr := (replace (deliver s)).mhead ((replace (deliver s)).rx_mbufs (next_rx s)),
          status := 0 } := by
      show upd _ (next_rx s) _ (next_rx s) = _
      rw [upd_same]; rfl
    rw [r2, r1]; rfl
  · show upd _ (next_rx s) _ (next_rx s) = _
    rw [upd_same]; rfl
  · intro i hi
    constructor
    · show upd _ (next_rx s) _ i = _
      rw [upd_ne _ _ _ _ hi]; rfl
    · show upd _ (next_rx s) _ i = _
      rw [upd_ne _ _ _ _ hi]; rfl
  · show (_, upd s.mlen _ _ _) :: _ = _
    rw [upd_same]

theorem slot_inj (start j j' : Nat) (h : j' < j) (hj : j < 16) :
    slot start j ≠ slot start j' := by
  unfold slot; omega

theorem getD_drop_head (l : List Nat) (j : Nat) : (l.drop j).headD 0 = l.getD j 0 := by
  induction l generalizing j with
  | nil => simp
  | cons a l ih =>
    cases j with
    | zero => simp
    | succ j => simp

/-- The state after `j` rounds of the receive loop, for `j` up to the ring size. -/
theorem rounds_spec (s : Dev) :
    ∀ j, j ≤ 16 →
      next_rx (handle^[j] s) = slot (next_rx s) j ∧
      (handle^[j] s).pool = s.pool.drop j ∧ (handle^[j] s).mhead = s.mhead ∧
      (∀ i, (∀ j', j' < j → i ≠ slot (next_rx s) j') →
        (handle^[j] s).rx_ring i = s.rx_ring i ∧ (handle^[j] s).rx_mbufs i = s.rx_mbufs i) ∧
      (∀ j', j' < j →
        (handle^[j] s).rx_ring (slot (next_rx s) j') =
          { s.rx_ring (slot (next_rx s) j') with
            addr := s.mhead (s.pool.getD j' 0), status := 0 } ∧
        (handle^[j] s).rx_mbufs (slot (next_rx s) j') = s.pool.getD j' 0) ∧
      (handle^[j] s).delivered =
        ((List.range j).map (fun j' =>
          (s.rx_mbufs (slot (next_rx s) j'), (s.rx_ring (slot (next_rx s) j')).length))).reverse
          ++ s.delivered ∧
      (handle^[j] s).rdt = (if j = 0 then s.rdt else slot (next_rx s) (j - 1)) ∧
      (handle^[j] s).tx_ring = s.tx_ring ∧ (handle^[j] s).tx_mbufs = s.tx_mbufs ∧
      (handle^[j] s).tdt = s.tdt ∧ (handle^[j] s).freed = s.freed := by
  intro j
  induction j with
  | zero =>
    intro _
    have hlt := next_rx_lt s
    refine ⟨?_, rfl, rfl, fun i _ => ⟨rfl, rfl⟩, fun j' hj' => by omega, rfl, rfl, rfl, rfl,
      rfl, rfl⟩
    show next_rx s = (next_rx s + 0) % 16
    omega
  | succ j ih =>
    intro hj
    obtain ⟨a1, a2, a3, a4, a5, a6, a7, a8, a9, a10, a11⟩ := ih (by omega)
    rw [Function.iterate_succ_apply']
    generalize handle^[j] s = t at a1 a2 a3 a4 a5 a6 a7 a8 a9 a10 a11 ⊢
    obtain ⟨b1, b2, b3, b4, b5, b6, b7, b8, b9, b10, b11, b12⟩ := handle_spec t
    have cur : ∀ j', j' < j → slot (next_rx s) j ≠ slot (next_rx s) j' :=
      fun j' hj' => slot_inj _ j j' hj' (by omega)
    obtain ⟨c1, c2⟩ := a4 (slot (next_rx s) j) cur
    refine ⟨?_, ?_, b7.trans a3, ?_, ?_, ?_, ?_, b9.trans a8, b10.trans a9, b11.trans a10,
      b12.trans a11⟩
    · rw [b2, a1]; unfold slot; omega
    · rw [b6, a2, List.tail_drop]
    · intro i hi
      have hne : i ≠ next_rx t := by rw [a1]; exact hi j (by omega)
      obtain ⟨d1, d2⟩ := b5 i hne
      obtain ⟨e1, e2⟩ := a4 i (fun j' hj' => hi j' (by omega))
      exact ⟨d1.trans e1, d2.trans e2⟩
    · intro j' hj'
      by_cases hjj : j' = j
      · subst hjj
        rw [← a1, b3, b4, a1, c1, a3, a2, getD_drop_head]
        exact ⟨rfl, rfl⟩
      · have hlt : j' < j := by omega
        have hne : slot (next_rx s) j' ≠ next_rx t := by
          rw [a1]; exact (cur j' hlt).symm
        obtain ⟨d1, d2⟩ := b5 _ hne
        obtain ⟨e1, e2⟩ := a5 j' hlt
        exact ⟨d1.trans e1, d2.trans e2⟩
    · rw [b8, a6, a1, c1, c2, List.range_succ]
      simp
    · rw [b1, a1]; simp

end E1000

namespace E1000

open Bio (upd upd_same upd_ne)

theorem replace_stash (s : Dev) :
    (replace (deliver s)).rx_mbufs (next_rx s) = s.pool.headD 0 := by
  show upd _ (next_rx s) _ (next_rx s) = _
  rw [upd_same]; rfl

/-- The loop runs `n` rounds and returns when the done bit is set and the allocator succeeds
in each of the first `n` rounds and the done bit is clear after them. -/
theorem recvLoop_rounds (k : Consts) :
    ∀ (n fuel : Nat) (s : Dev), n < fuel →
      (∀ j, j < n →
        ((handle^[j] s).rx_ring (next_rx (handle^[j] s))).status &&& k.RXD_STAT_DD ≠ 0 ∧
        (handle^[j] s).pool.headD 0 ≠ 0) →
      ((handle^[n] s).rx_ring (next_rx (handle^[n] s))).status &&& k.RXD_STAT_DD = 0 →
      recvLoop k fuel s = .ok (handle^[n] s) := by
  intro n
  induction n with
  | zero =>
    intro fuel s hf _ hstop
    cases fuel with
    | zero => omega
    | succ fuel =>
      unfold recvLoop
      have hstop' : (s.rx_ring (next_rx s)).status &&& k.RXD_STAT_DD = 0 := hstop
      rw [if_pos hstop']; rfl
  | succ n ih =>
    intro fuel s hf hrun hstop
    cases fuel with
    | zero => omega
    | succ fuel =>
      have hr0 := hrun 0 (by omega)
      have h0 : (s.rx_ring (next_rx s)).status &&& k.RXD_STAT_DD ≠ 0 := hr0.1
      have h0' : s.pool.headD 0 ≠ 0 := hr0.2
      unfold recvLoop
      rw [if_neg h0, if_neg (by rw [replace_stash]; exact h0')]
      rw [Function.iterate_succ_apply]
      refine ih fuel (handle s) (by omega) ?_ ?_
      · intro j hj
        have := hrun (j + 1) (by omega)
        rw [Function.iterate_succ_apply] at this
        exact this
      · rw [Function.iterate_succ_apply] at hstop
        exact hstop

theorem runLen_spec (k : Consts) (s : Dev) :
    ∀ (cap start : Nat),
      runLen k s start cap ≤ cap ∧
      (∀ j, j < runLen k s start cap →
        (s.rx_ring (slot start j)).status &&& k.RXD_STAT_DD ≠ 0) ∧
      (runLen k s start cap < cap →
        (s.rx_ring (slot start (runLen k s start cap))).status &&& k.RXD_STAT_DD = 0) := by
  intro cap
  induction cap with
  | zero => intro start; exact ⟨le_refl _, fun j hj => absurd hj (Nat.not_lt_zero _),
      fun h => absurd h (Nat.lt_irrefl _)⟩
  | succ cap ih =>
    intro start
    obtain ⟨h1, h2, h3⟩ := ih (start + 1)
    unfold runLen
    by_cases hd : (s.rx_ring (start % 16)).status &&& k.RXD_STAT_DD = 0
    · rw [if_pos hd]
      refine ⟨Nat.zero_le _, fun j hj => absurd hj (Nat.not_lt_zero _), fun _ => ?_⟩
      show (s.rx_ring ((start + 0) % 16)).status &&& k.RXD_STAT_DD = 0
      exact hd
    · rw [if_neg hd]
      have hs : ∀ j, slot (start + 1) j = slot start (j + 1) := by
        intro j; unfold slot; congr 1; omega
      refine ⟨by omega, ?_, ?_⟩
      · intro j hj
        cases j with
        | zero => exact hd
        | succ j => rw [← hs]; exact h2 j (by omega)
      · intro hlt
        rw [← hs]; exact h3 (by omega)

/-- C18: let `n` be the length of the maximal run of receive descriptors with the done bit
set, from slot `(RDT + 1) mod 16` on, wrapping around the ring. When `mbufalloc` succeeds
`n` times, `e1000_recv` returns (its loop needs at most 17 rounds); it has passed the buffers
of the `n` slots to `net_rx` in ring order, each with `len` equal to the length field of its
descriptor; each of these slots ends with status 0, the next buffer of the allocator in the
stash and the `head` of that buffer as descriptor address; the register is the last slot
handled, or unchanged when `n = 0`; the other slots and the transmit side are unchanged. -/
theorem recv_handles_done_run (k : Consts) (s : Dev)
    (hpool : ∀ j, j < runLen k s (next_rx s) 16 → s.pool.getD j 0 ≠ 0) :
    ∃ n, n = runLen k s (next_rx s) 16 ∧ n ≤ 16 ∧
      (∀ j, j < n → (s.rx_ring (slot (next_rx s) j)).status &&& k.RXD_STAT_DD ≠ 0) ∧
      (n < 16 → (s.rx_ring (slot (next_rx s) n)).status &&& k.RXD_STAT_DD = 0) ∧
      ∀ fuel, 17 ≤ fuel →
        ∃ s', e1000_recv k fuel s = .ok s' ∧
          s'.delivered =
            ((List.range n).map (fun j =>
              (s.rx_mbufs (slot (next_rx s) j),
                (s.rx_ring (slot (next_rx s) j)).length))).reverse ++ s.delivered ∧
          (∀ j, j < n →
            (s'.rx_ring (slot (next_rx s) j)).status = 0 ∧
            s'.rx_mbufs (slot (next_rx s) j) = s.pool.getD j 0 ∧
            (s'.rx_ring (slot (next_rx s) j)).addr = s.mhead (s.pool.getD j 0) ∧
            (s'.rx_ring (slot (next_rx s) j)).length =
              (s.rx_ring (slot (next_rx s) j)).length) ∧
          s'.rdt = (if n = 0 then s.rdt else slot (next_rx s) (n - 1)) ∧
          (∀ i, (∀ j, j < n → i ≠ slot (next_rx s) j) →
            s'.rx_ring i = s.rx_ring i ∧ s'.rx_mbufs i = s.rx_mbufs i) ∧
          s'.pool = s.pool.drop n ∧ s'.tx_ring = s.tx_ring ∧ s'.tx_mbufs = s.tx_mbufs ∧
          s'.tdt = s.tdt := by
  obtain ⟨h1, h2, h3⟩ := runLen_spec k s 16 (next_rx s)
  refine ⟨runLen k s (next_rx s) 16, rfl, h1, h2, h3, ?_⟩
  generalize runLen k s (next_rx s) 16 = n at hpool h1 h2 h3
  intro fuel hfuel
  obtain ⟨a1, a2, a3, a4, a5, a6, a7, a8, a9, a10, _⟩ := rounds_spec s n h1
  have hloop : recvLoop k fuel s = .ok (handle^[n] s) := by
    refine recvLoop_rounds k n fuel s (by omega) ?_ ?_
    · intro j hj
      obtain ⟨b1, b2, _, b4, _⟩ := rounds_spec s j (by omega)
      have hun := b4 (slot (next_rx s) j) (fun j' hj' => slot_inj _ j j' hj' (by omega))
      rw [b1, hun.1, b2, getD_drop_head]
      exact ⟨h2 j hj, hpool j hj⟩
    · rw [a1]
      by_cases hn : n < 16
      · have hun := a4 (slot (next_rx s) n) (fun j' hj' => slot_inj _ n j' hj' hn)
        rw [hun.1]; exact h3 hn
      · have hn16 : n = 16 := by omega
        have hs0 : slot (next_rx s) n = slot (next_rx s) 0 := by
          rw [hn16]; unfold slot; omega
        rw [hs0, (a5 0 (by omega)).1]
        exact Nat.zero_and _
  refine ⟨handle^[n] s, hloop, a6, ?_, a7, a4, a2, a8, a9, a10⟩
  intro j hj
  obtain ⟨c1, c2⟩ := a5 j hj
  rw [c1, c2]
  exact ⟨rfl, rfl, rfl, rfl⟩

end E1000

namespace Bio

/-! ## Buckets of the reachable states -/

theorem hash_formula (dev blockno : Nat) (hb : blockno < 4294967296) :
    BUFMAP_HASH dev blockno = ((dev <<< 27 ||| blockno) % 4294967296) % 13 := by
  unfold BUFMAP_HASH BUCKETSIZE
  congr 1
  apply Nat.eq_of_testBit_eq
  intro i
  have h32 : (4294967296 : Nat) = 2 ^ 32 := by norm_num
  rw [h32] at hb ⊢
  simp only [Nat.testBit_or, Nat.testBit_mod_two_pow]
  by_cases hi : i < 32
  · simp [hi]
  · have hbi : blockno.testBit i = false :=
      Nat.testBit_lt_two_pow (lt_of_lt_of_le hb (Nat.pow_le_pow_right (by decide) (by omega)))
    simp [hi, hbi]

/-- C19: in every reachable state each of the `NBUF` buffers lies in exactly one bucket
chain, once, and the index of that bucket is `BUFMAP_HASH` of the buffer's current `dev` and
`blockno`, which for a 32-bit `blockno` is `((dev << 27 | blockno) mod 2^32) mod 13`; right
after `binit` every buffer lies in bucket 0 with `dev = blockno = 0`. -/
theorem buffer_in_hash_bucket (NBUF : Nat) (s : Bcache) (H : List Nat)
    (h : Reachable NBUF s H) (x : Nat) (hx : x < NBUF) :
    (∃ k, k < BUCKETSIZE ∧ x ∈ s.bufmap k ∧ (s.bufmap k).count x = 1 ∧
      (∀ k', k' < BUCKETSIZE → x ∈ s.bufmap k' → k' = k) ∧
      k = BUFMAP_HASH (s.buf x).dev (s.buf x).blockno ∧
      ((s.buf x).blockno < 4294967296 →
        k = (((s.buf x).dev <<< 27 ||| (s.buf x).blockno) % 4294967296) % 13)) ∧
    (x ∈ (binit NBUF).bufmap 0 ∧ ((binit NBUF).buf x).dev = 0 ∧
      ((binit NBUF).buf x).blockno = 0) := by
  have hinv := reachable_inv NBUF s H h
  obtain ⟨k, hk, hmem⟩ := hinv.member x hx
  have hhash := hinv.hashed k hk x hmem
  constructor
  · refine ⟨k, hk, hmem, List.count_eq_one_of_mem (hinv.chained.1 k hk) hmem, ?_, hhash.symm,
      fun hb => ?_⟩
    · intro k' hk' hmem'
      by_contra hne
      exact hinv.chained.2 k' hk' k hk hne x hmem' hmem
    · rw [← hash_formula _ _ hb]; exact hhash.symm
  · obtain ⟨hbuf, h0, _⟩ := binit_spec NBUF
    refine ⟨by rw [h0]; simpa using hx, by rw [hbuf x]; rfl, by rw [hbuf x]; rfl⟩

theorem buffer_in_hash_bucket_witness :
    (∃ k, k < BUCKETSIZE ∧ 1 ∈ demo.bufmap k ∧ (demo.bufmap k).count 1 = 1 ∧
      (∀ k', k' < BUCKETSIZE → 1 ∈ demo.bufmap k' → k' = k) ∧
      k = BUFMAP_HASH (demo.buf 1).dev (demo.buf 1).blockno ∧
      ((demo.buf 1).blockno < 4294967296 →
        k = (((demo.buf 1).dev <<< 27 ||| (demo.buf 1).blockno) % 4294967296) % 13)) ∧
    (1 ∈ (binit 2).bufmap 0 ∧ ((binit 2).buf 1).dev = 0 ∧ ((binit 2).buf 1).blockno = 0) :=
  buffer_in_hash_bucket 2 demo [1] demo_reachable 1 (by decide)

end Bio

namespace Bio

/-! ## Lock order in `bget` -/

theorem heldAfter_append (t1 t2 : List LockEv) :
    ∀ h, heldAfter h (t1 ++ t2) = heldAfter (heldAfter h t1) t2 := by
  induction t1 with
  | nil => intro h; rfl
  | cons e t1 ih =>
    intro h
    cases e with
    | acquire l => exact ih (l :: h)
    | release l => exact ih (h.erase l)

theorem ordered_append (t1 t2 : List LockEv) :
    ∀ h, Ordered h t1 → Ordered (heldAfter h t1) t2 → Ordered h (t1 ++ t2) := by
  induction t1 with
  | nil => intro h _ h2; exact h2
  | cons e t1 ih =>
    intro h h1 h2
    cases e with
    | acquire l =>
      cases l with
      | eviction =>
        simp only [List.cons_append, Ordered] at h1 ⊢
        obtain ⟨rfl, h1'⟩ := h1
        exact ⟨rfl, ih _ h1' h2⟩
      | bucket i =>
        simp only [List.cons_append, Ordered] at h1 ⊢
        exact ⟨h1.1, ih _ h1.2 h2⟩
    | release l =>
      simp only [List.cons_append, Ordered] at h1 ⊢
      exact ⟨h1.1, ih _ h1.2 h2⟩

/-- The lock calls follow the scan: the accumulator carried along is the one of `scanStep`. -/
theorem scanLocks_fold_fst (s : Bcache) (n : Nat) :
    ((List.range n).foldl (scanStepLocks s) ((none, 4294967295), [])).1 =
      (List.range n).foldl (scanStep s) (none, 4294967295) := by
  induction n with
  | zero => rfl
  | succ n ih =>
    rw [List.range_succ, List.foldl_append, List.foldl_append]
    simp only [List.foldl_cons, List.foldl_nil]
    rw [← ih]
    generalize List.foldl (scanStepLocks s) ((none, 4294967295), []) (List.range n) = acc
    unfold scanStepLocks scanStep
    dsimp only
    split <;> rfl

theorem scanLocks_fst (s : Bcache) : (scanLocks s).1 = scan s :=
  scanLocks_fold_fst s BUCKETSIZE

/-- During the scan the caller holds the eviction lock and at most the lock of the bucket of
its best candidate. -/
theorem scanLocks_fold_ordered (s : Bcache) (n : Nat) (hn : n ≤ 13) :
    Ordered [Lock.eviction]
        ((List.range n).foldl (scanStepLocks s) ((none, 4294967295), [])).2 ∧
    ((((List.range n).foldl (scanStepLocks s) ((none, 4294967295), [])).1.2 = 4294967295 ∧
        heldAfter [Lock.eviction]
          ((List.range n).foldl (scanStepLocks s) ((none, 4294967295), [])).2 =
            [Lock.eviction]) ∨
      (((List.range n).foldl (scanStepLocks s) ((none, 4294967295), [])).1.2 < n ∧
        heldAfter [Lock.eviction]
          ((List.range n).foldl (scanStepLocks s) ((none, 4294967295), [])).2 =
            [Lock.bucket ((List.range n).foldl (scanStepLocks s)
              ((none, 4294967295), [])).1.2, Lock.eviction])) := by
  induction n with
  | zero => exact ⟨trivial, Or.inl ⟨rfl, rfl⟩⟩
  | succ n ih =>
    obtain ⟨h1, h2⟩ := ih (by omega)
    rw [List.range_succ, List.foldl_append]
    simp only [List.foldl_cons, List.foldl_nil]
    generalize List.foldl (scanStepLocks s) ((none, 4294967295), []) (List.range n) = acc
      at h1 h2 ⊢
    unfold scanStepLocks
    dsimp only
    split
    · -- a better candidate in bucket `n`
      rcases h2 with ⟨hs, hh⟩ | ⟨hlt, hh⟩
      · rw [if_neg (by simpa using hs), List.append_nil]
        refine ⟨ordered_append _ _ _ h1 ?_, Or.inr ⟨Nat.lt_succ_self n, ?_⟩⟩
        · rw [hh]; simp [Ordered]
        · rw [heldAfter_append, hh]; rfl
      · have hne : acc.1.2 ≠ 4294967295 := by omega
        have hjn : acc.1.2 ≠ n := by omega
        rw [if_pos hne, List.append_assoc]
        refine ⟨ordered_append _ _ _ h1 ?_, Or.inr ⟨Nat.lt_succ_self n, ?_⟩⟩
        · rw [hh]
          simp only [List.cons_append, List.nil_append, Ordered]
          refine ⟨Or.inr (Or.inr ⟨acc.1.2, hlt, rfl⟩), by simp, trivial⟩
        · rw [heldAfter_append, hh]
          simp [heldAfter, Ne.symm hjn]
    · -- no better candidate in bucket `n`
      refine ⟨ordered_append _ _ _ h1 ?_, ?_⟩
      · rcases h2 with ⟨_, hh⟩ | ⟨hlt, hh⟩
        · rw [hh]; simp [Ordered]
        · rw [hh]
          simp only [Ordered]
          exact ⟨Or.inr (Or.inr ⟨acc.1.2, hlt, rfl⟩), by simp, trivial⟩
      · rcases h2 with ⟨hs, hh⟩ | ⟨hlt, hh⟩
        · left
          refine ⟨hs, ?_⟩
          rw [heldAfter_append, hh]; simp [heldAfter]
        · right
          refine ⟨Nat.lt_succ_of_lt hlt, ?_⟩
          rw [heldAfter_append, hh]; simp [heldAfter]

end Bio

namespace Kalloc

open Bio (upd)

/-! ## Instances on a small machine -/

theorem pages_conserved_witness :
    ∃ s0, kinit L0 0 (fun _ => 0) = .done s0 ∧
      total s0 L0.NCPU = (L0.PHYSTOP - PGROUNDUP L0.kend) / 4096 ∧
      ∀ s A, KReach L0 s0 s A →
        (∀ i < L0.NCPU, (s.freelist i).Nodup) ∧
        (∀ i < L0.NCPU, ∀ j < L0.NCPU, i ≠ j → ∀ x ∈ s.freelist i, x ∉ s.freelist j) ∧
        A.Nodup ∧ (∀ pa ∈ A, ∀ i < L0.NCPU, pa ∉ s.freelist i) ∧
        total s L0.NCPU + A.length = total s0 L0.NCPU :=
  pages_conserved L0 0 (fun _ => 0) (by decide)

end Kalloc

namespace E1000

/-! ## Instances on a small ring state -/

theorem e0_init : e1000_init k0 b0 = .ok e0 := rfl

theorem transmit_fails_iff_ring_full_witness :
    ((e1000_transmit k0 7 e0).1 = -1 ↔ (e0.tx_ring e0.tdt).status &&& k0.TXD_STAT_DD = 0) ∧
    ((e1000_transmit k0 7 e0).1 = -1 → (e1000_transmit k0 7 e0).2 = e0) :=
  transmit_fails_iff_ring_full k0 7 e0 (by decide)

theorem transmit_programs_slot_witness :
    ∃ s', e1000_transmit k0 7 e0 = (0, s') ∧
      (s'.tx_ring e0.tdt).addr = e0.mhead 7 ∧ (s'.tx_ring e0.tdt).length = e0.mlen 7 ∧
      (s'.tx_ring e0.tdt).cmd = k0.TXD_CMD_EOP ||| k0.TXD_CMD_RS ∧
      (s'.tx_ring e0.tdt).status = (e0.tx_ring e0.tdt).status ∧
      s'.tx_mbufs e0.tdt = 7 ∧ s'.tdt = (e0.tdt + 1) % 16 ∧
      (∀ j, j ≠ e0.tdt → s'.tx_ring j = e0.tx_ring j) ∧
      (∀ j, j ≠ e0.tdt → s'.tx_mbufs j = e0.tx_mbufs j) :=
  transmit_programs_slot k0 7 e0 (by decide) (by decide)

theorem recv_handles_done_run_witness :
    ∃ n, n = runLen k0 e1 (next_rx e1) 16 ∧ n ≤ 16 ∧
      ∀ fuel, 17 ≤ fuel → ∃ s', e1000_recv k0 fuel e1 = .ok s' ∧
        s'.rdt = (if n = 0 then e1.rdt else slot (next_rx e1) (n - 1)) :=
  let ⟨n, h1, h2, _, _, h5⟩ := recv_handles_done_run k0 e1 (by decide)
  ⟨n, h1, h2, fun fuel hf =>
    let ⟨s', g1, _, _, g4, _⟩ := h5 fuel hf
    ⟨s', g1, g4⟩⟩

end E1000

namespace Bio

/-! ## Held locks along the paths of `bget` -/

theorem lockSafe_append (t1 t2 : List LockEv) :
    ∀ h, LockSafe h t1 → LockSafe (heldAfter h t1) t2 → LockSafe h (t1 ++ t2) := by
  induction t1 with
  | nil => intro h _ h2; exact h2
  | cons e t1 ih =>
    intro h h1 h2
    cases e with
    | acquire l =>
      simp only [List.cons_append, LockSafe] at h1 ⊢
      exact ⟨h1.1, ih _ h1.2 h2⟩
    | release l =>
      simp only [List.cons_append, LockSafe] at h1 ⊢
      exact ⟨h1.1, ih _ h1.2 h2⟩

theorem head_mem_heldDuring (t : List LockEv) (h : List Lock) : h ∈ heldDuring h t := by
  cases t with
  | nil => simp [heldDuring]
  | cons e t => cases e <;> simp [heldDuring]

theorem mem_heldDuring_append (t1 t2 : List LockEv) (x : List Lock) :
    ∀ h, x ∈ heldDuring h (t1 ++ t2) ↔
      x ∈ heldDuring h t1 ∨ x ∈ heldDuring (heldAfter h t1) t2 := by
  induction t1 with
  | nil =>
    intro h
    simp only [List.nil_append, heldDuring, heldAfter, List.mem_singleton]
    constructor
    · exact fun hx => Or.inr hx
    · rintro (rfl | hx)
      · exact head_mem_heldDuring t2 _
      · exact hx
  | cons e t1 ih =>
    intro h
    cases e with
    | acquire l =>
      show x ∈ h :: heldDuring (l :: h) (t1 ++ t2) ↔
        x ∈ h :: heldDuring (l :: h) t1 ∨ x ∈ heldDuring (heldAfter (l :: h) t1) t2
      simp only [List.mem_cons, ih, or_assoc]
    | release l =>
      show x ∈ h :: heldDuring (h.erase l) (t1 ++ t2) ↔
        x ∈ h :: heldDuring (h.erase l) t1 ∨ x ∈ heldDuring (heldAfter (h.erase l) t1) t2
      simp only [List.mem_cons, ih, or_assoc]

theorem scanRounds_succ (sc : Nat → Bcache) (n : Nat) :
    scanRounds sc (n + 1) = scanStepLocks (sc n) (scanRounds sc n) n := by
  unfold scanRounds
  rw [List.range_succ, List.foldl_append]
  rfl

/-- A round of the scan appends its lock calls to the ones made before. -/
theorem scanStepLocks_append (s : Bcache) (acc : (Option (Nat × Nat) × Nat) × List LockEv)
    (i : Nat) :
    (scanStepLocks s acc i).1 = (scanStepLocks s (acc.1, []) i).1 ∧
    (scanStepLocks s acc i).2 = acc.2 ++ (scanStepLocks s (acc.1, []) i).2 := by
  unfold scanStepLocks
  dsimp only
  split <;> simp

theorem scanRounds_events (sc : Nat → Bcache) (n : Nat) :
    (scanRounds sc (n + 1)).2 = (scanRounds sc n).2 ++ roundLocks sc n := by
  rw [scanRounds_succ]
  exact (scanStepLocks_append (sc n) (scanRounds sc n) n).2

/-- One round of the scan, begun with the eviction lock and the lock of the bucket of the
candidate (when there is one): the round uses the locks safely, holds at every instant only
the eviction lock, the lock of its own bucket and the one of the candidate, and ends as it
began. -/
theorem round_spec (s : Bcache) (c : Option (Nat × Nat) × Nat) (n : Nat) (H : List Lock)
    (hn : n < 13)
    (hH : (c.1 = none ∧ c.2 = 4294967295 ∧ H = [Lock.eviction]) ∨
      ((∃ p, c.1 = some p) ∧ c.2 < n ∧ H = [Lock.bucket c.2, Lock.eviction])) :
    LockSafe H (scanStepLocks s (c, []) n).2 ∧
    (∀ h ∈ heldDuring H (scanStepLocks s (c, []) n).2,
      (bucketLocks h).length ≤ 2 ∧
      ∀ l ∈ h, l = Lock.eviction ∨ l = Lock.bucket n ∨ l = Lock.bucket c.2) ∧
    (((scanStepLocks s (c, []) n).1.1 = none ∧ (scanStepLocks s (c, []) n).1.2 = 4294967295 ∧
        heldAfter H (scanStepLocks s (c, []) n).2 = [Lock.eviction]) ∨
      ((∃ p, (scanStepLocks s (c, []) n).1.1 = some p) ∧
        (scanStepLocks s (c, []) n).1.2 < n + 1 ∧
        heldAfter H (scanStepLocks s (c, []) n).2 =
          [Lock.bucket (scanStepLocks s (c, []) n).1.2, Lock.eviction])) := by
  unfold scanStepLocks
  dsimp only
  rcases scanBucket_flag s n (s.bufmap n) 0 c.1 false with ⟨hf, j', hj'⟩ | h3
  · rw [if_pos hf]
    dsimp only
    rcases hH with ⟨_, hs, rfl⟩ | ⟨_, hlt, rfl⟩
    · rw [if_neg (by simpa using hs)]
      refine ⟨by simp [LockSafe], ?_, Or.inr ⟨⟨_, hj'⟩, Nat.lt_succ_self n, rfl⟩⟩
      intro h hh
      simp only [List.nil_append, List.append_nil, heldDuring, List.mem_cons,
        List.mem_singleton, List.not_mem_nil, or_false] at hh
      rcases hh with rfl | rfl <;> simp [bucketLocks]
    · have hne : c.2 ≠ 4294967295 := by omega
      have hjn : c.2 ≠ n := by omega
      rw [if_pos hne]
      refine ⟨by simp [LockSafe, Ne.symm hjn], ?_,
        Or.inr ⟨⟨_, hj'⟩, Nat.lt_succ_self n, by simp [heldAfter, Ne.symm hjn]⟩⟩
      intro h hh
      simp only [List.nil_append, List.cons_append, heldDuring, List.mem_cons,
        List.mem_singleton, List.not_mem_nil, or_false] at hh
      rcases hh with rfl | rfl | rfl <;> simp [bucketLocks, Ne.symm hjn]
  · rw [h3]
    simp only [Bool.false_eq_true, if_false]
    rcases hH with ⟨hn, hs, rfl⟩ | ⟨hp, hlt, rfl⟩
    · refine ⟨by simp [LockSafe], ?_, Or.inl ⟨hn, hs, by simp [heldAfter]⟩⟩
      intro h hh
      simp only [List.nil_append, heldDuring, List.mem_cons, List.mem_singleton,
        List.not_mem_nil, or_false] at hh
      rcases hh with rfl | rfl | rfl <;> simp [bucketLocks]
    · have hjn : c.2 ≠ n := by omega
      refine ⟨by simp [LockSafe, Ne.symm hjn], ?_,
        Or.inr ⟨hp, Nat.lt_succ_of_lt hlt, by simp [heldAfter]⟩⟩
      intro h hh
      simp only [List.nil_append, heldDuring, List.mem_cons, List.mem_singleton,
        List.not_mem_nil, or_false] at hh
      rcases hh with rfl | rfl | rfl <;> simp [bucketLocks]

/-- The scan after `n` rounds: its lock calls were safe, it never held more than two bucket
locks, and it holds the eviction lock and the lock of `holding_bucket`, which is set exactly
when there is a candidate. -/
theorem scanRounds_inv (sc : Nat → Bcache) :
    ∀ n, n ≤ 13 →
      LockSafe [Lock.eviction] (scanRounds sc n).2 ∧
      (∀ h ∈ heldDuring [Lock.eviction] (scanRounds sc n).2, (bucketLocks h).length ≤ 2) ∧
      (((scanRounds sc n).1.1 = none ∧ (scanRounds sc n).1.2 = 4294967295 ∧
          heldAfter [Lock.eviction] (scanRounds sc n).2 = [Lock.eviction]) ∨
        ((∃ p, (scanRounds sc n).1.1 = some p) ∧ (scanRounds sc n).1.2 < n ∧
          heldAfter [Lock.eviction] (scanRounds sc n).2 =
            [Lock.bucket (scanRounds sc n).1.2, Lock.eviction])) := by
  intro n
  induction n with
  | zero =>
    intro _
    exact ⟨trivial, by simp [scanRounds, heldDuring, bucketLocks], Or.inl ⟨rfl, rfl, rfl⟩⟩
  | succ n ih =>
    intro hn
    obtain ⟨h1, h2, h3⟩ := ih (by omega)
    obtain ⟨r1, r2, r3⟩ := round_spec (sc n) (scanRounds sc n).1 n _ (by omega) h3
    have e1 : (scanRounds sc (n + 1)).1 =
        (scanStepLocks (sc n) ((scanRounds sc n).1, []) n).1 := by
      rw [scanRounds_succ]; exact (scanStepLocks_append _ _ _).1
    have e2 := scanRounds_events sc n
    refine ⟨?_, ?_, ?_⟩
    · rw [e2]; exact lockSafe_append _ _ _ h1 r1
    · intro h hh
      rw [e2, mem_heldDuring_append] at hh
      rcases hh with hh | hh
      · exact h2 h hh
      · exact (r2 h hh).1
    · rw [e1, e2, heldAfter_append]; exact r3

/-- The path model follows `bget`: when nothing changes the cache during the call, the lock
calls are the ones of `bgetLocks`, and the path ends in a `return` exactly when `bget` does
not panic. -/
theorem bgetPath_quiet (pid dev blockno : Nat) (s : Bcache) :
    (bgetPath dev blockno s s (fun _ => s)).1 = bgetLocks dev blockno s ∧
    (bgetPath dev blockno s s (fun _ => s)).2 = !panicked (bget pid dev blockno s) := by
  have hq : scanRounds (fun _ => s) BUCKETSIZE = scanLocks s := rfl
  have hpan : ∀ b t, panicked (acquiresleep pid b t) = false := by
    intro b t
    unfold acquiresleep
    split <;> rfl
  unfold bgetPath bgetLocks bget
  dsimp only
  rw [hq]
  cases lookup s dev blockno (s.bufmap (BUFMAP_HASH dev blockno)) with
  | some b => simp [hpan]
  | none =>
    dsimp only
    have hfst := scanLocks_fst s
    rcases hsc : scanLocks s with ⟨⟨bl, holding⟩, evs⟩
    rw [hsc] at hfst
    rw [← hfst]
    cases bl with
    | none => simp [panicked]
    | some p =>
      dsimp only
      rw [hpan]
      simp

/-- C21: on every path through `bget` (the first search hits, the second search hits, the
scan finds no victim, the scan finds one in the bucket of the block or in another one),
whatever the cache holds at each step, and with no lock of the cache held at the call:
every `release` is of a lock the caller holds and every `acquire` of a lock it does not
hold; at every instant of the call at most two bucket locks are held; at every instant of
round `n` of the victim scan at most two bucket locks are held, and any held lock is the
eviction lock, the lock of bucket `n`, or the lock of the bucket of the candidate the round
began with; and when the path ends in a `return` no lock is held. -/
theorem bget_lock_discipline (dev blockno : Nat) (s1 s2 : Bcache) (sc : Nat → Bcache) :
    LockSafe [] (bgetPath dev blockno s1 s2 sc).1 ∧
    (∀ h ∈ heldDuring [] (bgetPath dev blockno s1 s2 sc).1, (bucketLocks h).length ≤ 2) ∧
    (∀ n < BUCKETSIZE,
      ∀ h ∈ heldDuring (heldAfter [Lock.eviction] (scanRounds sc n).2) (roundLocks sc n),
        (bucketLocks h).length ≤ 2 ∧
        ∀ l ∈ h, l = Lock.eviction ∨ l = Lock.bucket n ∨
          l = Lock.bucket (scanRounds sc n).1.2) ∧
    ((bgetPath dev blockno s1 s2 sc).2 = true →
      heldAfter [] (bgetPath dev blockno s1 s2 sc).1 = []) := by
  have hround : ∀ n < BUCKETSIZE,
      ∀ h ∈ heldDuring (heldAfter [Lock.eviction] (scanRounds sc n).2) (roundLocks sc n),
        (bucketLocks h).length ≤ 2 ∧
        ∀ l ∈ h, l = Lock.eviction ∨ l = Lock.bucket n ∨
          l = Lock.bucket (scanRounds sc n).1.2 := by
    intro n hn
    have hn13 : n < 13 := hn
    obtain ⟨_, _, h3⟩ := scanRounds_inv sc n (by omega)
    exact (round_spec (sc n) (scanRounds sc n).1 n _ hn13 h3).2.1
  obtain ⟨i1, i2, i3⟩ := scanRounds_inv sc 13 (le_refl _)
  have e : scanRounds sc 13 = scanRounds sc BUCKETSIZE := rfl
  rw [e] at i1 i2 i3
  have hS : ∀ T, LockSafe [Lock.eviction] T →
      LockSafe [] ([LockEv.acquire (.bucket (BUFMAP_HASH dev blockno)),
        LockEv.release (.bucket (BUFMAP_HASH dev blockno)), LockEv.acquire .eviction] ++ T) := by
    intro T hT
    simpa [LockSafe] using hT
  have hD : ∀ T, (∀ h ∈ heldDuring [Lock.eviction] T, (bucketLocks h).length ≤ 2) →
      ∀ h ∈ heldDuring [] ([LockEv.acquire (.bucket (BUFMAP_HASH dev blockno)),
        LockEv.release (.bucket (BUFMAP_HASH dev blockno)), LockEv.acquire .eviction] ++ T),
        (bucketLocks h).length ≤ 2 := by
    intro T hT h hh
    simp only [List.cons_append, List.nil_append, heldDuring, List.mem_cons,
      List.erase_cons_head] at hh
    rcases hh with rfl | rfl | rfl | hh
    · simp [bucketLocks]
    · simp [bucketLocks]
    · simp [bucketLocks]
    · exact hT h hh
  unfold bgetPath
  dsimp only
  cases hl1 : lookup s1 dev blockno (s1.bufmap (BUFMAP_HASH dev blockno)) with
  | some b =>
    dsimp only
    refine ⟨by simp [LockSafe], ?_, hround, fun _ => by simp [heldAfter]⟩
    intro h hh
    simp only [heldDuring, List.mem_cons, List.erase_cons_head, List.not_mem_nil,
      or_false] at hh
    rcases hh with rfl | rfl | rfl <;> simp [bucketLocks]
  | none =>
    dsimp only
    cases hl2 : lookup s2 dev blockno (s2.bufmap (BUFMAP_HASH dev blockno)) with
    | some b =>
      dsimp only
      refine ⟨by simp [LockSafe], ?_, hround, fun _ => by simp [heldAfter]⟩
      intro h hh
      simp [heldDuring] at hh
      rcases hh with rfl | rfl | rfl | rfl | rfl | rfl | rfl <;> simp [bucketLocks]
    | none =>
      dsimp only
      rcases hsc : scanRounds sc BUCKETSIZE with ⟨⟨bl, holding⟩, evs⟩
      rw [hsc] at i1 i2 i3
      dsimp only at i1 i2 i3 ⊢
      cases bl with
      | none =>
        dsimp only
        exact ⟨hS _ i1, hD _ i2, hround, fun hc => by cases hc⟩
      | some p =>
        dsimp only
        have hlt : holding < 13 ∧
            heldAfter [Lock.eviction] evs = [Lock.bucket holding, Lock.eviction] := by
          rcases i3 with ⟨hn, _⟩ | ⟨_, hlt, hh⟩
          · cases hn
          · exact ⟨hlt, hh⟩
        obtain ⟨hlt, hh⟩ := hlt
        simp only [List.append_assoc]
        have htail : LockSafe [Lock.bucket holding, Lock.eviction]
              ((if holding ≠ BUFMAP_HASH dev blockno then
                  [LockEv.release (.bucket holding),
                    LockEv.acquire (.bucket (BUFMAP_HASH dev blockno))]
                else []) ++
                [LockEv.release (.bucket (BUFMAP_HASH dev blockno)),
                  LockEv.release .eviction]) ∧
            (∀ h ∈ heldDuring [Lock.bucket holding, Lock.eviction]
              ((if holding ≠ BUFMAP_HASH dev blockno then
                  [LockEv.release (.bucket holding),
                    LockEv.acquire (.bucket (BUFMAP_HASH dev blockno))]
                else []) ++
                [LockEv.release (.bucket (BUFMAP_HASH dev blockno)),
                  LockEv.release .eviction]), (bucketLocks h).length ≤ 2) ∧
            heldAfter [Lock.bucket holding, Lock.eviction]
              ((if holding ≠ BUFMAP_HASH dev blockno then
                  [LockEv.release (.bucket holding),
                    LockEv.acquire (.bucket (BUFMAP_HASH dev blockno))]
                else []) ++
                [LockEv.release (.bucket (BUFMAP_HASH dev blockno)),
                  LockEv.release .eviction]) = [] := by
          by_cases hk : holding = BUFMAP_HASH dev blockno
          · rw [if_neg (by simpa using hk), hk]
            refine ⟨by simp [LockSafe], ?_, by simp [heldAfter]⟩
            intro h hh
            simp [heldDuring] at hh
            rcases hh with rfl | rfl | rfl <;> simp [bucketLocks]
          · rw [if_pos hk]
            refine ⟨by simp [LockSafe], ?_, by simp [heldAfter]⟩
            intro h hh
            simp [heldDuring] at hh
            rcases hh with rfl | rfl | rfl | rfl | rfl <;> simp [bucketLocks]
        obtain ⟨t1, t2, t3⟩ := htail
        refine ⟨hS _ (lockSafe_append _ _ _ i1 (by rw [hh]; exact t1)), ?_, hround, ?_⟩
        · apply hD
          intro h hm
          rw [mem_heldDuring_append] at hm
          rcases hm with hm | hm
          · exact i2 h hm
          · rw [hh] at hm; exact t2 h hm
        · intro _
          show heldAfter [] ([LockEv.acquire (.bucket (BUFMAP_HASH dev blockno)),
            LockEv.release (.bucket (BUFMAP_HASH dev blockno)), LockEv.acquire .eviction] ++ _)
              = []
          rw [heldAfter_append, heldAfter_append]
          simp only [heldAfter, List.erase_cons_head]
          rw [hh]; exact t3

theorem bget_lock_discipline_witness :
    (bgetPath 0 14 (binit 2) raced (fun _ => raced)).2 = true ∧
    (bgetPath 0 14 (binit 2) raced (fun _ => raced)).1.length = 6 ∧
    heldAfter [] (bgetPath 0 14 (binit 2) raced (fun _ => raced)).1 = [] :=
  ⟨by decide, by decide,
    (bget_lock_discipline 0 14 (binit 2) raced (fun _ => raced)).2.2.2 (by decide)⟩

/-- The path into the panic of `bget` ends with the eviction lock held: in a full cache of
two buffers the scan finds no victim. -/
theorem bgetPath_panic_holds_eviction :
    (bgetPath 0 1 full full (fun _ => full)).2 = false ∧
    heldAfter [] (bgetPath 0 1 full full (fun _ => full)).1 = [Lock.eviction] := by
  decide

end Bio

namespace Kalloc

open Bio (upd)

/-! ## The pages carved by `kinit` -/

theorem range'_pages (n : Nat) :
    ∀ p, List.range' p n 4096 = (List.range n).map (fun k => p + k * 4096) := by
  induction n with
  | zero => intro p; rfl
  | succ n ih =>
    intro p
    rw [List.range'_succ, List.range_succ_eq_map, List.map_cons, List.map_map, ih]
    simp only [Nat.zero_mul, Nat.add_zero, List.cons.injEq, true_and]
    apply List.map_congr_left
    intro k _
    simp only [Function.comp]
    omega

/-- The loop of `freerange` is the sequence of its `kfree` calls, lowest page first. -/
theorem freeloop_fold (L : Layout) (id pa_end : Nat) (hend : pa_end ≤ L.PHYSTOP) :
    ∀ (fuel p : Nat) (s : Kmem), (pa_end - p) / 4096 < fuel → p % 4096 = 0 → L.kend ≤ p →
      freeloop L id pa_end fuel p s =
        .done ((List.range' p ((pa_end - p) / 4096) 4096).foldl
          (fun t pa => kmemOf (kfree L id pa t)) s) := by
  intro fuel
  induction fuel with
  | zero => intro p s h; omega
  | succ fuel ih =>
    intro p s hf hp hk
    unfold freeloop
    by_cases hc : p + PGSIZE ≤ pa_end
    · rw [if_pos hc]
      simp only [PGSIZE] at hc
      have hv : Valid L p := ⟨hp, hk, by omega⟩
      have hq : (pa_end - p) / 4096 = (pa_end - (p + 4096)) / 4096 + 1 := by omega
      rw [kfree_valid L id p s hv]
      dsimp only
      rw [ih (p + PGSIZE) _ (by simp only [PGSIZE]; omega) (by simp only [PGSIZE]; omega)
        (by simp only [PGSIZE]; omega), hq, List.range'_succ, List.foldl_cons,
        kfree_valid L id p s hv]
      rfl
    · rw [if_neg hc]
      simp only [PGSIZE] at hc
      have hq : (pa_end - p) / 4096 = 0 := by omega
      rw [hq]; rfl

/-- C22: for every kernel end address `end` and every `PHYSTOP`, with
`n = (PHYSTOP - PGROUNDUP(end)) / 4096` (0 when `PHYSTOP` is below `PGROUNDUP(end)`; the
indices below `n` are the natural numbers below the floor of the quotient of the integers),
`kinit` returns; the state it leaves is the one that the calls
`kfree(PGROUNDUP(end) + k * 4096)` for `k = 0, 1, ..., n - 1`, in this order and on the
booting core, leave from the zeroed allocator; none of these calls can panic, in whatever
state; the free list of the booting core holds these pages, highest address at the head and
in strictly descending order; the free list of every other core is empty. -/
theorem kinit_frees_range (L : Layout) (id : Nat) (mem : Nat → Nat) :
    ∃ s0, kinit L id mem = .done s0 ∧
      (∀ k : Nat, k < (L.PHYSTOP - PGROUNDUP L.kend) / 4096 ↔
        (k : Int) < Int.fdiv ((L.PHYSTOP : Int) - (PGROUNDUP L.kend : Int)) 4096) ∧
      (∀ k < (L.PHYSTOP - PGROUNDUP L.kend) / 4096, ∀ s,
        isPanic (kfree L id (PGROUNDUP L.kend + k * 4096) s) = false) ∧
      s0 = ((List.range ((L.PHYSTOP - PGROUNDUP L.kend) / 4096)).map
          (fun k => PGROUNDUP L.kend + k * 4096)).foldl
            (fun t pa => kmemOf (kfree L id pa t)) (kboot mem) ∧
      s0.freelist id = ((List.range ((L.PHYSTOP - PGROUNDUP L.kend) / 4096)).map
          (fun k => PGROUNDUP L.kend + k * 4096)).reverse ∧
      (s0.freelist id).Pairwise (fun a b => a > b) ∧
      ∀ j, j ≠ id → s0.freelist j = [] := by
  have hr1 : PGROUNDUP L.kend % 4096 = 0 := by simp only [PGROUNDUP, PGSIZE]; omega
  have hr2 : L.kend ≤ PGROUNDUP L.kend := by simp only [PGROUNDUP, PGSIZE]; omega
  obtain ⟨s0, h1, h2, h3⟩ := kinit_spec L id mem
  have hfold := freeloop_fold L id L.PHYSTOP (le_refl _) (L.PHYSTOP / PGSIZE + 1)
    (PGROUNDUP L.kend) (kboot mem) (by simp only [PGSIZE]; omega) hr1 hr2
  have hk : kinit L id mem = freeloop L id L.PHYSTOP (L.PHYSTOP / PGSIZE + 1)
      (PGROUNDUP L.kend) (kboot mem) := rfl
  rw [hk, hfold] at h1
  rw [range'_pages] at h1 h2
  refine ⟨s0, by rw [hk, hfold, range'_pages]; exact h1, ?_, ?_, ?_, h2, ?_, h3⟩
  · intro k
    rw [Int.fdiv_eq_ediv _ (by decide)]
    omega
  · intro k hk s
    have hv : Valid L (PGROUNDUP L.kend + k * 4096) := by
      refine ⟨by omega, by omega, ?_⟩
      have := Nat.div_mul_le_self (L.PHYSTOP - PGROUNDUP L.kend) 4096
      have : (k + 1) * 4096 ≤ (L.PHYSTOP - PGROUNDUP L.kend) / 4096 * 4096 :=
        Nat.mul_le_mul_right _ hk
      omega
    rw [kfree_valid L id _ s hv]; rfl
  · cases h1; rfl
  · rw [h2, List.pairwise_reverse, List.pairwise_map]
    refine List.Pairwise.imp ?_ (List.pairwise_lt_range _)
    intro a b hab
    show PGROUNDUP L.kend + a * 4096 < PGROUNDUP L.kend + b * 4096
    omega

theorem kinit_frees_range_witness :
    ∃ s0, kinit L0 0 (fun _ => 0) = .done s0 ∧ s0.freelist 0 = [12288, 8192] ∧
      ∀ j, j ≠ 0 → s0.freelist j = [] :=
  let ⟨s0, h1, _, _, _, h5, _, h7⟩ := kinit_frees_range L0 0 (fun _ => 0)
  ⟨s0, h1, h5.trans (by decide), h7⟩

end Kalloc

namespace E1000

open Bio (upd upd_same upd_ne)

/-! ## Termination of `e1000_recv` -/

/-- The loop of `e1000_recv` handles the run of done descriptors and returns, when the
allocator succeeds in every round. -/
theorem recvLoop_run (k : Consts) (s : Dev)
    (hpool : ∀ j, j < runLen k s (next_rx s) 16 → s.pool.getD j 0 ≠ 0) :
    ∀ fuel, runLen k s (next_rx s) 16 < fuel →
      recvLoop k fuel s = .ok (handle^[runLen k s (next_rx s) 16] s) := by
  obtain ⟨h1, h2, h3⟩ := runLen_spec k s 16 (next_rx s)
  generalize runLen k s (next_rx s) 16 = n at hpool h1 h2 h3
  intro fuel hfuel
  obtain ⟨a1, _, _, a4, a5, _⟩ := rounds_spec s n h1
  refine recvLoop_rounds k n fuel s hfuel ?_ ?_
  · intro j hj
    obtain ⟨b1, b2, _, b4, _⟩ := rounds_spec s j (by omega)
    have hun := b4 (slot (next_rx s) j) (fun j' hj' => slot_inj _ j j' hj' (by omega))
    rw [b1, hun.1, b2, getD_drop_head]
    exact ⟨h2 j hj, hpool j hj⟩
  · rw [a1]
    by_cases hn : n < 16
    · have hun := a4 (slot (next_rx s) n) (fun j' hj' => slot_inj _ n j' hj' hn)
      rw [hun.1]; exact h3 hn
    · have hn16 : n = 16 := by omega
      have hs0 : slot (next_rx s) n = slot (next_rx s) 0 := by
        rw [hn16]; unfold slot; omega
      rw [hs0, (a5 0 (by omega)).1]
      exact Nat.zero_and _

/-- C23: for every ring state, register content and bit mask, when nothing but the driver
writes the ring and `mbufalloc` succeeds in every round (its first results, as many as there
are done descriptors in the run that starts at slot `(RDT + 1) mod 16`, are not null),
`e1000_recv` returns after `n` rounds of its loop, with `n` at most 16: a bound of `n + 1`
rounds, so of 17 rounds, is never reached. Round `j` inspects slot
`(RDT + 1 + j) mod 16`, finds the done bit set, and leaves the status of that slot 0 for
the rest of the call. -/
theorem recv_terminates (k : Consts) (s : Dev)
    (hpool : ∀ j, j < runLen k s (next_rx s) 16 → s.pool.getD j 0 ≠ 0) :
    ∃ n, n ≤ 16 ∧
      (∀ fuel, n < fuel → e1000_recv k fuel s = .ok (handle^[n] s)) ∧
      (∀ j, j < n →
        next_rx (handle^[j] s) = slot (next_rx s) j ∧
        ((handle^[j] s).rx_ring (slot (next_rx s) j)).status &&& k.RXD_STAT_DD ≠ 0 ∧
        ∀ j', j < j' → j' ≤ n →
          ((handle^[j'] s).rx_ring (slot (next_rx s) j)).status = 0) := by
  obtain ⟨h1, h2, _⟩ := runLen_spec k s 16 (next_rx s)
  refine ⟨runLen k s (next_rx s) 16, h1, recvLoop_run k s hpool, ?_⟩
  intro j hj
  obtain ⟨b1, _, _, b4, _⟩ := rounds_spec s j (by omega)
  have hun := b4 (slot (next_rx s) j) (fun j' hj' => slot_inj _ j j' hj' (by omega))
  refine ⟨b1, by rw [hun.1]; exact h2 j hj, ?_⟩
  intro j' hjj hjn
  obtain ⟨_, _, _, _, c5, _⟩ := rounds_spec s j' (by omega)
  rw [(c5 j hjj).1]

theorem recv_terminates_witness :
    runLen k0 e16 (next_rx e16) 16 = 16 ∧
    ∃ n, n ≤ 16 ∧ ∀ fuel, n < fuel → e1000_recv k0 fuel e16 = .ok (handle^[n] e16) :=
  ⟨by decide,
    let ⟨n, h1, h2, _⟩ := recv_terminates k0 e16 (by decide)
    ⟨n, h1, h2⟩⟩

end E1000

namespace E1000

open Bio (upd upd_same upd_ne)

/-! ## The done bit of the transmit descriptors -/

theorem transmit_status (k : Consts) (m : Nat) (s : Dev) (i : Nat) :
    ((e1000_transmit k m s).2.tx_ring i).status = (s.tx_ring i).status := by
  by_cases h : (s.tx_ring s.tdt).status &&& k.TXD_STAT_DD = 0
  · rw [transmit_full k m s h]
  · obtain ⟨s', hs', hd, hdo, _⟩ := transmit_programs k m s h
    rw [hs']
    by_cases hi : i = s.tdt
    · subst hi
      show (s'.tx_ring s.tdt).status = _
      rw [hd]
    · show (s'.tx_ring i).status = _
      rw [hdo i hi]

theorem init_tx_fold_status (k : Consts) (z : Dev) (n : Nat) :
    ∀ i, i < n → (((List.range n).foldl (init_tx k) z).tx_ring i).status = k.TXD_STAT_DD := by
  induction n with
  | zero => intro i hi; omega
  | succ n ih =>
    rw [List.range_succ, List.foldl_append]
    simp only [List.foldl_cons, List.foldl_nil]
    generalize List.foldl (init_tx k) z (List.range n) = t at ih ⊢
    intro i hi
    by_cases hin : i = n
    · subst hin; simp [init_tx]
    · simp only [init_tx, upd_ne _ _ _ _ hin]
      exact ih i (by omega)

/-- After `e1000_init` the done bit mask is the status of every transmit descriptor. -/
theorem init_status (k : Consts) (s s0 : Dev) (h : e1000_init k s = .ok s0) :
    ∀ i, i < 16 → (s0.tx_ring i).status = k.TXD_STAT_DD := by
  have hf := init_tx_fold_status k
    { s with tx_ring := fun _ => { addr := 0, length := 0, cmd := 0, status := 0 } } 16
  have ht : ∀ i, i < 16 → ((tx_setup k s).tx_ring i).status = k.TXD_STAT_DD := by
    unfold tx_setup TX_RING_SIZE
    generalize List.foldl (init_tx k)
      { s with tx_ring := fun _ => { addr := 0, length := 0, cmd := 0, status := 0 } }
      (List.range 16) = t at hf ⊢
    exact hf
  unfold e1000_init at h
  generalize tx_setup k s = u at h ht
  split at h
  · next s4 h4 =>
    obtain ⟨h1, _⟩ := init_rx_keeps_tx _ _ s4 h4
    simp only [ERes.ok.injEq] at h
    subst h
    intro i hi
    show (s4.tx_ring i).status = _
    rw [h1]
    exact ht i hi
  · next hne =>
    exfalso
    exact hne s0 h

theorem transmits_append (k : Consts) (l1 l2 : List Nat) :
    ∀ s, (transmits k (l1 ++ l2) s).2 = (transmits k l2 (transmits k l1 s).2).2 := by
  induction l1 with
  | nil => intro s; rfl
  | cons m l1 ih => intro s; exact ih _

/-- With the done bit set in every descriptor, every transmit of a non-null packet
returns 0. -/
theorem transmits_succeed (k : Consts) :
    ∀ (ms : List Nat) (s : Dev), (∀ m ∈ ms, m ≠ 0) → s.tdt < 16 →
      (∀ i, i < 16 → (s.tx_ring i).status &&& k.TXD_STAT_DD ≠ 0) →
      (transmits k ms s).1 = List.replicate ms.length 0 := by
  intro ms
  induction ms with
  | nil => intro s _ _ _; rfl
  | cons m ms ih =>
    intro s hm ht hs
    have hm0 : m ≠ 0 := hm m (List.mem_cons_self _ _)
    obtain ⟨s', hs', _, _, _, _, htl, _⟩ := transmit_programs k m s (hs _ ht)
    rw [if_neg hm0] at hs'
    have hst : ∀ i, i < 16 → (s'.tx_ring i).status &&& k.TXD_STAT_DD ≠ 0 := by
      intro i hi
      have := transmit_status k m s i
      rw [hs'] at this
      show (s'.tx_ring i).status &&& k.TXD_STAT_DD ≠ 0
      rw [this]; exact hs i hi
    have := ih s' (fun x hx => hm x (List.mem_cons_of_mem _ hx)) (by rw [htl]; omega) hst
    show (e1000_transmit k m s).1 :: (transmits k ms (e1000_transmit k m s).2).1 = _
    rw [hs']
    show (0 : Int) :: (transmits k ms s').1 = _
    rw [this]; rfl

theorem transmits_status (k : Consts) :
    ∀ (ms : List Nat) (s : Dev) (i : Nat),
      ((transmits k ms s).2.tx_ring i).status = (s.tx_ring i).status := by
  intro ms
  induction ms with
  | nil => intro s i; rfl
  | cons m ms ih =>
    intro s i
    show ((transmits k ms (e1000_transmit k m s).2).2.tx_ring i).status = _
    rw [ih, transmit_status]

/-- Transmits into empty slots, up to the end of the ring, free nothing and leave the other
slots as they are. -/
theorem transmits_fresh (k : Consts) :
    ∀ (ms : List Nat) (s : Dev), s.tdt < 16 → s.tdt + ms.length ≤ 16 →
      (∀ i, s.tdt ≤ i → i < s.tdt + ms.length → s.tx_mbufs i = 0) →
      (∀ i, i < 16 → (s.tx_ring i).status &&& k.TXD_STAT_DD ≠ 0) →
      (transmits k ms s).2.freed = s.freed ∧
      (transmits k ms s).2.tdt = (s.tdt + ms.length) % 16 ∧
      (∀ i, i < s.tdt ∨ s.tdt + ms.length ≤ i →
        (transmits k ms s).2.tx_mbufs i = s.tx_mbufs i) := by
  intro ms
  induction ms with
  | nil =>
    intro s ht _ _ _
    refine ⟨rfl, ?_, fun _ _ => rfl⟩
    show s.tdt = (s.tdt + 0) % 16
    omega
  | cons m ms ih =>
    intro s ht hl he hs
    simp only [List.length_cons] at hl he ⊢
    obtain ⟨s', hs', _, _, _, hsto, htl, hfr, _⟩ := transmit_programs k m s (hs _ ht)
    have hst : ∀ i, i < 16 → (s'.tx_ring i).status &&& k.TXD_STAT_DD ≠ 0 := by
      intro i hi
      have := transmit_status k m s i
      rw [hs'] at this
      show (s'.tx_ring i).status &&& k.TXD_STAT_DD ≠ 0
      rw [this]; exact hs i hi
    have htl' : s'.tdt = (s.tdt + 1) % 16 := by rw [htl]; omega
    rw [if_neg (by simpa using he s.tdt (le_refl _) (by omega))] at hfr
    obtain ⟨g1, g2, g3⟩ := ih s' (by omega) (by omega)
      (fun i hi hi16 => by rw [hsto i (by omega)]; exact he i (by omega) (by omega)) hst
    have e : (transmits k (m :: ms) s).2 = (transmits k ms s').2 := by
      show (transmits k ms (e1000_transmit k m s).2).2 = _
      rw [hs']
    rw [e]
    refine ⟨g1.trans hfr, ?_, ?_⟩
    · rw [g2, htl']; omega
    · intro i hi
      rw [g3 i (by omega), hsto i (by omega)]

/-- C24: `e1000_transmit` leaves the status of every transmit descriptor as it is, whatever
it returns; after a transmit that returned 0 the done bit of the slot it used is set; in a
run of calls on non-null packets that starts in the state left by `e1000_init`, with no
write of the hardware in between, every call returns 0, however many there are; the first
sixteen calls free no buffer, and the seventeenth frees the buffer of the first packet
(the done bit mask of `e1000_dev.h` is not 0). -/
theorem transmit_keeps_status (k : Consts) (hdd : k.TXD_STAT_DD ≠ 0) :
    (∀ m s i, ((e1000_transmit k m s).2.tx_ring i).status = (s.tx_ring i).status) ∧
    (∀ m s s', e1000_transmit k m s = (0, s') →
      (s'.tx_ring s.tdt).status &&& k.TXD_STAT_DD ≠ 0) ∧
    (∀ b s0, e1000_init k b = .ok s0 →
      (∀ ms, (∀ m ∈ ms, m ≠ 0) → (transmits k ms s0).1 = List.replicate ms.length 0) ∧
      (∀ m1 mid m17, m1 ≠ 0 → mid.length = 15 →
        (transmits k (m1 :: mid) s0).2.freed = b.freed ∧
        (transmits k (m1 :: mid ++ [m17]) s0).2.freed = m1 :: b.freed)) := by
  refine ⟨transmit_status k, ?_, ?_⟩
  · intro m s s' h
    have hst := transmit_status k m s s.tdt
    rw [h] at hst
    show (s'.tx_ring s.tdt).status &&& k.TXD_STAT_DD ≠ 0
    rw [hst]
    intro hc
    rw [transmit_full k m s hc] at h
    simp at h
  · intro b s0 hinit
    obtain ⟨i1, i2, i3⟩ := init_spec k b s0 hinit
    have i4 := init_status k b s0 hinit
    have hs0 : ∀ i, i < 16 → (s0.tx_ring i).status &&& k.TXD_STAT_DD ≠ 0 := by
      intro i hi
      rw [i4 i hi, Nat.and_self]; exact hdd
    refine ⟨fun ms hms => transmits_succeed k ms s0 hms (by omega) hs0, ?_⟩
    intro m1 mid m17 hm1 hmid
    obtain ⟨s1, hs1, _, _, hst, hsto, htl, hfr, _⟩ :=
      transmit_programs k m1 s0 (hs0 _ (by omega))
    rw [i1] at hst hsto htl hfr
    rw [if_neg (by simpa using i2 0 (by omega))] at hfr
    have hst1 : ∀ i, i < 16 → (s1.tx_ring i).status &&& k.TXD_STAT_DD ≠ 0 := by
      intro i hi
      have := transmit_status k m1 s0 i
      rw [hs1] at this
      show (s1.tx_ring i).status &&& k.TXD_STAT_DD ≠ 0
      rw [this]; exact hs0 i hi
    have htl1 : s1.tdt = 1 := by rw [htl]
    obtain ⟨g1, g2, g3⟩ := transmits_fresh k mid s1 (by omega) (by omega)
      (fun i hi hi16 => by rw [hsto i (by omega)]; exact i2 i (by omega)) hst1
    have e : (transmits k (m1 :: mid) s0).2 = (transmits k mid s1).2 := by
      show (transmits k mid (e1000_transmit k m1 s0).2).2 = _
      rw [hs1]
    have hfr16 : (transmits k (m1 :: mid) s0).2.freed = b.freed := by
      rw [e, g1, hfr, i3]
    refine ⟨hfr16, ?_⟩
    have e17 : (transmits k (m1 :: mid ++ [m17]) s0).2 =
        (e1000_transmit k m17 (transmits k (m1 :: mid) s0).2).2 := by
      rw [transmits_append k (m1 :: mid) [m17] s0]; rfl
    rw [e17]
    generalize (transmits k (m1 :: mid) s0).2 = t at e hfr16 ⊢
    have ht0 : t.tdt = 0 := by rw [e, g2, htl1, hmid]
    have hstash : t.tx_mbufs 0 = m1 := by rw [e, g3 0 (by omega)]; exact hst
    have hstt : (t.tx_ring t.tdt).status &&& k.TXD_STAT_DD ≠ 0 := by
      rw [ht0, e, transmits_status k mid s1 0]
      exact hst1 0 (by omega)
    obtain ⟨t', ht', _, _, _, _, _, hfr', _⟩ := transmit_programs k m17 t hstt
    rw [ht']
    show t'.freed = _
    rw [hfr', ht0, hstash, if_pos hm1, hfr16]

theorem transmit_keeps_status_witness :
    (∀ ms : List Nat, (∀ m ∈ ms, m ≠ 0) →
      (transmits k0 ms e0).1 = List.replicate ms.length 0) ∧
    (transmits k0 (301 :: (List.range 15).map (fun i => i + 302)) e0).2.freed = b0.freed ∧
    (transmits k0 (301 :: (List.range 15).map (fun i => i + 302) ++ [317]) e0).2.freed =
      301 :: b0.freed :=
  ⟨((transmit_keeps_status k0 (by decide)).2.2 b0 e0 e0_init).1,
    ((transmit_keeps_status k0 (by decide)).2.2 b0 e0 e0_init).2 301
      ((List.range 15).map (fun i => i + 302)) 317 (by decide) (by decide)⟩

end E1000

namespace Bio

/-! ## Lock order along the paths of `bget` -/

/-- One round of the scan keeps the lock order: it acquires the lock of its bucket while it
holds the eviction lock and at most the lock of the bucket of the candidate, which has a
lower index. -/
theorem round_ordered (s : Bcache) (c : Option (Nat × Nat) × Nat) (n : Nat) (H : List Lock)
    (hn : n < 13)
    (hH : (c.1 = none ∧ c.2 = 4294967295 ∧ H = [Lock.eviction]) ∨
      ((∃ p, c.1 = some p) ∧ c.2 < n ∧ H = [Lock.bucket c.2, Lock.eviction])) :
    Ordered H (scanStepLocks s (c, []) n).2 := by
  unfold scanStepLocks
  dsimp only
  split
  · rcases hH with ⟨_, hs, rfl⟩ | ⟨_, hlt, rfl⟩
    · rw [if_neg (by simpa using hs)]
      simp [Ordered]
    · have hne : c.2 ≠ 4294967295 := by omega
      rw [if_pos hne]
      simp only [List.nil_append, List.cons_append, Ordered]
      exact ⟨Or.inr (Or.inr ⟨c.2, hlt, rfl⟩), by simp, trivial⟩
  · rcases hH with ⟨_, _, rfl⟩ | ⟨_, hlt, rfl⟩
    · simp [Ordered]
    · simp only [List.nil_append, Ordered]
      exact ⟨Or.inr (Or.inr ⟨c.2, hlt, rfl⟩), by simp, trivial⟩

theorem scanRounds_ordered (sc : Nat → Bcache) :
    ∀ n, n ≤ 13 → Ordered [Lock.eviction] (scanRounds sc n).2 := by
  intro n
  induction n with
  | zero => intro _; trivial
  | succ n ih =>
    intro hn
    obtain ⟨_, _, h3⟩ := scanRounds_inv sc n (by omega)
    rw [scanRounds_events]
    exact ordered_append _ _ _ (ih (by omega))
      (round_ordered (sc n) (scanRounds sc n).1 n _ (by omega) h3)

end Bio

namespace E1000

/-! ## A run that wraps the transmit ring -/

/-- A run of successful transmits of fresh non-null packets is a run of `TReach`. -/
theorem treach_transmits (k : Consts) (s0 : Dev) :
    ∀ (ms : List Nat) (s : Dev) (G : List Nat), TReach k s0 s G →
      (∀ m ∈ ms, m ≠ 0) → ms.Nodup → (∀ m ∈ ms, m ∉ G) →
      (transmits k ms s).1 = List.replicate ms.length 0 →
      TReach k s0 (transmits k ms s).2 (ms.reverse ++ G) := by
  intro ms
  induction ms with
  | nil => intro s G h _ _ _ _; exact h
  | cons m ms ih =>
    intro s G h hm hnd hG hret
    have hret' : (e1000_transmit k m s).1 :: (transmits k ms (e1000_transmit k m s).2).1 =
        0 :: List.replicate ms.length 0 := hret
    simp only [List.cons.injEq] at hret'
    have hstep : TReach k s0 (e1000_transmit k m s).2 (m :: G) :=
      TReach.sent m _ h (hm m (List.mem_cons_self _ _)) (hG m (List.mem_cons_self _ _))
        (Prod.ext hret'.1 rfl)
    have hnd' := List.nodup_cons.1 hnd
    have := ih (e1000_transmit k m s).2 (m :: G) hstep
      (fun x hx => hm x (List.mem_cons_of_mem _ hx)) hnd'.2
      (fun x hx hxG => by
        rcases List.mem_cons.1 hxG with rfl | hxG
        · exact hnd'.1 hx
        · exact hG x (List.mem_cons_of_mem _ hx) hxG)
      hret'.2
    have e : (m :: ms).reverse ++ G = ms.reverse ++ (m :: G) := by simp
    rw [e]
    exact this

theorem e17_reached : TReach k0 e0 e17 pk17.reverse := by
  have h := treach_transmits k0 e0 pk17 e0 [] TReach.init (by decide) (by decide)
    (by decide) (by decide)
  rw [List.append_nil] at h
  exact h

theorem tx_buffers_freed_once_witness :
    e17.tdt = 1 ∧ e17.tx_mbufs 0 = 317 ∧ e17.tx_mbufs 1 = 302 ∧ e17.freed = [301] ∧
    (e1000_transmit k0 318 e17).1 = 0 ∧ (e1000_transmit k0 318 e17).2.freed = [302, 301] ∧
    e17.freed.Nodup ∧ (∀ x ∈ e17.freed, x ∈ pk17.reverse) ∧
    (∀ i < 16, e17.tx_mbufs i ≠ 0 → e17.tx_mbufs i ∉ e17.freed) ∧ e17.tdt < 16 ∧
    (∀ m, m ≠ 0 → m ∉ pk17.reverse →
      ((e1000_transmit k0 m e17).1 = -1 ∧ (e1000_transmit k0 m e17).2 = e17) ∨
      ((e1000_transmit k0 m e17).1 = 0 ∧ (e1000_transmit k0 m e17).2.tx_mbufs e17.tdt = m ∧
        (e1000_transmit k0 m e17).2.freed =
          (if e17.tx_mbufs e17.tdt ≠ 0 then e17.tx_mbufs e17.tdt :: e17.freed
           else e17.freed))) :=
  ⟨by decide, by decide, by decide, by decide, by decide, by decide,
    tx_buffers_freed_once k0 (fun _ => 0) (fun m => m + 16)
      ((List.range 18).map (fun i => i + 101)) e0 e0_init e17 pk17.reverse e17_reached⟩

end E1000

namespace Kalloc

open Bio (upd upd_same upd_ne Apart)

/-! ## `kfree` with the links kept in the pages -/

theorem isChain_congr (t t' : Linked) :
    ∀ (l : List Nat) (p : Nat), (∀ x ∈ l, t'.word x = t.word x) → IsChain t p l →
      IsChain t' p l := by
  intro l
  induction l with
  | nil => intro p _ h; exact h
  | cons x l ih =>
    intro p hw h
    obtain ⟨h1, h2, h3⟩ := h
    refine ⟨h1, h2, ?_⟩
    rw [hw x (List.mem_cons_self _ _)]
    exact ih _ (fun y hy => hw y (List.mem_cons_of_mem _ hy)) h3

/-- A `memset` of the page `pa` leaves the words of the other pages. -/
theorem fillWords_other (word : Nat → Nat) (pa c x : Nat) (hpa : pa % 4096 = 0)
    (hx : x % 4096 = 0) (hne : x ≠ pa) : fillWords word pa c x = word x := by
  unfold fillWords
  rw [if_neg]
  simp only [PGSIZE]
  omega

theorem kfreeLinked_valid (L : Layout) (id pa : Nat) (t : Linked) (h : Valid L pa) :
    kfreeLinked L id pa t =
      some { head := upd t.head id pa,
             word := upd (fillWords t.word pa 1) pa (t.head id) } := by
  obtain ⟨h1, h2, h3⟩ := h
  unfold kfreeLinked
  rw [if_neg]
  simp only [PGSIZE]
  omega

/-- For a page on no free list the two readings of `kfree` agree: the linked state after
the call holds the lists with `pa` pushed on the list of the calling core. -/
theorem kfree_refines (L : Layout) (id pa : Nat) (t : Linked) (s : Kmem)
    (hrep : Rep L t s) (hal : ∀ i < L.NCPU, ∀ x ∈ s.freelist i, x % 4096 = 0)
    (hv : Valid L pa) (h0 : pa ≠ 0) (hoff : ∀ i < L.NCPU, pa ∉ s.freelist i) :
    ∃ t' s', kfreeLinked L id pa t = some t' ∧ kfree L id pa s = .done s' ∧
      s'.freelist id = pa :: s.freelist id ∧ (∀ j, j ≠ id → s'.freelist j = s.freelist j) ∧
      Rep L t' s' := by
  refine ⟨_, _, kfreeLinked_valid L id pa t hv, kfree_valid L id pa s hv, by simp,
    fun j hj => by simp [hj], ?_⟩
  have hw : ∀ i < L.NCPU, ∀ x ∈ s.freelist i,
      upd (fillWords t.word pa 1) pa (t.head id) x = t.word x := by
    intro i hi x hx
    have hne : x ≠ pa := fun e => hoff i hi (e ▸ hx)
    rw [upd_ne _ _ _ _ hne]
    exact fillWords_other _ _ _ _ hv.1 (hal i hi x hx) hne
  intro i hi
  by_cases hie : i = id
  · subst hie
    show IsChain _ (upd t.head i pa i) (upd s.freelist i (pa :: s.freelist i) i)
    rw [upd_same, upd_same]
    refine ⟨rfl, h0, ?_⟩
    show IsChain _ (upd (fillWords t.word pa 1) pa (t.head i) pa) (s.freelist i)
    rw [upd_same]
    exact isChain_congr t _ _ _ (hw i hi) (hrep i hi)
  · show IsChain _ (upd t.head id pa i) (upd s.freelist id (pa :: s.freelist id) i)
    rw [upd_ne _ _ _ _ hie, upd_ne _ _ _ _ hie]
    exact isChain_congr t _ _ _ (hw i hi) (hrep i hi)

theorem stealLinked_some (id : Nat) (t : Linked) (i : Nat) :
    ∀ (n a : Nat), a ≤ i → i < a + n → i ≠ id → t.head i ≠ 0 →
      (∀ j, a ≤ j → j < i → j ≠ id → t.head j = 0) →
      stealLinked id t (List.range' a n) =
        (t.head i, { t with head := upd t.head i (t.word (t.head i)) }) := by
  intro n
  induction n with
  | zero => intro a h1 h2; omega
  | succ n ih =>
    intro a h1 h2 hne hl hpre
    rw [List.range'_succ]
    unfold stealLinked
    by_cases hai : a = i
    · subst hai
      rw [if_neg hne, if_pos hl]
    · have hlt : a < i := by omega
      by_cases haid : a = id
      · rw [if_pos haid]
        exact ih (a + 1) (by omega) (by omega) hne hl
          (fun j hj1 hj2 hj3 => hpre j (by omega) hj2 hj3)
      · rw [if_neg haid, if_neg (by simpa using hpre a (le_refl _) hlt haid)]
        exact ih (a + 1) (by omega) (by omega) hne hl
          (fun j hj1 hj2 hj3 => hpre j (by omega) hj2 hj3)

/-- The function `kalloc` on the linked state, when it steals from core `i`. -/
theorem kallocLinked_steal (L : Layout) (id : Nat) (t : Linked) (i : Nat)
    (h : t.head id = 0) (hi : i < L.NCPU) (hne : i ≠ id) (hl : t.head i ≠ 0)
    (hpre : ∀ j, j < i → j ≠ id → t.head j = 0) :
    kallocLinked L id t =
      (t.head i, { head := upd t.head i (t.word (t.head i)),
                   word := fillWords t.word (t.head i) 5 }) := by
  have e := stealLinked_some id t i L.NCPU 0 (Nat.zero_le _) (by omega) hne hl
    (fun j _ hj hjid => hpre j hj hjid)
  rw [← List.range_eq_range'] at e
  simp only [kallocLinked, h, ne_eq, not_true_eq_false, if_false, e, hl, not_false_eq_true,
    if_true]

/-- C13 as stated fails: on the small machine, with the pages 12288 and 8192 in the free
list of core 0, `kfree(12288)` on core 1 passes the test and writes the link of page 12288,
which is still the head of the list of core 0; that list is cut to the one page 12288. The
lists are well formed, page-aligned and without duplicates, and the page is not null. -/
theorem kfree_cuts_other_list :
    ¬ (∀ (L : Layout) (id pa : Nat) (t : Linked) (s : Kmem),
        Rep L t s → (∀ i < L.NCPU, ∀ x ∈ s.freelist i, x % 4096 = 0) →
        (∀ i < L.NCPU, (s.freelist i).Nodup) →
        (∀ i < L.NCPU, ∀ j < L.NCPU, i ≠ j → Apart (s.freelist i) (s.freelist j)) →
        Valid L pa → pa ≠ 0 → id < L.NCPU →
        ∃ t' s', kfreeLinked L id pa t = some t' ∧
          s'.freelist id = pa :: s.freelist id ∧
          (∀ j, j ≠ id → s'.freelist j = s.freelist j) ∧ Rep L t' s') := by
  intro h
  obtain ⟨t', s', h1, _, h3, h4⟩ := h L0 1 12288 ldemo kdemo (by decide) (by decide)
    (by decide) (by decide) (by decide) (by decide) (by decide)
  rw [kfreeLinked_valid L0 1 12288 ldemo (by decide)] at h1
  cases h1
  have h5 := h4 0 (by decide)
  rw [h3 0 (by decide)] at h5
  exact absurd h5 (by decide)

/-- C13, amended: let the linked state hold page-aligned free lists, and let `pa` be a
valid page freed on core `id`. When `pa` is not null and on no free list, `kfree` returns
and the linked state it leaves holds `pa` at the head of the list of core `id`, in front of
the previous list, and the unchanged list of every other core; this is what `kfree` does in
the reading with lists of pages. In particular, when the free lists share no page, the list
of core `id` is empty and `kalloc` on that core returns `pa`, it has stolen `pa` from the
head of the list of another core `d`, and `kfree(pa)` on core `id` then leaves `pa` alone
in the list of core `id`, the list of core `d` without it and every other list
unchanged. -/
theorem kfree_pushes_unlisted (L : Layout) (id pa : Nat) (t : Linked) (s : Kmem)
    (hrep : Rep L t s) (hal : ∀ i < L.NCPU, ∀ x ∈ s.freelist i, x % 4096 = 0)
    (hv : Valid L pa) (hid : id < L.NCPU) :
    (pa ≠ 0 → (∀ i < L.NCPU, pa ∉ s.freelist i) →
      ∃ t' s', kfreeLinked L id pa t = some t' ∧ kfree L id pa s = .done s' ∧
        s'.freelist id = pa :: s.freelist id ∧
        (∀ j, j ≠ id → s'.freelist j = s.freelist j) ∧ Rep L t' s') ∧
    (s.freelist id = [] → (∀ i < L.NCPU, (s.freelist i).Nodup) →
      (∀ i < L.NCPU, ∀ j < L.NCPU, i ≠ j → Apart (s.freelist i) (s.freelist j)) →
      ∀ s1, kalloc L id s = (some pa, s1) →
        ∃ d rest t1 t2 s2, d < L.NCPU ∧ d ≠ id ∧ s.freelist d = pa :: rest ∧
          kallocLinked L id t = (pa, t1) ∧ Rep L t1 s1 ∧ s1.freelist d = rest ∧
          kfreeLinked L id pa t1 = some t2 ∧ kfree L id pa s1 = .done s2 ∧
          s2.freelist id = [pa] ∧ s2.freelist d = rest ∧
          (∀ j, j ≠ id → j ≠ d → s2.freelist j = s.freelist j) ∧ Rep L t2 s2) := by
  constructor
  · intro h0 hoff
    exact kfree_refines L id pa t s hrep hal hv h0 hoff
  · intro hown hnd hap s1 hk
    rcases kalloc_cases L id s hid with ⟨hn, _⟩ | ⟨d, r, rest, hd, hl, hwhich, hk'⟩
    · rw [hn] at hk; cases hk
    · rw [hk'] at hk
      have hdne : d ≠ id := by
        rintro rfl
        rw [hown] at hl; cases hl
      simp only [Prod.mk.injEq, Option.some.injEq] at hk
      obtain ⟨hr, hs1⟩ := hk
      subst hr
      subst hs1
      have hpre : ∀ j, j < d → j ≠ id → s.freelist j = [] := by
        rcases hwhich with e | ⟨_, h⟩
        · exact absurd e hdne
        · exact h
      have hcd := hrep d hd
      rw [hl] at hcd
      obtain ⟨hhead, hr0, hrest⟩ := hcd
      have hown0 : t.head id = 0 := by
        have := hrep id hid
        rw [hown] at this
        exact this
      have hpre0 : ∀ j, j < d → j ≠ id → t.head j = 0 := by
        intro j hj hjid
        have := hrep j (by omega)
        rw [hpre j hj hjid] at this
        exact this
      have hka := kallocLinked_steal L id t d hown0 hd hdne (by rw [hhead]; exact hr0) hpre0
      rw [hhead] at hka
      have hnd' := List.nodup_cons.1 (hl ▸ hnd d hd)
      have hrd : r ∈ s.freelist d := by rw [hl]; exact List.mem_cons_self _ _
      have hoff1 : ∀ i < L.NCPU, r ∉ upd s.freelist d rest i := by
        intro i hi
        by_cases hie : i = d
        · rw [hie, upd_same]; exact hnd'.1
        · rw [upd_ne _ _ _ _ hie]
          exact hap d hd i hi (Ne.symm hie) r hrd
      have hal1 : ∀ i < L.NCPU, ∀ x ∈ upd s.freelist d rest i, x % 4096 = 0 := by
        intro i hi x hx
        by_cases hie : i = d
        · rw [hie, upd_same] at hx
          exact hal d hd x (by rw [hl]; exact List.mem_cons_of_mem _ hx)
        · rw [upd_ne _ _ _ _ hie] at hx
          exact hal i hi x hx
      have hrep1 : Rep L { head := upd t.head d (t.word r), word := fillWords t.word r 5 }
          { freelist := upd s.freelist d rest, mem := memset s.mem r 5 } := by
        intro i hi
        have hw : ∀ x ∈ upd s.freelist d rest i, fillWords t.word r 5 x = t.word x := by
          intro x hx
          exact fillWords_other _ _ _ _ hv.1 (hal1 i hi x hx)
            (fun e => hoff1 i hi (e ▸ hx))
        by_cases hie : i = d
        · subst hie
          show IsChain _ (upd t.head i (t.word r) i) (upd s.freelist i rest i)
          have hw' := hw
          rw [upd_same] at hw' ⊢
          rw [upd_same]
          exact isChain_congr t _ _ _ hw' hrest
        · show IsChain _ (upd t.head d (t.word r) i) (upd s.freelist d rest i)
          have hw' := hw
          rw [upd_ne _ _ _ _ hie] at hw' ⊢
          rw [upd_ne _ _ _ _ hie]
          exact isChain_congr t _ _ _ hw' (hrep i hi)
      obtain ⟨t2, s2, g1, g2, g3, g4, g5⟩ := kfree_refines L id r _ _ hrep1 hal1 hv hr0 hoff1
      refine ⟨d, rest, _, t2, s2, hd, hdne, hl, hka, hrep1, upd_same _ _ _, g1, g2, ?_, ?_, ?_,
        g5⟩
      · rw [g3]
        show r :: upd s.freelist d rest id = [r]
        rw [upd_ne _ _ _ _ (Ne.symm hdne), hown]
      · rw [g4 d hdne]
        exact upd_same _ _ _
      · intro j hj hjd
        rw [g4 j hj]
        exact upd_ne _ _ _ _ hjd

theorem kfree_pushes_unlisted_witness :
    (∃ t' s', kfreeLinked L0 1 12288 (kallocLinked L0 1 ldemo).2 = some t' ∧
      kfree L0 1 12288 (kalloc L0 1 kdemo).2 = .done s' ∧
      s'.freelist 1 = 12288 :: (kalloc L0 1 kdemo).2.freelist 1 ∧
      (∀ j, j ≠ 1 → s'.freelist j = (kalloc L0 1 kdemo).2.freelist j) ∧ Rep L0 t' s') ∧
    (∃ d rest t1 t2 s2, d < L0.NCPU ∧ d ≠ 1 ∧ kdemo.freelist d = 12288 :: rest ∧
      kallocLinked L0 1 ldemo = (12288, t1) ∧ Rep L0 t1 (kalloc L0 1 kdemo).2 ∧
      (kalloc L0 1 kdemo).2.freelist d = rest ∧
      kfreeLinked L0 1 12288 t1 = some t2 ∧
      kfree L0 1 12288 (kalloc L0 1 kdemo).2 = .done s2 ∧
      s2.freelist 1 = [12288] ∧ s2.freelist d = rest ∧
      (∀ j, j ≠ 1 → j ≠ d → s2.freelist j = kdemo.freelist j) ∧ Rep L0 t2 s2) :=
  ⟨(kfree_pushes_unlisted L0 1 12288 (kallocLinked L0 1 ldemo).2 (kalloc L0 1 kdemo).2
      (by decide) (by decide) (by decide) (by decide)).1 (by decide) (by decide),
    (kfree_pushes_unlisted L0 1 12288 ldemo kdemo (by decide) (by decide) (by decide)
      (by decide)).2 (by decide) (by decide) (by decide) _ rfl⟩

end Kalloc
